import Mathlib

/-!
# Limit order book (`Assignment/Orderbook.cpp`): shallow embedding

The C++ program keeps every `Order` on the free store and refers to it through
raw pointers held by three containers of `OrderBook`:

* `orders     : unordered_map<uint64_t, Order *>`
* `buyOrders  : set<Order *, BuyComparator>`
* `sellOrders : set<Order *, SellComparator>`

The embedding keeps that shape.  The free store is a list of cells addressed by
their index (`new` appends a cell, `delete` empties it), a `std::set` is the
list of its elements in iteration order, and the `unordered_map` is an
association list with at most one entry per key.

Prices are `double` in the source.  The program only copies and compares
prices, and the comparison of finite doubles agrees with the comparison of the
rationals they denote, so a price is a rational number here (NaN and the
infinities are not represented).  The `uint64_t` fields are natural numbers;
the only arithmetic that can wrap, the running sum of `aggregateLevels`, is
reduced modulo `2 ^ 64`.

The text written to `cout` by `match` is the list of `Trade` records returned
next to the new state; `printOrderBook` only prints and is not embedded.

The source leaves to the run-time environment which address `new` returns and
in which order the hash table keeps its entries.  `place`, `addOrder`,
`amendOrder` and `exec` describe the run in which `new` returns the next unused
address and the table keeps insertion order; `placeAt`, `addOrderAt`,
`amendOrderAt` and `execAt` perform the same statements with both choices taken
as a parameter, and the first four are the instance `nextChoice` of them.
-/

namespace HFT

/-! ## Data model -/

/-- A limit price (`double` in the source, finite values only). -/
abbrev Price := ℚ

/-- An address on the free store (`Order *`). -/
abbrev Ptr := Nat

/-- The record `struct Order`. -/
structure Order where
  id : Nat
  isBuy : Bool
  price : Price
  quantity : Nat
  timestampInNanoSeconds : Nat
deriving DecidableEq

/-- The record `struct PriceLevel`. -/
structure PriceLevel where
  price : Price
  totalQuantity : Nat
deriving DecidableEq

/-- One line `TRADE: BuyID=.. SellID=.. Price=.. Qty=..` written by `match`. -/
structure Trade where
  buyId : Nat
  sellId : Nat
  price : Price
  qty : Nat
deriving DecidableEq

/-- Strict ordering of the bid index: `BuyComparator::operator()`. -/
def BuyComparator (a b : Order) : Bool :=
  if a.price ≠ b.price then decide (a.price > b.price)
  else decide (a.timestampInNanoSeconds < b.timestampInNanoSeconds)

/-- Strict ordering of the ask index: `SellComparator::operator()`. -/
def SellComparator (a b : Order) : Bool :=
  if a.price ≠ b.price then decide (a.price < b.price)
  else decide (a.timestampInNanoSeconds < b.timestampInNanoSeconds)

/-- Price-time priority as the specification words it: `a` and `b` are on the
same side and `a` has the more aggressive price (higher for a buy, lower for a
sell), or the same price and the earlier arrival timestamp. -/
def Order.hasPriorityOver (a b : Order) : Prop :=
  a.isBuy = b.isBuy ∧
    ((if a.isBuy then b.price < a.price else a.price < b.price) ∨
      (a.price = b.price ∧ a.timestampInNanoSeconds < b.timestampInNanoSeconds))

/-- The part of an order that no statement of the program changes after
construction: everything but the quantity. -/
def Order.static (o : Order) : Order := { o with quantity := 0 }

/-! ## The free store -/

/-- The free store: cell `p` holds the object at address `p`, or nothing once
it has been deleted. -/
abbrev Heap := List (Option Order)

/-- What reading through a pointer that refers to no object yields in the
embedding (undefined behaviour in the source). -/
def Order.dangling : Order := ⟨0, false, 0, 0, 0⟩

/-- The cell at address `p`, if it holds an object. -/
def Heap.cell (h : Heap) (p : Ptr) : Option Order := (h[p]?).join

/-- Whether `p` points to an object that has not been deleted. -/
def Heap.live (h : Heap) (p : Ptr) : Bool := (h.cell p).isSome

/-- Reading `*p`. -/
def Heap.deref (h : Heap) (p : Ptr) : Order := (h.cell p).getD Order.dangling

/-- The statement `new Order(o)`: the new heap and the address returned. -/
def Heap.alloc (h : Heap) (o : Order) : Heap × Ptr := (h ++ [some o], h.length)

/-- The statement `delete p`. -/
def Heap.free (h : Heap) (p : Ptr) : Heap := h.set p none

/-- The assignment `p->quantity = q` (nothing happens when `p` is dangling). -/
def Heap.setQuantity (h : Heap) (p : Ptr) (q : Nat) : Heap :=
  match h.cell p with
  | some o => h.set p (some { o with quantity := q })
  | none => h

/-! ## `std::set<Order *, Compare>` as the list of its elements in order -/

/-- The call `s.insert(o)`: `o` is placed before the first element it precedes;
an element equivalent to `o` (neither precedes the other) makes the call a
no-op, as for every `std::set`. -/
def setInsert (lt : Ptr → Ptr → Bool) (o : Ptr) : List Ptr → List Ptr
  | [] => [o]
  | x :: xs =>
    if lt o x then o :: x :: xs
    else if lt x o then x :: setInsert lt o xs
    else x :: xs

/-- The call `s.erase(k)` with a key: the element equivalent to `k`, if there is
one, is removed. -/
def setErase (lt : Ptr → Ptr → Bool) (k : Ptr) : List Ptr → List Ptr
  | [] => []
  | x :: xs =>
    if lt x k then x :: setErase lt k xs
    else if lt k x then x :: xs
    else xs

/-! ## `std::unordered_map<uint64_t, Order *>` as an association list -/

/-- The call `m.find(k)`: the mapped pointer, or `none` for `m.end()`. -/
def mapFind (m : List (Nat × Ptr)) (k : Nat) : Option Ptr :=
  match m with
  | [] => none
  | (k', v) :: rest => if k' = k then some v else mapFind rest k

/-- The call `m.erase(k)`. -/
def mapErase (m : List (Nat × Ptr)) (k : Nat) : List (Nat × Ptr) :=
  m.filter (fun e => decide (e.1 ≠ k))

/-- The assignment `m[k] = v`. -/
def mapAssign (m : List (Nat × Ptr)) (k : Nat) (v : Ptr) : List (Nat × Ptr) :=
  match m with
  | [] => [(k, v)]
  | (k', v') :: rest => if k' = k then (k, v) :: rest else (k', v') :: mapAssign rest k v

/-! ## The order book -/

/-- The state of the program: the free store and the three containers of
`struct OrderBook`. -/
structure OrderBook where
  heap : Heap
  orders : List (Nat × Ptr)
  buyOrders : List Ptr
  sellOrders : List Ptr
deriving DecidableEq

namespace OrderBook

/-- A freshly constructed book. -/
def empty : OrderBook := ⟨[], [], [], []⟩

/-- Reading `*p` in the state `b`. -/
def deref (b : OrderBook) (p : Ptr) : Order := b.heap.deref p

/-- The bid ordering on pointers, in the state `b`. -/
def buyLt (b : OrderBook) (p q : Ptr) : Bool := BuyComparator (b.deref p) (b.deref q)

/-- The ask ordering on pointers, in the state `b`. -/
def sellLt (b : OrderBook) (p q : Ptr) : Bool := SellComparator (b.deref p) (b.deref q)

/-- The first half of the body of the `while` loop of `match` (from the
computation of `tradedQty` to `// Reduce quantities`): the trade printed and the
state once both quantities have been reduced.  `tradedQty` is at most either
quantity, so the unsigned subtractions do not wrap when `bestBuy` and
`bestSell` are different live objects. -/
def matchFill (b : OrderBook) (bestBuy bestSell : Ptr) : Trade × OrderBook :=
  let tradedQty := min (b.deref bestBuy).quantity (b.deref bestSell).quantity
  let tradePrice := (b.deref bestSell).price
  let t : Trade := ⟨(b.deref bestBuy).id, (b.deref bestSell).id, tradePrice, tradedQty⟩
  -- bestBuy->quantity -= tradedQty;
  let b1 := { b with heap := b.heap.setQuantity bestBuy ((b.deref bestBuy).quantity - tradedQty) }
  -- bestSell->quantity -= tradedQty;
  let b2 :=
    { b1 with heap := b1.heap.setQuantity bestSell ((b1.deref bestSell).quantity - tradedQty) }
  (t, b2)

/-- The second half of the body of the loop (`// Remove fully filled orders`). -/
def removeFilled (b : OrderBook) (bestBuy bestSell : Ptr) : OrderBook :=
  let b1 :=
    if (b.deref bestBuy).quantity = 0 then
      { b with
        buyOrders := b.buyOrders.tail
        orders := mapErase b.orders (b.deref bestBuy).id
        heap := b.heap.free bestBuy }
    else b
  if (b1.deref bestSell).quantity = 0 then
    { b1 with
      sellOrders := b1.sellOrders.tail
      orders := mapErase b1.orders (b1.deref bestSell).id
      heap := b1.heap.free bestSell }
  else b1

/-- One pass through the `while` loop of `match`.  `none` is the exit from the
loop (the loop condition fails, or the `break` is taken); otherwise the trade
printed and the state at the end of the body. -/
def matchStep (b : OrderBook) : Option (Trade × OrderBook) :=
  match b.buyOrders, b.sellOrders with
  | bestBuy :: _, bestSell :: _ =>
    if (b.deref bestBuy).price < (b.deref bestSell).price then none
    else
      some ((b.matchFill bestBuy bestSell).1,
        (b.matchFill bestBuy bestSell).2.removeFilled bestBuy bestSell)
  | _, _ => none

/-- The `while` loop of `match`, run for at most `fuel` passes. -/
def matchLoop : Nat → OrderBook → OrderBook × List Trade
  | 0, b => (b, [])
  | fuel + 1, b =>
    match b.matchStep with
    | none => (b, [])
    | some (t, b') => ((matchLoop fuel b').1, t :: (matchLoop fuel b').2)

/-- The method `match()`: the final state and the trades printed, in order.
Every pass removes an order from an index, so the number of orders in the two
indices bounds the number of passes. -/
def match_ (b : OrderBook) : OrderBook × List Trade :=
  matchLoop (b.buyOrders.length + b.sellOrders.length) b

/-- The statements of `addOrder(order)` that precede the call of `match()`: the
order is copied to the free store, entered in the table under its id and
inserted in the index of its side. -/
def place (b : OrderBook) (order : Order) : OrderBook :=
  -- Order *o = new Order(order);
  let o := (b.heap.alloc order).2
  let b1 := { b with heap := (b.heap.alloc order).1 }
  -- orders[order.id] = o;
  let b2 := { b1 with orders := mapAssign b1.orders order.id o }
  if order.isBuy then { b2 with buyOrders := setInsert b2.buyLt o b2.buyOrders }
  else { b2 with sellOrders := setInsert b2.sellLt o b2.sellOrders }

/-- The method `addOrder(order)`: the final state and the trades printed. -/
def addOrder (b : OrderBook) (order : Order) : OrderBook × List Trade :=
  (b.place order).match_

/-- The method `cancelOrder(orderId)`: the new state and the value returned. -/
def cancelOrder (b : OrderBook) (orderId : Nat) : OrderBook × Bool :=
  match mapFind b.orders orderId with
  | none => (b, false)
  | some order =>
    let b1 :=
      if (b.deref order).isBuy then { b with buyOrders := setErase b.buyLt order b.buyOrders }
      else { b with sellOrders := setErase b.sellLt order b.sellOrders }
    -- delete order;
    let b2 := { b1 with heap := b1.heap.free order }
    -- orders.erase(it);
    let b3 := { b2 with orders := mapErase b2.orders orderId }
    (b3, true)

/-- The method `amendOrder(orderId, newPrice, newQuantity)`; `now` is the value
`get_current_timestamp()` returns if it is called.  The result is the new
state, the value returned and the trades printed. -/
def amendOrder (b : OrderBook) (orderId : Nat) (newPrice : Price) (newQuantity : Nat)
    (now : Nat) : OrderBook × Bool × List Trade :=
  match mapFind b.orders orderId with
  | none => (b, false, [])
  | some order =>
    if (b.deref order).price ≠ newPrice then
      let isBuy := (b.deref order).isBuy
      let b1 := (b.cancelOrder orderId).1
      let newOrder : Order := ⟨orderId, isBuy, newPrice, newQuantity, now⟩
      ((b1.addOrder newOrder).1, true, (b1.addOrder newOrder).2)
    else
      -- order->quantity = newQuantity;
      let b1 := { b with heap := b.heap.setQuantity order newQuantity }
      ((b1.match_).1, true, (b1.match_).2)

/-- The loop of `aggregateLevels` over the remaining elements `orderSet` of the
index, carrying the locals `levels`, `currentPrice` and `totalQty`, followed by
the statement after the loop. -/
def aggregateLoop (h : Heap) (depth : Nat) :
    List Ptr → List PriceLevel → Price → Nat → List PriceLevel
  | [], levels, currentPrice, totalQty =>
    if totalQty > 0 ∧ levels.length < depth then levels ++ [PriceLevel.mk currentPrice totalQty]
    else levels
  | p :: rest, levels, currentPrice, totalQty =>
    let currentPrice1 := if currentPrice = -1 then (h.deref p).price else currentPrice
    if (h.deref p).price ≠ currentPrice1 then
      if (levels ++ [PriceLevel.mk currentPrice1 totalQty]).length = depth then
        levels ++ [PriceLevel.mk currentPrice1 totalQty]
      else
        aggregateLoop h depth rest (levels ++ [PriceLevel.mk currentPrice1 totalQty])
          (h.deref p).price ((0 + (h.deref p).quantity) % 2 ^ 64)
    else
      aggregateLoop h depth rest levels currentPrice1 ((totalQty + (h.deref p).quantity) % 2 ^ 64)

/-- The method `aggregateLevels(orderSet, depth, levels)`: the final `levels`. -/
def aggregateLevels (b : OrderBook) (orderSet : List Ptr) (depth : Nat) : List PriceLevel :=
  aggregateLoop b.heap depth orderSet [] (-1) 0

/-- The method `getSnapshot(depth, bids, asks)`: the final `bids` and `asks`. -/
def getSnapshot (b : OrderBook) (depth : Nat) : List PriceLevel × List PriceLevel :=
  (b.aggregateLevels b.buyOrders depth, b.aggregateLevels b.sellOrders depth)

/-! ## Sequences of calls -/

end OrderBook

/-- A call of one of the three mutating methods; `now` is the reading of the
clock that `amendOrder` takes if it re-adds the order. -/
inductive Op where
  | add (order : Order)
  | cancel (orderId : Nat)
  | amend (orderId : Nat) (newPrice : Price) (newQuantity : Nat) (now : Nat)
deriving DecidableEq

namespace OrderBook

/-- Performing one call: the new state, the trades printed and the value
returned (`none` for `addOrder`, which returns `void`). -/
def exec (b : OrderBook) : Op → OrderBook × List Trade × Option Bool
  | .add order => ((b.addOrder order).1, (b.addOrder order).2, none)
  | .cancel orderId => ((b.cancelOrder orderId).1, [], some (b.cancelOrder orderId).2)
  | .amend orderId newPrice newQuantity now =>
    ((b.amendOrder orderId newPrice newQuantity now).1,
      (b.amendOrder orderId newPrice newQuantity now).2.2,
      some (b.amendOrder orderId newPrice newQuantity now).2.1)

/-- The state after a sequence of calls made on the state `b`. -/
def runFrom (b : OrderBook) (ops : List Op) : OrderBook :=
  ops.foldl (fun s op => (s.exec op).1) b

/-- The state after a sequence of calls made on a fresh book. -/
def run (ops : List Op) : OrderBook := runFrom empty ops

/-! ## State predicates -/

/-- No crossable pair: an index is empty, or the first bid is priced strictly
below the first ask. -/
def Quiescent (b : OrderBook) : Prop :=
  b.buyOrders = [] ∨ b.sellOrders = [] ∨
    ∃ bid ask, b.buyOrders.head? = some bid ∧ b.sellOrders.head? = some ask ∧
      (b.deref bid).price < (b.deref ask).price

/-- The representation invariant of the three containers: every pointer held
refers to an object that has not been deleted, an index holds only orders of
its side and is strictly increasing for its comparator (what `std::set`
maintains), and the table maps each key to an order carrying that id, with one
entry per key. -/
def WF (b : OrderBook) : Prop :=
  (∀ p ∈ b.buyOrders, b.heap.live p = true ∧ (b.deref p).isBuy = true) ∧
  (∀ p ∈ b.sellOrders, b.heap.live p = true ∧ (b.deref p).isBuy = false) ∧
  b.buyOrders.Pairwise (fun p q => b.buyLt p q = true) ∧
  b.sellOrders.Pairwise (fun p q => b.sellLt p q = true) ∧
  (∀ e ∈ b.orders, b.heap.live e.2 = true ∧ (b.deref e.2).id = e.1) ∧
  (b.orders.map Prod.fst).Nodup

/-- What a pass of the loop leaves in the indices is part of what was there,
and the objects left keep everything but their quantity. -/
def Shrinks (s s' : OrderBook) : Prop :=
  s'.buyOrders.Sublist s.buyOrders ∧ s'.sellOrders.Sublist s.sellOrders ∧
    ∀ r ∈ s'.buyOrders ++ s'.sellOrders,
      (s'.heap.cell r).map Order.static = (s.heap.cell r).map Order.static

/-- The pointers the containers hold: the live orders of the book. -/
def livePtrs (b : OrderBook) : List Ptr :=
  b.orders.map Prod.snd ++ b.buyOrders ++ b.sellOrders

/-- The table and the indices hold the same objects. -/
def Mirror (b : OrderBook) : Prop :=
  ∀ p, p ∈ b.orders.map Prod.snd ↔ p ∈ b.buyOrders ∨ p ∈ b.sellOrders

/-- The consistency of the three containers as the specification words it: the
keys of the lookup table are the ids found in the two indices (each set of ids
contains the other), no id is found in both indices, and each index holds
orders of its side only. -/
def Consistent (b : OrderBook) : Prop :=
  (∀ k ∈ b.orders.map Prod.fst,
    k ∈ (b.buyOrders ++ b.sellOrders).map (fun p => (b.deref p).id)) ∧
  (∀ k ∈ (b.buyOrders ++ b.sellOrders).map (fun p => (b.deref p).id),
    k ∈ b.orders.map Prod.fst) ∧
  (∀ p ∈ b.buyOrders, ∀ q ∈ b.sellOrders, (b.deref p).id ≠ (b.deref q).id) ∧
  (∀ p ∈ b.buyOrders, (b.deref p).isBuy = true) ∧
  (∀ p ∈ b.sellOrders, (b.deref p).isBuy = false)

/-- Whether `amendOrder(orderId, newPrice, _)` finds the order and takes its
price-change branch, in which it reads the clock. -/
def readsClock (b : OrderBook) (orderId : Nat) (newPrice : Price) : Bool :=
  match mapFind b.orders orderId with
  | none => false
  | some order => decide ((b.deref order).price ≠ newPrice)

/-- What the caller has to guarantee for a call made on the state `b`: an added
order has an id and an arrival timestamp that no live order has, and the
timestamp that a price-changing `amendOrder` takes from the clock (after it has
cancelled the order) is that of no live order. -/
def Admissible (b : OrderBook) : Op → Prop
  | .add order =>
    ∀ p ∈ b.livePtrs, (b.deref p).id ≠ order.id ∧
      (b.deref p).timestampInNanoSeconds ≠ order.timestampInNanoSeconds
  | .cancel _ => True
  | .amend orderId newPrice _ now =>
    b.readsClock orderId newPrice = true →
      ∀ p ∈ (b.cancelOrder orderId).1.livePtrs,
        ((b.cancelOrder orderId).1.deref p).timestampInNanoSeconds ≠ now

/-- Every call of the sequence is admissible on the state it is made on. -/
def AdmissibleSeq (b : OrderBook) : List Op → Prop
  | [] => True
  | op :: rest => b.Admissible op ∧ AdmissibleSeq (b.exec op).1 rest

/-- Admissibility of a call can be checked on a concrete state. -/
instance decidableAdmissible (b : OrderBook) : (op : Op) → Decidable (b.Admissible op)
  | .add order =>
    inferInstanceAs (Decidable (∀ p ∈ b.livePtrs, (b.deref p).id ≠ order.id ∧
      (b.deref p).timestampInNanoSeconds ≠ order.timestampInNanoSeconds))
  | .cancel _ => isTrue trivial
  | .amend orderId newPrice _ now =>
    inferInstanceAs (Decidable (b.readsClock orderId newPrice = true →
      ∀ p ∈ (b.cancelOrder orderId).1.livePtrs,
        ((b.cancelOrder orderId).1.deref p).timestampInNanoSeconds ≠ now))

/-- Admissibility of a sequence of calls can be checked on a concrete state. -/
instance decidableAdmissibleSeq : (b : OrderBook) → (ops : List Op) →
    Decidable (AdmissibleSeq b ops)
  | _, [] => isTrue trivial
  | b, op :: rest =>
    have := decidableAdmissibleSeq (b.exec op).1 rest
    inferInstanceAs (Decidable (b.Admissible op ∧ AdmissibleSeq (b.exec op).1 rest))

/-- Consistency can be checked on a concrete state. -/
instance decidableConsistent (b : OrderBook) : Decidable b.Consistent := by
  unfold Consistent
  infer_instance

/-- No two live orders carry the same id. -/
def DistinctIds (b : OrderBook) : Prop :=
  ∀ p ∈ b.livePtrs, ∀ q ∈ b.livePtrs, (b.deref p).id = (b.deref q).id → p = q

/-- No two live orders of the same side carry the same price and the same
arrival timestamp. -/
def DistinctKeys (b : OrderBook) : Prop :=
  ∀ p ∈ b.livePtrs, ∀ q ∈ b.livePtrs, (b.deref p).isBuy = (b.deref q).isBuy →
    (b.deref p).price = (b.deref q).price →
    (b.deref p).timestampInNanoSeconds = (b.deref q).timestampInNanoSeconds → p = q

/-- Distinctness of the ids can be checked on a concrete state. -/
instance decidableDistinctIds (b : OrderBook) : Decidable b.DistinctIds := by
  unfold DistinctIds
  infer_instance

/-- Distinctness of the index keys can be checked on a concrete state. -/
instance decidableDistinctKeys (b : OrderBook) : Decidable b.DistinctKeys := by
  unfold DistinctKeys
  infer_instance

/-- The price-change amend as the specification words it: `cancel` followed by
`add` of a new order with the same id and side, the new price and quantity and
the freshly generated arrival timestamp `t`.  The result is the final state and
the trades printed. -/
def cancelThenAdd (b : OrderBook) (orderId : Nat) (newPrice : Price) (newQuantity : Nat)
    (t : Nat) : OrderBook × List Trade :=
  match mapFind b.orders orderId with
  | none => (b, [])
  | some order =>
    (b.cancelOrder orderId).1.addOrder
      ⟨orderId, (b.deref order).isBuy, newPrice, newQuantity, t⟩

/-- Priority can be checked on concrete orders. -/
instance decidableHasPriorityOver (a b : Order) : Decidable (a.hasPriorityOver b) := by
  unfold Order.hasPriorityOver
  infer_instance

/-- The invariant can be checked on a concrete state. -/
instance decidableWF (b : OrderBook) : Decidable b.WF := by
  unfold WF
  infer_instance

/-- The book of Scenario C: one bid of 100 at 105.0 and one ask of 60 at 103.0,
placed in the containers without running the crossing loop. -/
def scenarioC : OrderBook :=
  (empty.place ⟨1, true, 105, 100, 1⟩).place ⟨2, false, 103, 60, 2⟩

/-- Two bids at 100.0 passed to `addOrder` in the reverse of their arrival order
(id 2 with timestamp 7 first, then id 1 with timestamp 3) and an ask of 7 at
100.0, placed in the containers without running the crossing loop. -/
def priorityBook : OrderBook :=
  ((empty.place ⟨2, true, 100, 5, 7⟩).place ⟨1, true, 100, 5, 3⟩).place ⟨3, false, 100, 7, 9⟩

/-- The calls that `main` makes, in order, with the successive readings of the
clock taken to be 1, 2, ...; then a price-changing amend of order 1 that crosses
the book. -/
def mainCalls : List Op :=
  [.add ⟨1, true, 101, 100, 1⟩, .add ⟨2, true, 100, 50, 2⟩, .add ⟨3, false, 102, 70, 3⟩,
    .add ⟨4, false, 103, 30, 4⟩, .add ⟨5, true, 101, 150, 5⟩, .amend 2 100 200 6,
    .cancel 3, .add ⟨6, true, 99, 80, 7⟩, .add ⟨7, false, 104, 20, 8⟩,
    .add ⟨8, false, 102, 10, 9⟩, .amend 1 103 100 10]

/-- The book of Scenario A: the state after the first five calls of `main`. -/
def scenarioA : OrderBook := run (mainCalls.take 5)

/-! ## Measures of a state and of an output -/

/-- The number of orders resting in the two indices. -/
def size (b : OrderBook) : Nat := b.buyOrders.length + b.sellOrders.length

/-- The total remaining quantity resting in the bid index. -/
def bidTotal (b : OrderBook) : Nat := (b.buyOrders.map (fun p => (b.deref p).quantity)).sum

/-- The total remaining quantity resting in the ask index. -/
def askTotal (b : OrderBook) : Nat := (b.sellOrders.map (fun p => (b.deref p).quantity)).sum

/-- The total quantity of a list of printed trades. -/
def tradedTotal (ts : List Trade) : Nat := (ts.map (fun t => t.qty)).sum

/-! ## The index orderings as the specification words them -/

/-- Order `a` sorts before order `b` in the bid index: `a` has the higher price,
or the prices are equal and `a` arrived earlier. -/
def BidBefore (a b : Order) : Prop :=
  a.price > b.price ∨
    (a.price = b.price ∧ a.timestampInNanoSeconds < b.timestampInNanoSeconds)

/-- Order `a` sorts before order `b` in the ask index: `a` has the lower price,
or the prices are equal and `a` arrived earlier. -/
def AskBefore (a b : Order) : Prop :=
  a.price < b.price ∨
    (a.price = b.price ∧ a.timestampInNanoSeconds < b.timestampInNanoSeconds)

/-- What a sequence of calls made on the state `b` lets the caller observe, call
by call: the trades printed and the value returned. -/
def outputs (b : OrderBook) : List Op → List (List Trade × Option Bool)
  | [] => []
  | op :: rest => (b.exec op).2 :: outputs (b.exec op).1 rest

/-! ## Positive quantities -/

/-- Every live order has a positive remaining quantity. -/
def AllPositive (b : OrderBook) : Prop :=
  ∀ p ∈ b.livePtrs, 0 < (b.deref p).quantity

/-- The call, if it is an `addOrder`, adds an order of positive quantity. -/
def AddsPositive : Op → Prop
  | .add order => 0 < order.quantity
  | .cancel _ => True
  | .amend _ _ _ _ => True

/-- The call passes a positive quantity, if it passes one: an `addOrder` adds an
order of positive quantity and an `amendOrder` sets a positive quantity. -/
def PassesPositive : Op → Prop
  | .add order => 0 < order.quantity
  | .cancel _ => True
  | .amend _ _ newQuantity _ => 0 < newQuantity

/-- Positivity of the live quantities can be checked on a concrete state. -/
instance decidableAllPositive (b : OrderBook) : Decidable b.AllPositive := by
  unfold AllPositive
  infer_instance

/-- Positivity of the added quantity can be checked on a concrete call. -/
instance decidableAddsPositive : (op : Op) → Decidable (AddsPositive op)
  | .add order => inferInstanceAs (Decidable (0 < order.quantity))
  | .cancel _ => isTrue trivial
  | .amend _ _ _ _ => isTrue trivial

/-- Positivity of the passed quantity can be checked on a concrete call. -/
instance decidablePassesPositive : (op : Op) → Decidable (PassesPositive op)
  | .add order => inferInstanceAs (Decidable (0 < order.quantity))
  | .cancel _ => isTrue trivial
  | .amend _ _ newQuantity _ => inferInstanceAs (Decidable (0 < newQuantity))

/-- An add of 10 at 100.0 followed by an amend of the same order, at the same
price, to quantity 0. -/
def zeroAmendCalls : List Op := [.add ⟨1, true, 100, 10, 1⟩, .amend 1 100 0 2]

/-! ## Further example inputs -/

/-- Two buy orders with distinct ids and the same price and arrival timestamp,
added to a fresh book. -/
def tieCalls : List Op := [.add ⟨1, true, 100, 10, 5⟩, .add ⟨2, true, 100, 20, 5⟩]

/-- A book holding one buy order whose caller-supplied arrival timestamp is the
largest 64-bit value, `2 ^ 64 - 1`. -/
def lateStampBook : OrderBook := run [.add ⟨1, true, 100, 10, 18446744073709551615⟩]

/-! ## Replaying a sequence of calls -/

/-- The second call is the first call replayed on the state `b`: the same
method with the same arguments, and the same reading of the clock if
`amendOrder` reads the clock. -/
def SameCall (b : OrderBook) : Op → Op → Prop
  | .add order1, .add order2 => order1 = order2
  | .cancel orderId1, .cancel orderId2 => orderId1 = orderId2
  | .amend orderId1 newPrice1 newQuantity1 now1, .amend orderId2 newPrice2 newQuantity2 now2 =>
    orderId1 = orderId2 ∧ newPrice1 = newPrice2 ∧ newQuantity1 = newQuantity2 ∧
      (b.readsClock orderId1 newPrice1 = true → now1 = now2)
  | _, _ => False

/-- The second sequence is the first sequence replayed, call by call, on the
states that the first run goes through from `b`. -/
def SameCalls (b : OrderBook) : List Op → List Op → Prop
  | [], [] => True
  | op1 :: rest1, op2 :: rest2 => b.SameCall op1 op2 ∧ SameCalls (b.exec op1).1 rest1 rest2
  | _, _ => False

/-- Whether a call is a replay of another can be checked on a concrete state. -/
instance decidableSameCall (b : OrderBook) : (op1 op2 : Op) → Decidable (b.SameCall op1 op2)
  | .add order1, .add order2 => inferInstanceAs (Decidable (order1 = order2))
  | .cancel orderId1, .cancel orderId2 => inferInstanceAs (Decidable (orderId1 = orderId2))
  | .amend orderId1 newPrice1 newQuantity1 now1, .amend orderId2 newPrice2 newQuantity2 now2 =>
    inferInstanceAs (Decidable (orderId1 = orderId2 ∧ newPrice1 = newPrice2 ∧
      newQuantity1 = newQuantity2 ∧ (b.readsClock orderId1 newPrice1 = true → now1 = now2)))
  | .add _, .cancel _ => isFalse (fun h => h)
  | .add _, .amend _ _ _ _ => isFalse (fun h => h)
  | .cancel _, .add _ => isFalse (fun h => h)
  | .cancel _, .amend _ _ _ _ => isFalse (fun h => h)
  | .amend _ _ _ _, .add _ => isFalse (fun h => h)
  | .amend _ _ _ _, .cancel _ => isFalse (fun h => h)

/-- Whether a sequence is a replay of another can be checked on a concrete
state. -/
instance decidableSameCalls : (b : OrderBook) → (ops1 ops2 : List Op) →
    Decidable (SameCalls b ops1 ops2)
  | _, [], [] => isTrue trivial
  | b, op1 :: rest1, op2 :: rest2 =>
    have := decidableSameCalls (b.exec op1).1 rest1 rest2
    inferInstanceAs (Decidable (b.SameCall op1 op2 ∧ SameCalls (b.exec op1).1 rest1 rest2))
  | _, [], _ :: _ => isFalse (fun h => h)
  | _, _ :: _, [] => isFalse (fun h => h)

/-- The calls of `mainCalls` with another value in the place of the clock
reading of the in-place amend of order 2, which does not read the clock. -/
def mainCallsReplayed : List Op :=
  [.add ⟨1, true, 101, 100, 1⟩, .add ⟨2, true, 100, 50, 2⟩, .add ⟨3, false, 102, 70, 3⟩,
    .add ⟨4, false, 103, 30, 4⟩, .add ⟨5, true, 101, 150, 5⟩, .amend 2 100 200 77,
    .cancel 3, .add ⟨6, true, 99, 80, 7⟩, .add ⟨7, false, 104, 20, 8⟩,
    .add ⟨8, false, 102, 10, 9⟩, .amend 1 103 100 10]

/-! ## Aggregation as the specification words it -/

/-- The sum of the quantities of the orders of `orderSet` priced at `price`, as a
natural number (not reduced modulo `2 ^ 64`). -/
def quantityAt (b : OrderBook) (orderSet : List Ptr) (price : Price) : Nat :=
  ((orderSet.filter (fun p => decide ((b.heap.deref p).price = price))).map
    (fun p => (b.heap.deref p).quantity)).sum

/-- The distinct prices found in `orderSet`, in the order of `orderSet`. -/
def distinctPrices (b : OrderBook) (orderSet : List Ptr) : List Price :=
  (orderSet.map (fun p => (b.heap.deref p).price)).dedup

/-- The aggregation of `orderSet` to `depth` levels as the specification words
it: one level for each of the first `depth` distinct prices, carrying the sum
of the quantities of all the orders at that price. -/
def levelsSpec (b : OrderBook) (orderSet : List Ptr) (depth : Nat) : List PriceLevel :=
  ((b.distinctPrices orderSet).take depth).map (fun price => ⟨price, b.quantityAt orderSet price⟩)

/-! ## A cancelled order that shared a key -/

/-- Two buys at 100.0, id 1 arriving at timestamp 1 and id 2 at timestamp 2;
then a third buy at 100.0, id 9, carrying the timestamp 1 of order 1, which is
cancelled again by the fourth call. -/
def staleTieCalls : List Op :=
  [.add ⟨1, true, 100, 10, 1⟩, .add ⟨2, true, 100, 20, 2⟩, .add ⟨9, true, 100, 5, 1⟩,
    .cancel 9]

/-! ## Runs under an arbitrary allocator and an arbitrary table layout

The methods above fix two things that the source leaves to the run-time
environment: `new` returns the next unused address, and the lookup table keeps
its entries in insertion order.  The definitions of this section perform the
same statements with both left open. -/

end OrderBook

/-- The statement `new Order(o)` when the allocator returns the address `p`: the
cell at `p` receives the object (the list of cells is extended up to `p` if it
is shorter). -/
def Heap.allocAt (h : Heap) (p : Ptr) (o : Order) : Heap :=
  (h ++ List.replicate (p + 1 - h.length) none).set p (some o)

/-- What the run-time environment chooses in a call that creates an order: the
address that `new` returns, and the rearrangement of the entries of the lookup
table that `orders[id] = o` may cause (an `unordered_map` may rehash when it
inserts; no other statement of the program moves the entries that remain). -/
structure Choice where
  addr : Ptr
  rehash : List (Nat × Ptr) → List (Nat × Ptr)

namespace OrderBook

/-- The statements of `addOrder(order)` that precede the call of `match()`, under
the choice `c` of the environment. -/
def placeAt (b : OrderBook) (c : Choice) (order : Order) : OrderBook :=
  -- Order *o = new Order(order);
  let o := c.addr
  let b1 := { b with heap := b.heap.allocAt o order }
  -- orders[order.id] = o;
  let b2 := { b1 with orders := c.rehash (mapAssign b1.orders order.id o) }
  if order.isBuy then { b2 with buyOrders := setInsert b2.buyLt o b2.buyOrders }
  else { b2 with sellOrders := setInsert b2.sellLt o b2.sellOrders }

/-- The method `addOrder(order)` under the choice `c`. -/
def addOrderAt (b : OrderBook) (c : Choice) (order : Order) : OrderBook × List Trade :=
  (b.placeAt c order).match_

/-- The method `amendOrder(orderId, newPrice, newQuantity)` under the choice `c`,
which is used if the order is re-added. -/
def amendOrderAt (b : OrderBook) (c : Choice) (orderId : Nat) (newPrice : Price)
    (newQuantity : Nat) (now : Nat) : OrderBook × Bool × List Trade :=
  match mapFind b.orders orderId with
  | none => (b, false, [])
  | some order =>
    if (b.deref order).price ≠ newPrice then
      let isBuy := (b.deref order).isBuy
      let b1 := (b.cancelOrder orderId).1
      let newOrder : Order := ⟨orderId, isBuy, newPrice, newQuantity, now⟩
      ((b1.addOrderAt c newOrder).1, true, (b1.addOrderAt c newOrder).2)
    else
      -- order->quantity = newQuantity;
      let b1 := { b with heap := b.heap.setQuantity order newQuantity }
      ((b1.match_).1, true, (b1.match_).2)

/-- Performing one call under the choice `c`. -/
def execAt (b : OrderBook) (c : Choice) : Op → OrderBook × List Trade × Option Bool
  | .add order => ((b.addOrderAt c order).1, (b.addOrderAt c order).2, none)
  | .cancel orderId => ((b.cancelOrder orderId).1, [], some (b.cancelOrder orderId).2)
  | .amend orderId newPrice newQuantity now =>
    ((b.amendOrderAt c orderId newPrice newQuantity now).1,
      (b.amendOrderAt c orderId newPrice newQuantity now).2.2,
      some (b.amendOrderAt c orderId newPrice newQuantity now).2.1)

/-- The state after a sequence of calls, each made under its own choice. -/
def runAt (b : OrderBook) (calls : List (Op × Choice)) : OrderBook :=
  calls.foldl (fun s oc => (s.execAt oc.2 oc.1).1) b

/-- What the caller observes of a sequence of calls, each made under its own
choice: the trades printed and the value returned, call by call. -/
def outputsAt (b : OrderBook) : List (Op × Choice) → List (List Trade × Option Bool)
  | [] => []
  | (op, c) :: rest => (b.execAt c op).2 :: outputsAt (b.execAt c op).1 rest

/-- What every allocator and every hash table guarantees of the choice `c` made
when an order with the id `orderId` is created in the state `b`: the address
holds no object at that moment, and the rearranged table has the entries of
the table after the assignment, neither more nor fewer. -/
def ValidChoice (b : OrderBook) (c : Choice) (orderId : Nat) : Prop :=
  b.heap.live c.addr = false ∧
    (c.rehash (mapAssign b.orders orderId c.addr)).Perm (mapAssign b.orders orderId c.addr)

/-- The choice `c` is valid for the call made on the state `b`, if the call
creates an order (`amendOrder` does so after it has cancelled the old one). -/
def ValidFor (b : OrderBook) (c : Choice) : Op → Prop
  | .add order => b.ValidChoice c order.id
  | .cancel _ => True
  | .amend orderId newPrice _ _ =>
    b.readsClock orderId newPrice = true → (b.cancelOrder orderId).1.ValidChoice c orderId

/-- Every choice of the sequence is valid for its call, on the state the call is
made on. -/
def ValidChoices (b : OrderBook) : List (Op × Choice) → Prop
  | [] => True
  | (op, c) :: rest => b.ValidFor c op ∧ ValidChoices (b.execAt c op).1 rest

/-- The state `a` is the state `c` with its objects at other addresses and its
table in another layout: `f` sends the address of each object of `c` to the
address of the same object in `a`. -/
def Sim (f : Ptr → Ptr) (c a : OrderBook) : Prop :=
  (∀ k, mapFind a.orders k = (mapFind c.orders k).map f) ∧
  a.buyOrders = c.buyOrders.map f ∧
  a.sellOrders = c.sellOrders.map f ∧
  (∀ p, c.heap.live p = true → a.heap.cell (f p) = c.heap.cell p) ∧
  (∀ p q, c.heap.live p = true → c.heap.live q = true → f p = f q → p = q) ∧
  (a.orders.map Prod.fst).Nodup

/-- The choice that `place` makes: the next unused address, and the table left
as the assignment leaves it. -/
def nextChoice (b : OrderBook) : Choice := ⟨b.heap.length, fun m => m⟩

/-- Validity of a choice can be checked on a concrete state. -/
instance decidableValidChoice (b : OrderBook) (c : Choice) (orderId : Nat) :
    Decidable (b.ValidChoice c orderId) := by
  unfold ValidChoice
  infer_instance

/-- Validity of a choice for a call can be checked on a concrete state. -/
instance decidableValidFor (b : OrderBook) (c : Choice) : (op : Op) → Decidable (b.ValidFor c op)
  | .add order => inferInstanceAs (Decidable (b.ValidChoice c order.id))
  | .cancel _ => isTrue trivial
  | .amend orderId newPrice _ _ =>
    inferInstanceAs (Decidable (b.readsClock orderId newPrice = true →
      (b.cancelOrder orderId).1.ValidChoice c orderId))

/-- Validity of the choices of a sequence of calls can be checked on a concrete
state. -/
instance decidableValidChoices : (b : OrderBook) → (calls : List (Op × Choice)) →
    Decidable (ValidChoices b calls)
  | _, [] => isTrue trivial
  | b, (op, c) :: rest =>
    have := decidableValidChoices (b.execAt c op).1 rest
    inferInstanceAs (Decidable (b.ValidFor c op ∧ ValidChoices (b.execAt c op).1 rest))

/-- The calls of a sequence, each with the choice that `place` makes on the
state the call is made on (`cancelOrder` leaves the length of the free store
as it is, so the choice is the same after the cancel of a price-changing
amend). -/
def nextCalls (b : OrderBook) : List Op → List (Op × Choice)
  | [] => []
  | op :: rest => (op, b.nextChoice) :: nextCalls (b.exec op).1 rest

/-- A run of `mainCalls` in which the allocator hands out the addresses 0, 1,
2, ... and the table reverses its layout at every insertion. -/
def firstRun : List (Op × Choice) :=
  mainCalls.zip
    ([0, 1, 2, 3, 4, 5, 5, 5, 6, 7, 8].map (fun p => (⟨p, List.reverse⟩ : Choice)))

/-- A run of `mainCallsReplayed` in which the allocator hands out scattered
addresses and reuses the cells of the two orders deleted by `cancelOrder` (7 for
order 6, after the cancel of order 3, and 10 for the re-added order 1), and the
table rotates its layout at every insertion. -/
def secondRun : List (Op × Choice) :=
  mainCallsReplayed.zip
    ([10, 4, 7, 0, 2, 0, 0, 7, 1, 20, 10].map (fun p => (⟨p, fun m => m.rotate 1⟩ : Choice)))

end OrderBook

/-! ## The free store: reading after writing -/

theorem Heap.cell_lt_length (h : Heap) (p : Ptr) (o : Order) (hc : h.cell p = some o) :
    p < h.length := by
  unfold Heap.cell at hc
  by_contra hlt
  rw [List.getElem?_eq_none (Nat.le_of_not_lt hlt)] at hc
  simp at hc

theorem Heap.cell_set (h : Heap) (p r : Ptr) (v : Option Order) :
    Heap.cell (h.set p v) r = if r = p ∧ p < h.length then v else h.cell r := by
  unfold Heap.cell
  rw [List.getElem?_set]
  by_cases hrp : p = r
  · subst hrp
    by_cases hlt : p < h.length
    · simp [hlt]
    · simp [hlt, List.getElem?_eq_none (Nat.le_of_not_lt hlt)]
  · have : ¬ r = p := fun e => hrp e.symm
    simp [hrp, this]

theorem Heap.cell_free (h : Heap) (p r : Ptr) :
    (h.free p).cell r = if r = p then none else h.cell r := by
  unfold Heap.free
  rw [Heap.cell_set]
  by_cases hrp : r = p
  · subst hrp
    by_cases hlt : r < h.length
    · simp [hlt]
    · simp [hlt, Heap.cell, List.getElem?_eq_none (Nat.le_of_not_lt hlt)]
  · simp [hrp]

theorem Heap.cell_setQuantity (h : Heap) (p r : Ptr) (q : Nat) :
    (h.setQuantity p q).cell r =
      if r = p then (h.cell p).map (fun o => { o with quantity := q }) else h.cell r := by
  unfold Heap.setQuantity
  cases hc : h.cell p with
  | none =>
    by_cases hrp : r = p
    · subst hrp; simp [hc]
    · simp [hrp]
  | some o =>
    have hlt := Heap.cell_lt_length h p o hc
    simp only [Heap.cell_set, hlt, and_true, Option.map_some']

theorem Heap.cell_alloc (h : Heap) (o : Order) (r : Ptr) :
    (h.alloc o).1.cell r = if r = h.length then some o else h.cell r := by
  unfold Heap.alloc Heap.cell
  by_cases hr : r < h.length
  · have : ¬ r = h.length := Nat.ne_of_lt hr
    simp [List.getElem?_append_left hr, this]
  · by_cases he : r = h.length
    · subst he
      simp
    · have h2 : h.length ≤ r := Nat.le_of_not_lt hr
      have h1 : h.length + 1 ≤ r := Nat.lt_of_le_of_ne h2 (fun e => he e.symm)
      have h3 : (h ++ [some o]).length ≤ r := by simpa using h1
      simp [he, List.getElem?_eq_none h2, List.getElem?_eq_none h3]

/-! ## The comparators -/

theorem BuyComparator_iff (a b : Order) :
    BuyComparator a b = true ↔
      b.price < a.price ∨
        (a.price = b.price ∧ a.timestampInNanoSeconds < b.timestampInNanoSeconds) := by
  unfold BuyComparator
  by_cases hp : a.price = b.price
  · simp [hp]
  · simp [hp]

theorem SellComparator_iff (a b : Order) :
    SellComparator a b = true ↔
      a.price < b.price ∨
        (a.price = b.price ∧ a.timestampInNanoSeconds < b.timestampInNanoSeconds) := by
  unfold SellComparator
  by_cases hp : a.price = b.price
  · simp [hp]
  · simp [hp]

theorem BuyComparator_trans (a b c : Order) (hab : BuyComparator a b = true)
    (hbc : BuyComparator b c = true) : BuyComparator a c = true := by
  rw [BuyComparator_iff] at *
  rcases hab with h1 | ⟨h1, h1'⟩ <;> rcases hbc with h2 | ⟨h2, h2'⟩
  · exact Or.inl (lt_trans h2 h1)
  · exact Or.inl (h2 ▸ h1)
  · exact Or.inl (h1 ▸ h2)
  · exact Or.inr ⟨h1.trans h2, Nat.lt_trans h1' h2'⟩

theorem SellComparator_trans (a b c : Order) (hab : SellComparator a b = true)
    (hbc : SellComparator b c = true) : SellComparator a c = true := by
  rw [SellComparator_iff] at *
  rcases hab with h1 | ⟨h1, h1'⟩ <;> rcases hbc with h2 | ⟨h2, h2'⟩
  · exact Or.inl (lt_trans h1 h2)
  · exact Or.inl (h2 ▸ h1)
  · exact Or.inl (h1 ▸ h2)
  · exact Or.inr ⟨h1.trans h2, Nat.lt_trans h1' h2'⟩

theorem BuyComparator_asymm (a b : Order) (hab : BuyComparator a b = true) :
    BuyComparator b a = false := by
  rw [Bool.eq_false_iff]
  intro hba
  rw [BuyComparator_iff] at *
  rcases hab with h1 | ⟨h1, h1'⟩ <;> rcases hba with h2 | ⟨h2, h2'⟩
  · exact lt_asymm h1 h2
  · rw [h2] at h1; exact lt_irrefl _ h1
  · rw [h1] at h2; exact lt_irrefl _ h2
  · exact Nat.lt_asymm h1' h2'

theorem SellComparator_asymm (a b : Order) (hab : SellComparator a b = true) :
    SellComparator b a = false := by
  rw [Bool.eq_false_iff]
  intro hba
  rw [SellComparator_iff] at *
  rcases hab with h1 | ⟨h1, h1'⟩ <;> rcases hba with h2 | ⟨h2, h2'⟩
  · exact lt_asymm h1 h2
  · rw [h2] at h1; exact lt_irrefl _ h1
  · rw [h1] at h2; exact lt_irrefl _ h2
  · exact Nat.lt_asymm h1' h2'

theorem BuyComparator_price_le (a b : Order) (hab : BuyComparator a b = true) :
    b.price ≤ a.price := by
  rw [BuyComparator_iff] at hab
  rcases hab with h | ⟨h, _⟩
  · exact le_of_lt h
  · exact le_of_eq h.symm

theorem SellComparator_price_le (a b : Order) (hab : SellComparator a b = true) :
    a.price ≤ b.price := by
  rw [SellComparator_iff] at hab
  rcases hab with h | ⟨h, _⟩
  · exact le_of_lt h
  · exact le_of_eq h

theorem BuyComparator_static (a b : Order) :
    BuyComparator a.static b.static = BuyComparator a b := rfl

theorem SellComparator_static (a b : Order) :
    SellComparator a.static b.static = SellComparator a b := rfl

/-! ## The ordered sets -/

theorem mem_setInsert (lt : Ptr → Ptr → Bool) (o : Ptr) (xs : List Ptr) (x : Ptr)
    (hx : x ∈ setInsert lt o xs) : x = o ∨ x ∈ xs := by
  induction xs with
  | nil => simpa [setInsert] using hx
  | cons y ys ih =>
    unfold setInsert at hx
    split at hx
    · rcases List.mem_cons.mp hx with h | h
      · exact Or.inl h
      · exact Or.inr h
    · split at hx
      · rcases List.mem_cons.mp hx with h | h
        · exact Or.inr (h ▸ List.mem_cons_self _ _)
        · rcases ih h with h' | h'
          · exact Or.inl h'
          · exact Or.inr (List.mem_cons_of_mem _ h')
      · exact Or.inr hx

theorem subset_setInsert (lt : Ptr → Ptr → Bool) (o : Ptr) (xs : List Ptr) (x : Ptr)
    (hx : x ∈ xs) : x ∈ setInsert lt o xs := by
  induction xs with
  | nil => cases hx
  | cons y ys ih =>
    unfold setInsert
    split
    · exact List.mem_cons_of_mem _ hx
    · split
      · rcases List.mem_cons.mp hx with h | h
        · exact h ▸ List.mem_cons_self _ _
        · exact List.mem_cons_of_mem _ (ih h)
      · exact hx

theorem setInsert_pairwise (lt : Ptr → Ptr → Bool)
    (htrans : ∀ a b c, lt a b = true → lt b c = true → lt a c = true)
    (o : Ptr) (xs : List Ptr) (hs : xs.Pairwise (fun p q => lt p q = true)) :
    (setInsert lt o xs).Pairwise (fun p q => lt p q = true) := by
  induction xs with
  | nil => simp [setInsert]
  | cons y ys ih =>
    rw [List.pairwise_cons] at hs
    unfold setInsert
    split
    · rename_i hoy
      refine List.pairwise_cons.mpr ⟨?_, List.pairwise_cons.mpr hs⟩
      intro z hz
      rcases List.mem_cons.mp hz with h | h
      · exact h ▸ hoy
      · exact htrans _ _ _ hoy (hs.1 z h)
    · split
      · rename_i hyo
        refine List.pairwise_cons.mpr ⟨?_, ih hs.2⟩
        intro z hz
        rcases mem_setInsert lt o ys z hz with h | h
        · exact h ▸ hyo
        · exact hs.1 z h
      · exact List.pairwise_cons.mpr hs

theorem setErase_sublist (lt : Ptr → Ptr → Bool) (k : Ptr) (xs : List Ptr) :
    (setErase lt k xs).Sublist xs := by
  induction xs with
  | nil => exact List.Sublist.refl _
  | cons y ys ih =>
    unfold setErase
    split
    · exact List.Sublist.cons₂ _ ih
    · split
      · exact List.Sublist.refl _
      · exact List.sublist_cons_self _ _

theorem pairwise_lt_not_mem (lt : Ptr → Ptr → Bool)
    (hasymm : ∀ a b, lt a b = true → lt b a = false)
    (x : Ptr) (xs : List Ptr) (hs : (x :: xs).Pairwise (fun p q => lt p q = true)) :
    x ∉ xs := by
  intro hx
  have h := (List.pairwise_cons.mp hs).1 x hx
  have h' := hasymm _ _ h
  rw [h] at h'
  cases h'

theorem setErase_not_mem (lt : Ptr → Ptr → Bool)
    (hasymm : ∀ a b, lt a b = true → lt b a = false)
    (k : Ptr) (xs : List Ptr) (hs : xs.Pairwise (fun p q => lt p q = true)) :
    k ∉ setErase lt k xs := by
  induction xs with
  | nil => simp [setErase]
  | cons y ys ih =>
    have hs' := List.pairwise_cons.mp hs
    unfold setErase
    split
    · rename_i hyk
      intro hk
      rcases List.mem_cons.mp hk with h | h
      · rw [← h] at hyk
        have := hasymm _ _ hyk
        rw [hyk] at this
        cases this
      · exact ih hs'.2 h
    · split
      · rename_i hyk hky
        intro hk
        rcases List.mem_cons.mp hk with h | h
        · rw [h] at hky
          have := hasymm _ _ hky
          rw [hky] at this
          cases this
        · exact hyk (hs'.1 k h)
      · rename_i hyk hky
        intro hk
        exact hyk (hs'.1 k hk)

/-! ## The lookup table -/

theorem mapFind_mem (m : List (Nat × Ptr)) (k : Nat) (v : Ptr) (hf : mapFind m k = some v) :
    (k, v) ∈ m := by
  induction m with
  | nil => simp [mapFind] at hf
  | cons e rest ih =>
    obtain ⟨k', v'⟩ := e
    unfold mapFind at hf
    split at hf
    · rename_i hk
      cases hf
      subst hk
      exact List.mem_cons_self _ _
    · exact List.mem_cons_of_mem _ (ih hf)

theorem mapFind_eq_none (m : List (Nat × Ptr)) (k : Nat) (hk : ∀ e ∈ m, e.1 ≠ k) :
    mapFind m k = none := by
  induction m with
  | nil => rfl
  | cons e rest ih =>
    obtain ⟨k', v'⟩ := e
    unfold mapFind
    have h1 : k' ≠ k := hk (k', v') (List.mem_cons_self _ _)
    rw [if_neg h1]
    exact ih (fun e he => hk e (List.mem_cons_of_mem _ he))

theorem mapFind_isSome_of_mem (m : List (Nat × Ptr)) (k : Nat) (v : Ptr) (hm : (k, v) ∈ m) :
    ∃ w, mapFind m k = some w := by
  induction m with
  | nil => cases hm
  | cons e rest ih =>
    obtain ⟨k', v'⟩ := e
    unfold mapFind
    by_cases hk : k' = k
    · exact ⟨v', by rw [if_pos hk]⟩
    · rw [if_neg hk]
      rcases List.mem_cons.mp hm with h | h
      · cases h
        exact absurd rfl hk
      · exact ih h

theorem mem_mapErase (m : List (Nat × Ptr)) (k : Nat) (e : Nat × Ptr) :
    e ∈ mapErase m k ↔ e ∈ m ∧ e.1 ≠ k := by
  simp [mapErase, List.mem_filter]

theorem mapErase_sublist (m : List (Nat × Ptr)) (k : Nat) : (mapErase m k).Sublist m :=
  List.filter_sublist _

theorem mapFind_mapErase_self (m : List (Nat × Ptr)) (k : Nat) :
    mapFind (mapErase m k) k = none :=
  mapFind_eq_none _ _ (fun e he => ((mem_mapErase m k e).mp he).2)

theorem mapErase_of_not_mem (m : List (Nat × Ptr)) (k : Nat) (hk : ∀ e ∈ m, e.1 ≠ k) :
    mapErase m k = m := by
  unfold mapErase
  rw [List.filter_eq_self]
  intro e he
  simpa using hk e he

theorem mem_mapAssign (m : List (Nat × Ptr)) (k : Nat) (v : Ptr) (e : Nat × Ptr)
    (he : e ∈ mapAssign m k v) : e = (k, v) ∨ e ∈ m := by
  induction m with
  | nil => simpa [mapAssign] using he
  | cons x rest ih =>
    obtain ⟨k', v'⟩ := x
    unfold mapAssign at he
    split at he
    · rcases List.mem_cons.mp he with h | h
      · exact Or.inl h
      · exact Or.inr (List.mem_cons_of_mem _ h)
    · rcases List.mem_cons.mp he with h | h
      · exact Or.inr (h ▸ List.mem_cons_self _ _)
      · rcases ih h with h' | h'
        · exact Or.inl h'
        · exact Or.inr (List.mem_cons_of_mem _ h')

theorem mapAssign_keys (m : List (Nat × Ptr)) (k : Nat) (v : Ptr) :
    (mapAssign m k v).map Prod.fst =
      if k ∈ m.map Prod.fst then m.map Prod.fst else m.map Prod.fst ++ [k] := by
  induction m with
  | nil => simp [mapAssign]
  | cons x rest ih =>
    obtain ⟨k', v'⟩ := x
    unfold mapAssign
    by_cases hk : k' = k
    · subst hk
      simp
    · have hk' : ¬ k = k' := fun e => hk e.symm
      rw [if_neg hk]
      simp only [List.map_cons, ih, List.mem_cons, hk', false_or]
      split <;> simp

theorem mapAssign_keys_nodup (m : List (Nat × Ptr)) (k : Nat) (v : Ptr)
    (hn : (m.map Prod.fst).Nodup) : ((mapAssign m k v).map Prod.fst).Nodup := by
  rw [mapAssign_keys]
  split
  · exact hn
  · rename_i hk
    rw [List.nodup_append]
    refine ⟨hn, List.nodup_singleton _, ?_⟩
    intro a ha hb
    rw [List.mem_singleton] at hb
    exact hk (hb ▸ ha)

theorem mapFind_mapAssign_self (m : List (Nat × Ptr)) (k : Nat) (v : Ptr) :
    mapFind (mapAssign m k v) k = some v := by
  induction m with
  | nil => simp [mapAssign, mapFind]
  | cons x rest ih =>
    obtain ⟨k', v'⟩ := x
    unfold mapAssign
    by_cases hk : k' = k
    · rw [if_pos hk]
      simp [mapFind]
    · rw [if_neg hk]
      simp only [mapFind, if_neg hk]
      exact ih

/-! ## Objects that differ at most in their quantity -/

theorem Heap.live_congr (h h' : Heap) (r : Ptr)
    (hc : (h'.cell r).map Order.static = (h.cell r).map Order.static) :
    h'.live r = h.live r := by
  unfold Heap.live
  cases h1 : h'.cell r <;> cases h2 : h.cell r <;> simp [h1, h2] at hc ⊢

theorem Heap.deref_static_congr (h h' : Heap) (r : Ptr)
    (hc : (h'.cell r).map Order.static = (h.cell r).map Order.static) :
    (h'.deref r).static = (h.deref r).static := by
  unfold Heap.deref
  cases h1 : h'.cell r <;> cases h2 : h.cell r <;> simp [h1, h2] at hc ⊢
  exact hc

theorem Order.eq_of_static (a b : Order) (hs : a.static = b.static) :
    a.id = b.id ∧ a.isBuy = b.isBuy ∧ a.price = b.price ∧
      a.timestampInNanoSeconds = b.timestampInNanoSeconds := by
  have h1 := congrArg Order.id hs
  have h2 := congrArg Order.isBuy hs
  have h3 := congrArg Order.price hs
  have h4 := congrArg Order.timestampInNanoSeconds hs
  exact ⟨h1, h2, h3, h4⟩

theorem BuyComparator_congr (a b a' b' : Order) (ha : a'.static = a.static)
    (hb : b'.static = b.static) : BuyComparator a' b' = BuyComparator a b := by
  rw [← BuyComparator_static a' b', ← BuyComparator_static a b, ha, hb]

theorem SellComparator_congr (a b a' b' : Order) (ha : a'.static = a.static)
    (hb : b'.static = b.static) : SellComparator a' b' = SellComparator a b := by
  rw [← SellComparator_static a' b', ← SellComparator_static a b, ha, hb]

/-! ## The representation invariant is kept by every method -/

namespace OrderBook

theorem WF_empty : empty.WF := by
  simp [WF, empty]

theorem buyLt_trans (b : OrderBook) (p q r : Ptr) (h1 : b.buyLt p q = true)
    (h2 : b.buyLt q r = true) : b.buyLt p r = true :=
  BuyComparator_trans _ _ _ h1 h2

theorem sellLt_trans (b : OrderBook) (p q r : Ptr) (h1 : b.sellLt p q = true)
    (h2 : b.sellLt q r = true) : b.sellLt p r = true :=
  SellComparator_trans _ _ _ h1 h2

theorem buyLt_asymm (b : OrderBook) (p q : Ptr) (h1 : b.buyLt p q = true) :
    b.buyLt q p = false :=
  BuyComparator_asymm _ _ h1

theorem sellLt_asymm (b : OrderBook) (p q : Ptr) (h1 : b.sellLt p q = true) :
    b.sellLt q p = false :=
  SellComparator_asymm _ _ h1

theorem deref_congr (b b' : OrderBook) (r : Ptr)
    (hc : (b'.heap.cell r).map Order.static = (b.heap.cell r).map Order.static) :
    (b'.deref r).id = (b.deref r).id ∧ (b'.deref r).isBuy = (b.deref r).isBuy ∧
      (b'.deref r).price = (b.deref r).price ∧
      (b'.deref r).timestampInNanoSeconds = (b.deref r).timestampInNanoSeconds :=
  Order.eq_of_static _ _ (Heap.deref_static_congr b.heap b'.heap r hc)

theorem buyLt_congr (b b' : OrderBook) (p q : Ptr)
    (hp : (b'.heap.cell p).map Order.static = (b.heap.cell p).map Order.static)
    (hq : (b'.heap.cell q).map Order.static = (b.heap.cell q).map Order.static) :
    b'.buyLt p q = b.buyLt p q :=
  BuyComparator_congr _ _ _ _ (Heap.deref_static_congr b.heap b'.heap p hp)
    (Heap.deref_static_congr b.heap b'.heap q hq)

theorem sellLt_congr (b b' : OrderBook) (p q : Ptr)
    (hp : (b'.heap.cell p).map Order.static = (b.heap.cell p).map Order.static)
    (hq : (b'.heap.cell q).map Order.static = (b.heap.cell q).map Order.static) :
    b'.sellLt p q = b.sellLt p q :=
  SellComparator_congr _ _ _ _ (Heap.deref_static_congr b.heap b'.heap p hp)
    (Heap.deref_static_congr b.heap b'.heap q hq)

/-- A state whose containers hold part of what the containers of a well-formed
state hold, and in which the objects still held differ at most in quantity, is
well-formed. -/
theorem WF_of_sublist (b b' : OrderBook) (hwf : b.WF)
    (hbuy : b'.buyOrders.Sublist b.buyOrders) (hsell : b'.sellOrders.Sublist b.sellOrders)
    (hord : b'.orders.Sublist b.orders)
    (hcb : ∀ r ∈ b'.buyOrders,
      (b'.heap.cell r).map Order.static = (b.heap.cell r).map Order.static)
    (hcs : ∀ r ∈ b'.sellOrders,
      (b'.heap.cell r).map Order.static = (b.heap.cell r).map Order.static)
    (hco : ∀ e ∈ b'.orders,
      (b'.heap.cell e.2).map Order.static = (b.heap.cell e.2).map Order.static) :
    b'.WF := by
  obtain ⟨w1, w2, w3, w4, w5, w6⟩ := hwf
  refine ⟨?_, ?_, ?_, ?_, ?_, ?_⟩
  · intro p hp
    have h := w1 p (hbuy.subset hp)
    rw [Heap.live_congr _ _ p (hcb p hp), (deref_congr b b' p (hcb p hp)).2.1]
    exact h
  · intro p hp
    have h := w2 p (hsell.subset hp)
    rw [Heap.live_congr _ _ p (hcs p hp), (deref_congr b b' p (hcs p hp)).2.1]
    exact h
  · refine List.Pairwise.imp_of_mem ?_ (w3.sublist hbuy)
    intro p q hp hq hlt
    rw [buyLt_congr b b' p q (hcb p hp) (hcb q hq)]
    exact hlt
  · refine List.Pairwise.imp_of_mem ?_ (w4.sublist hsell)
    intro p q hp hq hlt
    rw [sellLt_congr b b' p q (hcs p hp) (hcs q hq)]
    exact hlt
  · intro e he
    have h := w5 e (hord.subset he)
    rw [Heap.live_congr _ _ e.2 (hco e he), (deref_congr b b' e.2 (hco e he)).1]
    exact h
  · exact w6.sublist (hord.map Prod.fst)

theorem static_setQuantity (o : Order) (q : Nat) :
    Order.static { o with quantity := q } = o.static := rfl

theorem cell_setQuantity_static (h : Heap) (p r : Ptr) (q : Nat) :
    ((h.setQuantity p q).cell r).map Order.static = (h.cell r).map Order.static := by
  rw [Heap.cell_setQuantity]
  by_cases hrp : r = p
  · subst hrp
    rw [if_pos rfl]
    cases h.cell r <;> rfl
  · rw [if_neg hrp]

theorem WF_setQuantity (b : OrderBook) (p : Ptr) (q : Nat) (hwf : b.WF) :
    WF { b with heap := b.heap.setQuantity p q } :=
  WF_of_sublist b _ hwf (List.Sublist.refl _) (List.Sublist.refl _) (List.Sublist.refl _)
    (fun r _ => cell_setQuantity_static b.heap p r q)
    (fun r _ => cell_setQuantity_static b.heap p r q)
    (fun e _ => cell_setQuantity_static b.heap p e.2 q)

theorem WF.buy_nodup (b : OrderBook) (hwf : b.WF) : b.buyOrders.Nodup := by
  refine List.Pairwise.imp ?_ hwf.2.2.1
  intro p q hlt he
  subst he
  have := buyLt_asymm b p p hlt
  rw [hlt] at this
  cases this

theorem WF.sell_nodup (b : OrderBook) (hwf : b.WF) : b.sellOrders.Nodup := by
  refine List.Pairwise.imp ?_ hwf.2.2.2.1
  intro p q hlt he
  subst he
  have := sellLt_asymm b p p hlt
  rw [hlt] at this
  cases this

theorem WF.buy_sell_disjoint (b : OrderBook) (hwf : b.WF) (p : Ptr) (hp : p ∈ b.buyOrders)
    (hq : p ∈ b.sellOrders) : False := by
  have h1 := (hwf.1 p hp).2
  have h2 := (hwf.2.1 p hq).2
  rw [h1] at h2
  cases h2

/-- Deleting an object that no container refers to any more, after removing
entries from the containers, keeps the state well-formed. -/
theorem WF_free (b : OrderBook) (p : Ptr) (buy sell : List Ptr) (ords : List (Nat × Ptr))
    (hwf : b.WF) (hbuy : buy.Sublist b.buyOrders) (hsell : sell.Sublist b.sellOrders)
    (hord : ords.Sublist b.orders) (hpb : p ∉ buy) (hps : p ∉ sell)
    (hpo : ∀ e ∈ ords, e.2 ≠ p) :
    WF ⟨b.heap.free p, ords, buy, sell⟩ := by
  refine WF_of_sublist b _ hwf hbuy hsell hord ?_ ?_ ?_
  · intro r hr
    have : r ≠ p := fun e => hpb (e ▸ hr)
    simp only [Heap.cell_free, if_neg this]
  · intro r hr
    have : r ≠ p := fun e => hps (e ▸ hr)
    simp only [Heap.cell_free, if_neg this]
  · intro e he
    simp only [Heap.cell_free, if_neg (hpo e he)]

theorem WF_popBuy (b : OrderBook) (p : Ptr) (rb : List Ptr) (hwf : b.WF)
    (hb : b.buyOrders = p :: rb) :
    WF { b with
      buyOrders := b.buyOrders.tail
      orders := mapErase b.orders (b.deref p).id
      heap := b.heap.free p } := by
  have hp : p ∈ b.buyOrders := hb ▸ List.mem_cons_self _ _
  have hnd := WF.buy_nodup b hwf
  rw [hb] at hnd
  refine WF_free b p _ _ _ hwf (List.tail_sublist _) (List.Sublist.refl _)
    (mapErase_sublist _ _) ?_ ?_ ?_
  · rw [hb]
    exact (List.nodup_cons.mp hnd).1
  · exact fun hq => WF.buy_sell_disjoint b hwf p hp hq
  · intro e he hep
    have h1 := (mem_mapErase _ _ _).mp he
    have h2 := (hwf.2.2.2.2.1 e h1.1).2
    rw [hep] at h2
    exact h1.2 h2.symm

theorem WF_popSell (b : OrderBook) (p : Ptr) (rs : List Ptr) (hwf : b.WF)
    (hb : b.sellOrders = p :: rs) :
    WF { b with
      sellOrders := b.sellOrders.tail
      orders := mapErase b.orders (b.deref p).id
      heap := b.heap.free p } := by
  have hp : p ∈ b.sellOrders := hb ▸ List.mem_cons_self _ _
  have hnd := WF.sell_nodup b hwf
  rw [hb] at hnd
  refine WF_free b p _ _ _ hwf (List.Sublist.refl _) (List.tail_sublist _)
    (mapErase_sublist _ _) ?_ ?_ ?_
  · exact fun hq => WF.buy_sell_disjoint b hwf p hq hp
  · rw [hb]
    exact (List.nodup_cons.mp hnd).1
  · intro e he hep
    have h1 := (mem_mapErase _ _ _).mp he
    have h2 := (hwf.2.2.2.2.1 e h1.1).2
    rw [hep] at h2
    exact h1.2 h2.symm

theorem WF_matchFill (b : OrderBook) (p q : Ptr) (hwf : b.WF) : (b.matchFill p q).2.WF :=
  WF_setQuantity _ _ _ (WF_setQuantity _ _ _ hwf)

theorem matchFill_buyOrders (b : OrderBook) (p q : Ptr) :
    (b.matchFill p q).2.buyOrders = b.buyOrders := rfl

theorem matchFill_sellOrders (b : OrderBook) (p q : Ptr) :
    (b.matchFill p q).2.sellOrders = b.sellOrders := rfl

theorem matchFill_orders (b : OrderBook) (p q : Ptr) :
    (b.matchFill p q).2.orders = b.orders := rfl

theorem removeFilled_sellOrders_sub (b : OrderBook) (p q : Ptr) :
    (b.removeFilled p q).sellOrders = b.sellOrders ∨
      (b.removeFilled p q).sellOrders = b.sellOrders.tail := by
  unfold removeFilled
  dsimp only
  split <;> split <;> simp

theorem removeFilled_buyOrders_sub (b : OrderBook) (p q : Ptr) :
    (b.removeFilled p q).buyOrders = b.buyOrders ∨
      (b.removeFilled p q).buyOrders = b.buyOrders.tail := by
  unfold removeFilled
  dsimp only
  split <;> split <;> simp

theorem WF_removeFilled (b : OrderBook) (p q : Ptr) (rb rs : List Ptr) (hwf : b.WF)
    (hb : b.buyOrders = p :: rb) (hs : b.sellOrders = q :: rs) :
    (b.removeFilled p q).WF := by
  unfold removeFilled
  dsimp only
  by_cases h1 : (b.deref p).quantity = 0
  · rw [if_pos h1]
    have wf1 := WF_popBuy b p rb hwf hb
    split
    · exact WF_popSell _ q rs wf1 hs
    · exact wf1
  · rw [if_neg h1]
    split
    · exact WF_popSell _ q rs hwf hs
    · exact hwf

theorem WF_matchStep (b b' : OrderBook) (t : Trade) (hwf : b.WF)
    (hstep : b.matchStep = some (t, b')) : b'.WF := by
  unfold matchStep at hstep
  split at hstep
  · rename_i bestBuy rb bestSell rs hb hs
    split at hstep
    · cases hstep
    · simp only [Option.some.injEq, Prod.mk.injEq] at hstep
      rw [← hstep.2]
      exact WF_removeFilled _ bestBuy bestSell rb rs (WF_matchFill b _ _ hwf) hb hs
  · cases hstep

theorem WF_matchLoop (fuel : Nat) (b : OrderBook) (hwf : b.WF) : (matchLoop fuel b).1.WF := by
  induction fuel generalizing b with
  | zero => exact hwf
  | succ n ih =>
    unfold matchLoop
    cases hstep : b.matchStep with
    | none => exact hwf
    | some r =>
      obtain ⟨t, b'⟩ := r
      exact ih b' (WF_matchStep b b' t hwf hstep)

theorem WF_match (b : OrderBook) (hwf : b.WF) : (b.match_).1.WF :=
  WF_matchLoop _ b hwf

theorem WF_alloc (b : OrderBook) (order : Order) (hwf : b.WF) :
    WF { b with heap := (b.heap.alloc order).1 } := by
  have key : ∀ r, b.heap.live r = true →
      (((b.heap.alloc order).1).cell r).map Order.static = (b.heap.cell r).map Order.static := by
    intro r hr
    rw [Heap.cell_alloc]
    have hne : r ≠ b.heap.length := by
      unfold Heap.live at hr
      obtain ⟨o, ho⟩ := Option.isSome_iff_exists.mp hr
      exact Nat.ne_of_lt (Heap.cell_lt_length _ _ _ ho)
    rw [if_neg hne]
  exact WF_of_sublist b _ hwf (List.Sublist.refl _) (List.Sublist.refl _) (List.Sublist.refl _)
    (fun r hr => key r (hwf.1 r hr).1) (fun r hr => key r (hwf.2.1 r hr).1)
    (fun e he => key e.2 (hwf.2.2.2.2.1 e he).1)

theorem WF_mapAssign (b : OrderBook) (k : Nat) (o : Ptr) (hwf : b.WF)
    (hlive : b.heap.live o = true) (hid : (b.deref o).id = k) :
    WF { b with orders := mapAssign b.orders k o } := by
  obtain ⟨w1, w2, w3, w4, w5, w6⟩ := hwf
  refine ⟨w1, w2, w3, w4, ?_, mapAssign_keys_nodup _ _ _ w6⟩
  intro e he
  rcases mem_mapAssign _ _ _ _ he with h | h
  · subst h
    exact ⟨hlive, hid⟩
  · exact w5 e h

theorem WF_insertBuy (b : OrderBook) (o : Ptr) (hwf : b.WF)
    (hlive : b.heap.live o = true) (hside : (b.deref o).isBuy = true) :
    WF { b with buyOrders := setInsert b.buyLt o b.buyOrders } := by
  obtain ⟨w1, w2, w3, w4, w5, w6⟩ := hwf
  refine ⟨?_, w2, setInsert_pairwise _ (buyLt_trans b) _ _ w3, w4, w5, w6⟩
  intro p hp
  rcases mem_setInsert _ _ _ _ hp with h | h
  · subst h
    exact ⟨hlive, hside⟩
  · exact w1 p h

theorem WF_insertSell (b : OrderBook) (o : Ptr) (hwf : b.WF)
    (hlive : b.heap.live o = true) (hside : (b.deref o).isBuy = false) :
    WF { b with sellOrders := setInsert b.sellLt o b.sellOrders } := by
  obtain ⟨w1, w2, w3, w4, w5, w6⟩ := hwf
  refine ⟨w1, ?_, w3, setInsert_pairwise _ (sellLt_trans b) _ _ w4, w5, w6⟩
  intro p hp
  rcases mem_setInsert _ _ _ _ hp with h | h
  · subst h
    exact ⟨hlive, hside⟩
  · exact w2 p h

theorem Heap.cell_alloc_new (h : Heap) (o : Order) :
    (h.alloc o).1.cell (h.alloc o).2 = some o := by
  rw [Heap.cell_alloc]
  exact if_pos rfl

theorem WF_place (b : OrderBook) (order : Order) (hwf : b.WF) : (b.place order).WF := by
  have hc := Heap.cell_alloc_new b.heap order
  have hlive : ((b.heap.alloc order).1).live (b.heap.alloc order).2 = true := by
    unfold Heap.live
    rw [hc]
    rfl
  have hd : ((b.heap.alloc order).1).deref (b.heap.alloc order).2 = order := by
    unfold Heap.deref
    rw [hc]
    rfl
  have wf2 := WF_mapAssign _ order.id (b.heap.alloc order).2 (WF_alloc b order hwf) hlive
    (congrArg Order.id hd)
  unfold place
  dsimp only
  by_cases hside : order.isBuy = true
  · rw [if_pos hside]
    exact WF_insertBuy _ _ wf2 hlive ((congrArg Order.isBuy hd).trans hside)
  · rw [if_neg hside]
    have hside' : order.isBuy = false := by simpa using hside
    exact WF_insertSell _ _ wf2 hlive ((congrArg Order.isBuy hd).trans hside')

theorem WF_addOrder (b : OrderBook) (order : Order) (hwf : b.WF) : (b.addOrder order).1.WF :=
  WF_match _ (WF_place b order hwf)

theorem WF_cancelOrder (b : OrderBook) (orderId : Nat) (hwf : b.WF) :
    (b.cancelOrder orderId).1.WF := by
  unfold cancelOrder
  cases hfind : mapFind b.orders orderId with
  | none => exact hwf
  | some order =>
    dsimp only
    have hmem := mapFind_mem _ _ _ hfind
    have hid : (b.deref order).id = orderId := (hwf.2.2.2.2.1 _ hmem).2
    have hpo : ∀ e ∈ mapErase b.orders orderId, e.2 ≠ order := by
      intro e he hep
      have h1 := (mem_mapErase _ _ _).mp he
      have h2 := (hwf.2.2.2.2.1 e h1.1).2
      rw [hep, hid] at h2
      exact h1.2 h2.symm
    by_cases hside : (b.deref order).isBuy = true
    · rw [if_pos hside]
      refine WF_free b order _ _ _ hwf (setErase_sublist _ _ _) (List.Sublist.refl _)
        (mapErase_sublist _ _) (setErase_not_mem _ (buyLt_asymm b) _ _ hwf.2.2.1) ?_ hpo
      intro hq
      have := (hwf.2.1 order hq).2
      rw [hside] at this
      cases this
    · rw [if_neg hside]
      refine WF_free b order _ _ _ hwf (List.Sublist.refl _) (setErase_sublist _ _ _)
        (mapErase_sublist _ _) ?_ (setErase_not_mem _ (sellLt_asymm b) _ _ hwf.2.2.2.1) hpo
      intro hq
      exact hside (hwf.1 order hq).2

theorem WF_amendOrder (b : OrderBook) (orderId : Nat) (newPrice : Price) (newQuantity now : Nat)
    (hwf : b.WF) : (b.amendOrder orderId newPrice newQuantity now).1.WF := by
  unfold amendOrder
  cases hfind : mapFind b.orders orderId with
  | none => exact hwf
  | some order =>
    dsimp only
    split
    · exact WF_addOrder _ _ (WF_cancelOrder b orderId hwf)
    · exact WF_match _ (WF_setQuantity b order newQuantity hwf)

theorem WF_exec (b : OrderBook) (op : Op) (hwf : b.WF) : (b.exec op).1.WF := by
  cases op with
  | add order => exact WF_addOrder b order hwf
  | cancel orderId => exact WF_cancelOrder b orderId hwf
  | amend orderId newPrice newQuantity now => exact WF_amendOrder b _ _ _ _ hwf

theorem WF_runFrom (ops : List Op) (b : OrderBook) (hwf : b.WF) : (b.runFrom ops).WF := by
  induction ops generalizing b with
  | nil => exact hwf
  | cons op rest ih => exact ih _ (WF_exec b op hwf)

theorem WF_run (ops : List Op) : (run ops).WF :=
  WF_runFrom ops empty WF_empty

/-! ## Reading quantities after a fill -/

theorem deref_setQuantity (h : Heap) (p r : Ptr) (q : Nat) :
    (h.setQuantity p q).deref r =
      if r = p ∧ h.live p = true then { h.deref p with quantity := q } else h.deref r := by
  unfold Heap.deref Heap.live
  rw [Heap.cell_setQuantity]
  by_cases hrp : r = p
  · subst hrp
    cases hc : h.cell r <;> simp
  · simp [hrp]

theorem live_setQuantity (h : Heap) (p r : Ptr) (q : Nat) :
    (h.setQuantity p q).live r = h.live r :=
  Heap.live_congr _ _ r (cell_setQuantity_static h p r q)

theorem matchFill_live (b : OrderBook) (p q r : Ptr) :
    (b.matchFill p q).2.heap.live r = b.heap.live r := by
  unfold matchFill
  dsimp only
  rw [live_setQuantity, live_setQuantity]

theorem matchFill_static (b : OrderBook) (p q r : Ptr) :
    ((b.matchFill p q).2.heap.cell r).map Order.static = (b.heap.cell r).map Order.static := by
  unfold matchFill
  dsimp only
  rw [cell_setQuantity_static, cell_setQuantity_static]

theorem matchFill_quantity_buy (b : OrderBook) (p q : Ptr) (hne : p ≠ q)
    (hp : b.heap.live p = true) :
    ((b.matchFill p q).2.deref p).quantity =
      (b.deref p).quantity - min (b.deref p).quantity (b.deref q).quantity := by
  unfold matchFill deref
  dsimp only
  rw [deref_setQuantity, if_neg (fun h => hne h.1), deref_setQuantity, if_pos ⟨rfl, hp⟩]

theorem matchFill_quantity_sell (b : OrderBook) (p q : Ptr) (hne : p ≠ q)
    (hq : b.heap.live q = true) :
    ((b.matchFill p q).2.deref q).quantity =
      (b.deref q).quantity - min (b.deref p).quantity (b.deref q).quantity := by
  unfold matchFill deref
  dsimp only
  have hq' : (b.heap.setQuantity p
      ((b.heap.deref p).quantity - min (b.heap.deref p).quantity (b.heap.deref q).quantity)).live q
        = true := by
    rw [live_setQuantity]
    exact hq
  rw [deref_setQuantity, if_pos ⟨rfl, hq'⟩]
  dsimp only
  rw [deref_setQuantity, if_neg (fun h => hne h.1.symm)]

theorem matchFill_cell_other (b : OrderBook) (p q r : Ptr) (hp : r ≠ p) (hq : r ≠ q) :
    (b.matchFill p q).2.heap.cell r = b.heap.cell r := by
  unfold matchFill
  dsimp only
  rw [Heap.cell_setQuantity, if_neg hq, Heap.cell_setQuantity, if_neg hp]

/-! ## The crossing loop runs to quiescence -/

theorem quiescent_of_matchStep_none (b : OrderBook) (hstep : b.matchStep = none) :
    b.Quiescent := by
  unfold matchStep at hstep
  unfold Quiescent
  split at hstep
  · rename_i bestBuy rb bestSell rs hb hs
    split at hstep
    · rename_i hlt
      exact Or.inr (Or.inr ⟨bestBuy, bestSell, by rw [hb]; rfl, by rw [hs]; rfl, hlt⟩)
    · cases hstep
  · rename_i hne
    cases hb : b.buyOrders with
    | nil => exact Or.inl rfl
    | cons x xs =>
      cases hs : b.sellOrders with
      | nil => exact Or.inr (Or.inl rfl)
      | cons y ys => exact absurd hs (hne x xs y ys hb)

theorem matchStep_none_of_quiescent (b : OrderBook) (hq : b.Quiescent) :
    b.matchStep = none := by
  unfold matchStep
  rcases hq with h | h | ⟨bid, ask, hb, hs, hlt⟩
  · rw [h]
  · rw [h]
    cases b.buyOrders <;> rfl
  · cases hb' : b.buyOrders with
    | nil => rfl
    | cons x xs =>
      cases hs' : b.sellOrders with
      | nil => rfl
      | cons y ys =>
        rw [hb'] at hb
        rw [hs'] at hs
        simp only [List.head?_cons, Option.some.injEq] at hb hs
        subst hb
        subst hs
        simp only [if_pos hlt]

/-- Every pass of the loop takes at least one order out of an index. -/
theorem matchStep_length_lt (b b' : OrderBook) (t : Trade) (hwf : b.WF)
    (hstep : b.matchStep = some (t, b')) :
    b'.buyOrders.length + b'.sellOrders.length <
      b.buyOrders.length + b.sellOrders.length := by
  unfold matchStep at hstep
  split at hstep
  · rename_i p rb q rs hb hs
    split at hstep
    · cases hstep
    · simp only [Option.some.injEq, Prod.mk.injEq] at hstep
      rw [← hstep.2]
      have hpm : p ∈ b.buyOrders := hb ▸ List.mem_cons_self _ _
      have hqm : q ∈ b.sellOrders := hs ▸ List.mem_cons_self _ _
      have hne : p ≠ q := fun e => WF.buy_sell_disjoint b hwf p hpm (e ▸ hqm)
      have hqb := matchFill_quantity_buy b p q hne (hwf.1 p hpm).1
      have hqs := matchFill_quantity_sell b p q hne (hwf.2.1 q hqm).1
      have hb2 : (b.matchFill p q).2.buyOrders = p :: rb := hb
      have hs2 : (b.matchFill p q).2.sellOrders = q :: rs := hs
      generalize (b.matchFill p q).2 = b2 at hqb hqs hb2 hs2
      rw [hb, hs]
      unfold removeFilled
      dsimp only
      by_cases h1 : (b2.deref p).quantity = 0
      · rw [if_pos h1]
        split
        · simp only [hb2, hs2, List.tail_cons, List.length_cons]
          omega
        · simp only [hb2, hs2, List.tail_cons, List.length_cons]
          omega
      · rw [if_neg h1]
        have h2 : (b2.deref q).quantity = 0 := by
          rw [hqs]
          rw [hqb] at h1
          omega
        rw [if_pos h2]
        simp only [hb2, hs2, List.tail_cons, List.length_cons]
        omega
  · cases hstep

theorem quiescent_matchLoop (fuel : Nat) (b : OrderBook) (hwf : b.WF)
    (hfuel : b.buyOrders.length + b.sellOrders.length ≤ fuel) :
    (matchLoop fuel b).1.Quiescent := by
  induction fuel generalizing b with
  | zero =>
    have h0 : b.buyOrders.length = 0 := by omega
    exact Or.inl (List.length_eq_zero.mp h0)
  | succ n ih =>
    unfold matchLoop
    cases hstep : b.matchStep with
    | none => exact quiescent_of_matchStep_none b hstep
    | some r =>
      obtain ⟨t, b'⟩ := r
      have hlt := matchStep_length_lt b b' t hwf hstep
      exact ih b' (WF_matchStep b b' t hwf hstep) (by omega)

theorem quiescent_match (b : OrderBook) (hwf : b.WF) : (b.match_).1.Quiescent :=
  quiescent_matchLoop _ b hwf (Nat.le_refl _)

theorem matchLoop_of_none (fuel : Nat) (b : OrderBook) (hstep : b.matchStep = none) :
    matchLoop fuel b = (b, []) := by
  cases fuel with
  | zero => rfl
  | succ n => simp only [matchLoop, hstep]

theorem matchStep_none_of_length (b : OrderBook)
    (h0 : b.buyOrders.length + b.sellOrders.length ≤ 0) : b.matchStep = none := by
  have h1 : b.buyOrders.length = 0 := by omega
  exact matchStep_none_of_quiescent b (Or.inl (List.length_eq_zero.mp h1))

/-- Fuel beyond the number of orders in the two indices is never used. -/
theorem matchLoop_fuel_irrelevant (n m : Nat) (b : OrderBook) (hwf : b.WF)
    (hn : b.buyOrders.length + b.sellOrders.length ≤ n)
    (hm : b.buyOrders.length + b.sellOrders.length ≤ m) :
    matchLoop n b = matchLoop m b := by
  induction n generalizing m b with
  | zero =>
    rw [matchLoop_of_none 0 b (matchStep_none_of_length b hn),
      matchLoop_of_none m b (matchStep_none_of_length b hn)]
  | succ k ih =>
    cases m with
    | zero =>
      rw [matchLoop_of_none (k + 1) b (matchStep_none_of_length b hm),
        matchLoop_of_none 0 b (matchStep_none_of_length b hm)]
    | succ j =>
      unfold matchLoop
      cases hstep : b.matchStep with
      | none => rfl
      | some r =>
        obtain ⟨t, b'⟩ := r
        have hlt := matchStep_length_lt b b' t hwf hstep
        have hwf' := WF_matchStep b b' t hwf hstep
        dsimp only
        rw [ih j b' hwf' (by omega) (by omega)]

theorem matchLoop_eq_match (fuel : Nat) (b : OrderBook) (hwf : b.WF)
    (hfuel : b.buyOrders.length + b.sellOrders.length ≤ fuel) :
    matchLoop fuel b = b.match_ :=
  matchLoop_fuel_irrelevant _ _ b hwf hfuel (Nat.le_refl _)

/-! ## The price-ordering invariant -/

theorem head_price_max (b : OrderBook) (hwf : b.WF) (bid : Ptr) (rb : List Ptr)
    (hb : b.buyOrders = bid :: rb) (r : Ptr) (hr : r ∈ b.buyOrders) :
    (b.deref r).price ≤ (b.deref bid).price := by
  have hs := hwf.2.2.1
  rw [hb] at hs hr
  rcases List.mem_cons.mp hr with h | h
  · rw [h]
  · exact BuyComparator_price_le _ _ ((List.pairwise_cons.mp hs).1 r h)

theorem head_price_min (b : OrderBook) (hwf : b.WF) (ask : Ptr) (rs : List Ptr)
    (hb : b.sellOrders = ask :: rs) (r : Ptr) (hr : r ∈ b.sellOrders) :
    (b.deref ask).price ≤ (b.deref r).price := by
  have hs := hwf.2.2.2.1
  rw [hb] at hs hr
  rcases List.mem_cons.mp hr with h | h
  · rw [h]
  · exact SellComparator_price_le _ _ ((List.pairwise_cons.mp hs).1 r h)

/-- Taking orders out of the indices of a quiescent state cannot make it
crossable. -/
theorem quiescent_of_sublist (b b' : OrderBook) (hwf : b.WF) (hq : b.Quiescent)
    (hbuy : b'.buyOrders.Sublist b.buyOrders) (hsell : b'.sellOrders.Sublist b.sellOrders)
    (hcb : ∀ r ∈ b'.buyOrders,
      (b'.heap.cell r).map Order.static = (b.heap.cell r).map Order.static)
    (hcs : ∀ r ∈ b'.sellOrders,
      (b'.heap.cell r).map Order.static = (b.heap.cell r).map Order.static) :
    b'.Quiescent := by
  cases hb' : b'.buyOrders with
  | nil => exact Or.inl hb'
  | cons bid' rb' =>
    cases hs' : b'.sellOrders with
    | nil => exact Or.inr (Or.inl hs')
    | cons ask' rs' =>
      have hbm : bid' ∈ b'.buyOrders := hb' ▸ List.mem_cons_self _ _
      have hsm : ask' ∈ b'.sellOrders := hs' ▸ List.mem_cons_self _ _
      rcases hq with h | h | ⟨bid, ask, hb, hs, hlt⟩
      · have := hbuy.subset hbm
        rw [h] at this
        cases this
      · have := hsell.subset hsm
        rw [h] at this
        cases this
      · refine Or.inr (Or.inr ⟨bid', ask', by rw [hb']; rfl, by rw [hs']; rfl, ?_⟩)
        cases hbl : b.buyOrders with
        | nil => rw [hbl] at hb; cases hb
        | cons x xs =>
          cases hsl : b.sellOrders with
          | nil => rw [hsl] at hs; cases hs
          | cons y ys =>
            rw [hbl] at hb
            rw [hsl] at hs
            simp only [List.head?_cons, Option.some.injEq] at hb hs
            subst hb
            subst hs
            have h1 := head_price_max b hwf x xs hbl bid' (hbuy.subset hbm)
            have h2 := head_price_min b hwf y ys hsl ask' (hsell.subset hsm)
            rw [(deref_congr b b' bid' (hcb bid' hbm)).2.2.1,
              (deref_congr b b' ask' (hcs ask' hsm)).2.2.1]
            exact lt_of_le_of_lt h1 (lt_of_lt_of_le hlt h2)

theorem quiescent_cancelOrder (b : OrderBook) (orderId : Nat) (hwf : b.WF)
    (hq : b.Quiescent) : (b.cancelOrder orderId).1.Quiescent := by
  unfold cancelOrder
  cases hfind : mapFind b.orders orderId with
  | none => exact hq
  | some order =>
    dsimp only
    have hfree : ∀ r, r ≠ order →
        ((b.heap.free order).cell r).map Order.static = (b.heap.cell r).map Order.static := by
      intro r hr
      rw [Heap.cell_free, if_neg hr]
    by_cases hside : (b.deref order).isBuy = true
    · rw [if_pos hside]
      refine quiescent_of_sublist b _ hwf hq (setErase_sublist _ _ _) (List.Sublist.refl _) ?_ ?_
      · intro r hr
        refine hfree r (fun e => ?_)
        exact setErase_not_mem _ (buyLt_asymm b) _ _ hwf.2.2.1 (e ▸ hr)
      · intro r hr
        refine hfree r (fun e => ?_)
        have := (hwf.2.1 r hr).2
        rw [e, hside] at this
        cases this
    · rw [if_neg hside]
      refine quiescent_of_sublist b _ hwf hq (List.Sublist.refl _) (setErase_sublist _ _ _) ?_ ?_
      · intro r hr
        refine hfree r (fun e => ?_)
        exact hside (e ▸ (hwf.1 r hr).2)
      · intro r hr
        refine hfree r (fun e => ?_)
        exact setErase_not_mem _ (sellLt_asymm b) _ _ hwf.2.2.2.1 (e ▸ hr)

theorem quiescent_exec (b : OrderBook) (op : Op) (hwf : b.WF) (hq : b.Quiescent) :
    (b.exec op).1.Quiescent := by
  cases op with
  | add order => exact quiescent_match _ (WF_place b order hwf)
  | cancel orderId => exact quiescent_cancelOrder b orderId hwf hq
  | amend orderId newPrice newQuantity now =>
    show (b.amendOrder orderId newPrice newQuantity now).1.Quiescent
    unfold amendOrder
    cases hfind : mapFind b.orders orderId with
    | none => exact hq
    | some order =>
      dsimp only
      split
      · exact quiescent_match _ (WF_place _ _ (WF_cancelOrder b orderId hwf))
      · exact quiescent_match _ (WF_setQuantity b order newQuantity hwf)

theorem quiescent_runFrom (ops : List Op) (b : OrderBook) (hwf : b.WF) (hq : b.Quiescent) :
    (b.runFrom ops).Quiescent := by
  induction ops generalizing b with
  | nil => exact hq
  | cons op rest ih => exact ih _ (WF_exec b op hwf) (quiescent_exec b op hwf hq)

/-- C1 (price-ordering invariant): after any finite sequence of `addOrder`,
`cancelOrder` and `amendOrder` calls on a fresh book, the bid index is empty, or
the ask index is empty, or the first bid is priced strictly below the first
ask.  Every prefix of a sequence is a sequence, so this is the state observed
after each call. -/
theorem C1_price_ordering_invariant (ops : List Op) :
    (run ops).buyOrders = [] ∨ (run ops).sellOrders = [] ∨
      ∃ bid ask, (run ops).buyOrders.head? = some bid ∧ (run ops).sellOrders.head? = some ask ∧
        ((run ops).deref bid).price < ((run ops).deref ask).price :=
  quiescent_runFrom ops empty WF_empty (Or.inl rfl)

/-! ## The trade rule -/

/-- C2 (trade rule): in a well-formed book whose first bid `bid` is priced at or
above its first ask `ask`, one pass of the crossing loop prints exactly one
trade; its ids are those of `bid` and `ask`, its quantity is the smaller of the
two remaining quantities, its price is the limit price of `ask` (so not above
the limit of `bid`), and in the state right after `// Reduce quantities` both
orders have lost exactly the traded quantity, which neither subtraction
truncates.  That trade is the first one a run of `match()` prints. -/
theorem C2_trade_rule (b : OrderBook) (hwf : b.WF) (bid ask : Ptr) (rb rs : List Ptr)
    (hb : b.buyOrders = bid :: rb) (hs : b.sellOrders = ask :: rs)
    (hcross : (b.deref ask).price ≤ (b.deref bid).price) :
    b.matchStep =
        some ((b.matchFill bid ask).1, (b.matchFill bid ask).2.removeFilled bid ask) ∧
      (b.matchFill bid ask).1.buyId = (b.deref bid).id ∧
      (b.matchFill bid ask).1.sellId = (b.deref ask).id ∧
      (b.matchFill bid ask).1.qty = min (b.deref bid).quantity (b.deref ask).quantity ∧
      (b.matchFill bid ask).1.price = (b.deref ask).price ∧
      (b.matchFill bid ask).1.price ≤ (b.deref bid).price ∧
      ((b.matchFill bid ask).2.deref bid).quantity + (b.matchFill bid ask).1.qty =
        (b.deref bid).quantity ∧
      ((b.matchFill bid ask).2.deref ask).quantity + (b.matchFill bid ask).1.qty =
        (b.deref ask).quantity ∧
      (b.match_).2.head? = some (b.matchFill bid ask).1 := by
  have hpm : bid ∈ b.buyOrders := hb ▸ List.mem_cons_self _ _
  have hqm : ask ∈ b.sellOrders := hs ▸ List.mem_cons_self _ _
  have hne : bid ≠ ask := fun e => WF.buy_sell_disjoint b hwf bid hpm (e ▸ hqm)
  have hqb := matchFill_quantity_buy b bid ask hne (hwf.1 bid hpm).1
  have hqs := matchFill_quantity_sell b bid ask hne (hwf.2.1 ask hqm).1
  have hqty : (b.matchFill bid ask).1.qty =
      min (b.deref bid).quantity (b.deref ask).quantity := rfl
  have hstep : b.matchStep =
      some ((b.matchFill bid ask).1, (b.matchFill bid ask).2.removeFilled bid ask) := by
    unfold matchStep
    rw [hb, hs]
    dsimp only
    rw [if_neg (not_lt.mpr hcross)]
  refine ⟨hstep, rfl, rfl, rfl, rfl, hcross, ?_, ?_, ?_⟩
  · rw [hqb, hqty]
    omega
  · rw [hqs, hqty]
    omega
  · unfold match_
    rw [hb, hs]
    show (matchLoop ((rb.length + 1 + rs.length) + 1) b).2.head? = _
    unfold matchLoop
    rw [hstep]
    rfl

/-- C2 on the book of Scenario C: the pass trades 60 at 103.0 between order 1
and order 2. -/
theorem C2_trade_rule_witness :
    scenarioC.WF ∧ scenarioC.buyOrders = [0] ∧ scenarioC.sellOrders = [1] ∧
      (scenarioC.deref 1).price ≤ (scenarioC.deref 0).price ∧
      (scenarioC.matchFill 0 1).1 = ⟨1, 2, 103, 60⟩ ∧
      ((scenarioC.matchFill 0 1).2.deref 0).quantity + (scenarioC.matchFill 0 1).1.qty = 100 :=
  ⟨by decide, by decide, by decide, by decide, by decide,
    (C2_trade_rule scenarioC (by decide) 0 1 [] [] (by decide) (by decide) (by decide)).2.2.2.2.2.2.1⟩

/-! ## Price-time priority -/

theorem hasPriorityOver_buy (a b : Order) (hp : a.hasPriorityOver b) (ha : a.isBuy = true) :
    BuyComparator a b = true := by
  rw [BuyComparator_iff]
  unfold Order.hasPriorityOver at hp
  rw [ha] at hp
  simpa using hp.2

theorem hasPriorityOver_sell (a b : Order) (hp : a.hasPriorityOver b) (ha : a.isBuy = false) :
    SellComparator a b = true := by
  rw [SellComparator_iff]
  unfold Order.hasPriorityOver at hp
  rw [ha] at hp
  simpa using hp.2

/-- In a strictly sorted list an element stands before every element it
precedes in the ordering, however the list was built. -/
theorem sublist_pair_of_pairwise (lt : Ptr → Ptr → Bool)
    (hasymm : ∀ a b, lt a b = true → lt b a = false) (l : List Ptr)
    (hs : l.Pairwise (fun p q => lt p q = true)) (a b : Ptr) (ha : a ∈ l) (hb : b ∈ l)
    (hab : lt a b = true) : [a, b].Sublist l := by
  have hne : a ≠ b := by
    intro e
    subst e
    have := hasymm a a hab
    rw [hab] at this
    cases this
  induction l with
  | nil => cases ha
  | cons x xs ih =>
    have hs' := List.pairwise_cons.mp hs
    by_cases hxa : a = x
    · subst hxa
      rcases List.mem_cons.mp hb with h | h
      · exact absurd h.symm hne
      · exact List.Sublist.cons₂ _ (List.singleton_sublist.mpr h)
    · have ha' : a ∈ xs := by
        rcases List.mem_cons.mp ha with h | h
        · exact absurd h hxa
        · exact h
      have hb' : b ∈ xs := by
        rcases List.mem_cons.mp hb with h | h
        · have h1 := hs'.1 a ha'
          rw [← h] at h1
          have h2 := hasymm a b hab
          rw [h1] at h2
          cases h2
        · exact h
      exact List.Sublist.cons _ (ih hs'.2 ha' hb')

theorem removeFilled_cell (b : OrderBook) (p q : Ptr) (rb rs : List Ptr) (hwf : b.WF)
    (hb : b.buyOrders = p :: rb) (hs : b.sellOrders = q :: rs) (r : Ptr)
    (hr : r ∈ (b.removeFilled p q).buyOrders ++ (b.removeFilled p q).sellOrders) :
    (b.removeFilled p q).heap.cell r = b.heap.cell r := by
  have hpm : p ∈ b.buyOrders := hb ▸ List.mem_cons_self _ _
  have hqm : q ∈ b.sellOrders := hs ▸ List.mem_cons_self _ _
  have hnb := WF.buy_nodup b hwf
  have hns := WF.sell_nodup b hwf
  rw [hb] at hnb
  rw [hs] at hns
  have hprb : p ∉ rb := (List.nodup_cons.mp hnb).1
  have hqrs : q ∉ rs := (List.nodup_cons.mp hns).1
  have hps : p ∉ b.sellOrders := fun h => WF.buy_sell_disjoint b hwf p hpm h
  have hqb : q ∉ b.buyOrders := fun h => WF.buy_sell_disjoint b hwf q h hqm
  unfold removeFilled at hr ⊢
  dsimp only at hr ⊢
  by_cases h1 : (b.deref p).quantity = 0
  · rw [if_pos h1] at hr ⊢
    split at hr
    · rename_i h2
      rw [if_pos h2]
      simp only [hb, hs, List.tail_cons, List.mem_append] at hr
      have hrp : r ≠ p := by
        rintro rfl
        rcases hr with h | h
        · exact hprb h
        · exact hps (hs ▸ List.mem_cons_of_mem _ h)
      have hrq : r ≠ q := by
        rintro rfl
        rcases hr with h | h
        · exact hqb (hb ▸ List.mem_cons_of_mem _ h)
        · exact hqrs h
      simp only [Heap.cell_free, if_neg hrp, if_neg hrq]
    · rename_i h2
      rw [if_neg h2]
      simp only [hb, List.tail_cons, List.mem_append] at hr
      have hrp : r ≠ p := by
        rintro rfl
        rcases hr with h | h
        · exact hprb h
        · exact hps h
      simp only [Heap.cell_free, if_neg hrp]
  · rw [if_neg h1] at hr ⊢
    split at hr
    · rename_i h2
      rw [if_pos h2]
      simp only [hs, List.tail_cons, List.mem_append] at hr
      have hrq : r ≠ q := by
        rintro rfl
        rcases hr with h | h
        · exact hqb h
        · exact hqrs h
      simp only [Heap.cell_free, if_neg hrq]
    · rename_i h2
      rw [if_neg h2]

theorem Shrinks.refl (s : OrderBook) : Shrinks s s :=
  ⟨List.Sublist.refl _, List.Sublist.refl _, fun _ _ => rfl⟩

theorem Shrinks.trans (s1 s2 s3 : OrderBook) (h12 : Shrinks s1 s2) (h23 : Shrinks s2 s3) :
    Shrinks s1 s3 := by
  refine ⟨h23.1.trans h12.1, h23.2.1.trans h12.2.1, ?_⟩
  intro r hr
  rw [h23.2.2 r hr]
  refine h12.2.2 r ?_
  rcases List.mem_append.mp hr with h | h
  · exact List.mem_append_left _ (h23.1.subset h)
  · exact List.mem_append_right _ (h23.2.1.subset h)

theorem sublist_of_eq_or_tail (l l' : List Ptr) (h : l' = l ∨ l' = l.tail) : l'.Sublist l := by
  rcases h with h | h
  · rw [h]
  · rw [h]
    exact List.tail_sublist _

theorem Shrinks_matchStep (s s' : OrderBook) (t : Trade) (hwf : s.WF)
    (hstep : s.matchStep = some (t, s')) : Shrinks s s' := by
  unfold matchStep at hstep
  split at hstep
  · rename_i p rb q rs hb hs
    split at hstep
    · cases hstep
    · simp only [Option.some.injEq, Prod.mk.injEq] at hstep
      rw [← hstep.2]
      refine ⟨sublist_of_eq_or_tail _ _ (removeFilled_buyOrders_sub _ p q),
        sublist_of_eq_or_tail _ _ (removeFilled_sellOrders_sub _ p q), ?_⟩
      intro r hr
      rw [removeFilled_cell _ p q rb rs (WF_matchFill s p q hwf) hb hs r hr]
      exact matchFill_static s p q r
  · cases hstep

theorem Shrinks_matchLoop (fuel : Nat) (s : OrderBook) (hwf : s.WF) :
    Shrinks s (matchLoop fuel s).1 := by
  induction fuel generalizing s with
  | zero => exact Shrinks.refl s
  | succ n ih =>
    unfold matchLoop
    cases hstep : s.matchStep with
    | none => exact Shrinks.refl s
    | some r =>
      obtain ⟨t, s'⟩ := r
      exact Shrinks.trans _ _ _ (Shrinks_matchStep s s' t hwf hstep)
        (ih s' (WF_matchStep s s' t hwf hstep))

/-- The trade at position `k` of the output of the loop is printed by a pass of
the loop made on the state reached after the first `k` passes. -/
theorem matchLoop_trade (fuel : Nat) (s : OrderBook) (k : Nat) (t : Trade)
    (ht : (matchLoop fuel s).2[k]? = some t) :
    ∃ s', (matchLoop k s).1.matchStep = some (t, s') := by
  induction fuel generalizing s k with
  | zero => simp [matchLoop] at ht
  | succ n ih =>
    unfold matchLoop at ht
    cases hstep : s.matchStep with
    | none =>
      rw [hstep] at ht
      simp at ht
    | some r =>
      obtain ⟨t0, s1⟩ := r
      rw [hstep] at ht
      dsimp only at ht
      cases k with
      | zero =>
        simp only [List.getElem?_cons_zero, Option.some.injEq] at ht
        subst ht
        exact ⟨s1, hstep⟩
      | succ j =>
        simp only [List.getElem?_cons_succ] at ht
        obtain ⟨s', hs'⟩ := ih s1 j ht
        refine ⟨s', ?_⟩
        unfold matchLoop
        rw [hstep]
        exact hs'

theorem matchStep_trade_ids (s s' : OrderBook) (t : Trade)
    (hstep : s.matchStep = some (t, s')) :
    ∃ p rb q rs, s.buyOrders = p :: rb ∧ s.sellOrders = q :: rs ∧
      t.buyId = (s.deref p).id ∧ t.sellId = (s.deref q).id := by
  unfold matchStep at hstep
  split at hstep
  · rename_i p rb q rs hb hs
    split at hstep
    · cases hstep
    · simp only [Option.some.injEq, Prod.mk.injEq] at hstep
      rw [← hstep.1]
      exact ⟨p, rb, q, rs, hb, hs, rfl, rfl⟩
  · cases hstep

theorem mem_index_of_side (s : OrderBook) (hwf : s.WF) (r : Ptr)
    (hr : r ∈ s.buyOrders ++ s.sellOrders) :
    ((s.deref r).isBuy = true → r ∈ s.buyOrders) ∧
      ((s.deref r).isBuy = false → r ∈ s.sellOrders) := by
  rcases List.mem_append.mp hr with h | h
  · refine ⟨fun _ => h, fun hf => ?_⟩
    have := (hwf.1 r h).2
    rw [hf] at this
    cases this
  · refine ⟨fun ht => ?_, fun _ => h⟩
    have := (hwf.2.1 r h).2
    rw [ht] at this
    cases this

/-- The order at the front of an index is not one that another order of the
index has priority over. -/
theorem head_ne_of_priority (s sk : OrderBook) (hwfk : sk.WF)
    (hsh : Shrinks s sk) (A B : Ptr)
    (hprio : (s.deref A).hasPriorityOver (s.deref B))
    (hAk : A ∈ sk.buyOrders ++ sk.sellOrders) :
    (∀ rb, sk.buyOrders = B :: rb → False) ∧ (∀ rs, sk.sellOrders = B :: rs → False) := by
  have hAst := hsh.2.2 A hAk
  have hAside : (sk.deref A).isBuy = (s.deref A).isBuy := (deref_congr s sk A hAst).2.1
  constructor
  · intro rb hb
    have hBk : B ∈ sk.buyOrders := hb ▸ List.mem_cons_self _ _
    have hBst := hsh.2.2 B (List.mem_append_left _ hBk)
    have hBbuy : (s.deref B).isBuy = true := by
      rw [← (deref_congr s sk B hBst).2.1]
      exact (hwfk.1 B hBk).2
    have hAbuy : (s.deref A).isBuy = true := hprio.1.trans hBbuy
    have hlt : s.buyLt A B = true := hasPriorityOver_buy _ _ hprio hAbuy
    have hAkb : A ∈ sk.buyOrders :=
      (mem_index_of_side sk hwfk A hAk).1 (hAside.trans hAbuy)
    rw [hb] at hAkb
    have hsorted := hwfk.2.2.1
    rw [hb] at hsorted
    rcases List.mem_cons.mp hAkb with h | h
    · rw [h] at hlt
      have := buyLt_asymm s B B hlt
      rw [hlt] at this
      cases this
    · have h1 : sk.buyLt B A = true := (List.pairwise_cons.mp hsorted).1 A h
      rw [buyLt_congr s sk B A hBst hAst] at h1
      have := buyLt_asymm s A B hlt
      rw [h1] at this
      cases this
  · intro rs hb
    have hBk : B ∈ sk.sellOrders := hb ▸ List.mem_cons_self _ _
    have hBst := hsh.2.2 B (List.mem_append_right _ hBk)
    have hBsell : (s.deref B).isBuy = false := by
      rw [← (deref_congr s sk B hBst).2.1]
      exact (hwfk.2.1 B hBk).2
    have hAsell : (s.deref A).isBuy = false := hprio.1.trans hBsell
    have hlt : s.sellLt A B = true := hasPriorityOver_sell _ _ hprio hAsell
    have hAkb : A ∈ sk.sellOrders :=
      (mem_index_of_side sk hwfk A hAk).2 (hAside.trans hAsell)
    rw [hb] at hAkb
    have hsorted := hwfk.2.2.2.1
    rw [hb] at hsorted
    rcases List.mem_cons.mp hAkb with h | h
    · rw [h] at hlt
      have := sellLt_asymm s B B hlt
      rw [hlt] at this
      cases this
    · have h1 : sk.sellLt B A = true := (List.pairwise_cons.mp hsorted).1 A h
      rw [sellLt_congr s sk B A hBst hAst] at h1
      have := sellLt_asymm s A B hlt
      rw [h1] at this
      cases this

/-- Price-time priority within one run of `match()`: let `A` and `B` be two
orders resting in the indices of a well-formed book whose resting orders have
distinct ids, `A` having priority over `B` (same side, and a more aggressive
price or the same price and an earlier timestamp).  Then `A` stands before `B`
in their index, however the two were inserted, and in the trades printed by
the run no trade made while `A` is still in its index carries the id of `B`.
The hypothesis that `A` rests in its index is essential: see
`staleTieCalls` for a reachable book in which it fails. -/
theorem priority_within_match (s : OrderBook) (hwf : s.WF)
    (hids : ∀ p ∈ s.buyOrders ++ s.sellOrders, ∀ q ∈ s.buyOrders ++ s.sellOrders,
      (s.deref p).id = (s.deref q).id → p = q)
    (A B : Ptr) (hA : A ∈ s.buyOrders ++ s.sellOrders) (hB : B ∈ s.buyOrders ++ s.sellOrders)
    (hprio : (s.deref A).hasPriorityOver (s.deref B)) :
    ([A, B].Sublist s.buyOrders ∨ [A, B].Sublist s.sellOrders) ∧
      ∀ k t, (s.match_).2[k]? = some t →
        A ∈ (matchLoop k s).1.buyOrders ++ (matchLoop k s).1.sellOrders →
        t.buyId ≠ (s.deref B).id ∧ t.sellId ≠ (s.deref B).id := by
  constructor
  · cases hside : (s.deref A).isBuy with
    | true =>
      have hBside : (s.deref B).isBuy = true := hprio.1.symm.trans hside
      exact Or.inl (sublist_pair_of_pairwise _ (buyLt_asymm s) _ hwf.2.2.1 A B
        ((mem_index_of_side s hwf A hA).1 hside) ((mem_index_of_side s hwf B hB).1 hBside)
        (hasPriorityOver_buy _ _ hprio hside))
    | false =>
      have hBside : (s.deref B).isBuy = false := hprio.1.symm.trans hside
      exact Or.inr (sublist_pair_of_pairwise _ (sellLt_asymm s) _ hwf.2.2.2.1 A B
        ((mem_index_of_side s hwf A hA).2 hside) ((mem_index_of_side s hwf B hB).2 hBside)
        (hasPriorityOver_sell _ _ hprio hside))
  · intro k t ht hAk
    obtain ⟨s', hstep⟩ := matchLoop_trade _ s k t ht
    have hsh := Shrinks_matchLoop k s hwf
    have hwfk := WF_matchLoop k s hwf
    obtain ⟨p, rb, q, rs, hb, hs, hbid, hsid⟩ := matchStep_trade_ids _ _ _ hstep
    have hne := head_ne_of_priority s _ hwfk hsh A B hprio hAk
    have hpk : p ∈ (matchLoop k s).1.buyOrders := hb ▸ List.mem_cons_self _ _
    have hqk : q ∈ (matchLoop k s).1.sellOrders := hs ▸ List.mem_cons_self _ _
    have hpid := (deref_congr s _ p (hsh.2.2 p (List.mem_append_left _ hpk))).1
    have hqid := (deref_congr s _ q (hsh.2.2 q (List.mem_append_right _ hqk))).1
    constructor
    · rw [hbid, hpid]
      intro he
      have hpB : p = B := hids p (List.mem_append_left _ (hsh.1.subset hpk)) B hB he
      rw [hpB] at hb
      exact hne.1 rb hb
    · rw [hsid, hqid]
      intro he
      have hqB : q = B := hids q (List.mem_append_right _ (hsh.2.1.subset hqk)) B hB he
      rw [hqB] at hs
      exact hne.2 rs hs

/-- On a book in which the later bid (id 2) was inserted first: the earlier bid
(id 1) is first in the index and takes the first trade; id 2 trades only once
id 1 is gone. -/
theorem priority_within_match_priorityBook :
    priorityBook.WF ∧ (priorityBook.deref 1).hasPriorityOver (priorityBook.deref 0) ∧
      (priorityBook.match_).2 = [⟨1, 3, 100, 5⟩, ⟨2, 3, 100, 2⟩] ∧
      ([1, 0].Sublist priorityBook.buyOrders ∨ [1, 0].Sublist priorityBook.sellOrders) ∧
      (1 : Nat) ≠ (priorityBook.deref 0).id :=
  ⟨by decide, by decide, by decide,
    (priority_within_match priorityBook (by decide) (by decide) 1 0 (by decide) (by decide)
      (by decide)).1,
    ((priority_within_match priorityBook (by decide) (by decide) 1 0 (by decide) (by decide)
      (by decide)).2 0 ⟨1, 3, 100, 5⟩ (by decide) (by decide)).1⟩

/-- C3 (price-time priority) fails on the book left by `staleTieCalls`.  Order 9
has the price and timestamp of order 1, so the bid index refuses it, and
`cancelOrder(9)`, which erases from the index by key, takes order 1 out of the
index instead.  In the book that results the live orders are 1 and 2, with
distinct ids and distinct timestamps, both buys at 100.0, order 1 the earlier;
yet the next crossing sell trades against order 2, while order 1 is still live
with its quantity untouched. -/
theorem C3_priority_lost_after_tie :
    (run staleTieCalls).orders = [(1, 0), (2, 1)] ∧
      (run staleTieCalls).WF ∧ (run staleTieCalls).DistinctIds ∧
      (run staleTieCalls).deref 0 = ⟨1, true, 100, 10, 1⟩ ∧
      (run staleTieCalls).deref 1 = ⟨2, true, 100, 20, 2⟩ ∧
      ((run staleTieCalls).deref 0).hasPriorityOver ((run staleTieCalls).deref 1) ∧
      (run staleTieCalls).buyOrders = [1] ∧
      ((run staleTieCalls).addOrder ⟨3, false, 100, 5, 3⟩).2 = [⟨2, 3, 100, 5⟩] ∧
      mapFind ((run staleTieCalls).addOrder ⟨3, false, 100, 5, 3⟩).1.orders 1 = some 0 ∧
      ((run staleTieCalls).addOrder ⟨3, false, 100, 5, 3⟩).1.deref 0 =
        ⟨1, true, 100, 10, 1⟩ := by
  decide

end OrderBook

/-! ## Exact effect of the container operations -/

theorem pairwise_total (lt : Ptr → Ptr → Bool) (l : List Ptr)
    (hs : l.Pairwise (fun p q => lt p q = true)) (x y : Ptr) (hx : x ∈ l) (hy : y ∈ l)
    (hne : x ≠ y) : lt x y = true ∨ lt y x = true := by
  have h1 : l.Pairwise (fun p q => lt p q = true ∨ lt q p = true) :=
    hs.imp (fun h => Or.inl h)
  exact h1.forall (fun _ _ h => h.symm) hx hy hne

/-- When nothing but `k` itself is equivalent to `k`, erasing by key removes
`k` and nothing else. -/
theorem setErase_eq_filter (lt : Ptr → Ptr → Bool)
    (hasymm : ∀ a b, lt a b = true → lt b a = false) (k : Ptr) (xs : List Ptr)
    (hs : xs.Pairwise (fun p q => lt p q = true))
    (heq : ∀ x ∈ xs, lt x k = false → lt k x = false → x = k) :
    setErase lt k xs = xs.filter (fun x => decide (x ≠ k)) := by
  have hirr : ∀ a, lt a a = true → False := by
    intro a h
    have := hasymm a a h
    rw [h] at this
    cases this
  induction xs with
  | nil => rfl
  | cons y ys ih =>
    have hs' := List.pairwise_cons.mp hs
    have ih' := ih hs'.2 (fun x hx => heq x (List.mem_cons_of_mem _ hx))
    unfold setErase
    by_cases h1 : lt y k = true
    · have hyk : y ≠ k := fun e => hirr k (e ▸ h1)
      rw [if_pos h1, ih', List.filter_cons_of_pos (by simpa using hyk)]
    · rw [if_neg h1]
      by_cases h2 : lt k y = true
      · have hyk : y ≠ k := fun e => hirr k (e ▸ h2)
        rw [if_pos h2, List.filter_cons_of_pos (by simpa using hyk)]
        congr 1
        symm
        rw [List.filter_eq_self]
        intro x hx
        have hxk : x ≠ k := fun e => h1 (e ▸ hs'.1 x hx)
        simpa using hxk
      · rw [if_neg h2]
        have hyk : y = k := heq y (List.mem_cons_self _ _) (by simpa using h1) (by simpa using h2)
        rw [List.filter_cons_of_neg (by simpa using hyk)]
        symm
        rw [List.filter_eq_self]
        intro x hx
        have hxk : x ≠ k := fun e => h1 (e ▸ hs'.1 x hx)
        simpa using hxk

theorem setErase_eq_filter_of_mem (lt : Ptr → Ptr → Bool)
    (hasymm : ∀ a b, lt a b = true → lt b a = false) (k : Ptr) (xs : List Ptr)
    (hs : xs.Pairwise (fun p q => lt p q = true)) (hk : k ∈ xs) :
    setErase lt k xs = xs.filter (fun x => decide (x ≠ k)) := by
  refine setErase_eq_filter lt hasymm k xs hs ?_
  intro x hx h1 h2
  by_contra hne
  rcases pairwise_total lt xs hs x k hx hk hne with h | h
  · rw [h] at h1
    cases h1
  · rw [h] at h2
    cases h2

theorem mem_setInsert_self (lt : Ptr → Ptr → Bool) (o : Ptr) (xs : List Ptr)
    (htot : ∀ x ∈ xs, lt o x = true ∨ lt x o = true) : o ∈ setInsert lt o xs := by
  induction xs with
  | nil => simp [setInsert]
  | cons y ys ih =>
    unfold setInsert
    by_cases h1 : lt o y = true
    · rw [if_pos h1]
      exact List.mem_cons_self _ _
    · rw [if_neg h1]
      have h2 : lt y o = true := by
        rcases htot y (List.mem_cons_self _ _) with h | h
        · exact absurd h h1
        · exact h
      rw [if_pos h2]
      exact List.mem_cons_of_mem _ (ih (fun x hx => htot x (List.mem_cons_of_mem _ hx)))

theorem mapAssign_of_not_mem (m : List (Nat × Ptr)) (k : Nat) (v : Ptr)
    (hk : k ∉ m.map Prod.fst) : mapAssign m k v = m ++ [(k, v)] := by
  induction m with
  | nil => rfl
  | cons x rest ih =>
    obtain ⟨k', v'⟩ := x
    have h1 : k' ≠ k := fun e => hk (by simp [e])
    have h2 : k ∉ rest.map Prod.fst := fun h => hk (by simp [h])
    unfold mapAssign
    rw [if_neg h1, ih h2]
    rfl

theorem map_unique (m : List (Nat × Ptr)) (hn : (m.map Prod.fst).Nodup) (k : Nat) (v v' : Ptr)
    (h1 : (k, v) ∈ m) (h2 : (k, v') ∈ m) : v = v' := by
  induction m with
  | nil => cases h1
  | cons x rest ih =>
    rw [List.map_cons, List.nodup_cons] at hn
    rcases List.mem_cons.mp h1 with e1 | e1 <;> rcases List.mem_cons.mp h2 with e2 | e2
    · rw [← e1] at e2
      exact (Prod.mk.inj e2).2.symm
    · exfalso
      apply hn.1
      rw [← e1]
      exact List.mem_map.mpr ⟨(k, v'), e2, rfl⟩
    · exfalso
      apply hn.1
      rw [← e2]
      exact List.mem_map.mpr ⟨(k, v), e1, rfl⟩
    · exact ih hn.2 e1 e2

theorem BuyComparator_total (a b : Order)
    (hts : a.timestampInNanoSeconds ≠ b.timestampInNanoSeconds) :
    BuyComparator a b = true ∨ BuyComparator b a = true := by
  rw [BuyComparator_iff, BuyComparator_iff]
  rcases lt_trichotomy a.price b.price with h | h | h
  · exact Or.inr (Or.inl h)
  · rcases Nat.lt_or_gt_of_ne hts with h' | h'
    · exact Or.inl (Or.inr ⟨h, h'⟩)
    · exact Or.inr (Or.inr ⟨h.symm, h'⟩)
  · exact Or.inl (Or.inl h)

theorem SellComparator_total (a b : Order)
    (hts : a.timestampInNanoSeconds ≠ b.timestampInNanoSeconds) :
    SellComparator a b = true ∨ SellComparator b a = true := by
  rw [SellComparator_iff, SellComparator_iff]
  rcases lt_trichotomy a.price b.price with h | h | h
  · exact Or.inl (Or.inl h)
  · rcases Nat.lt_or_gt_of_ne hts with h' | h'
    · exact Or.inl (Or.inr ⟨h, h'⟩)
    · exact Or.inr (Or.inr ⟨h.symm, h'⟩)
  · exact Or.inr (Or.inl h)

theorem Heap.deref_alloc_new (h : Heap) (o : Order) : (h.alloc o).1.deref h.length = o := by
  unfold Heap.deref
  rw [Heap.cell_alloc, if_pos rfl]
  rfl

theorem Heap.deref_alloc_old (h : Heap) (o : Order) (r : Ptr) (hr : h.live r = true) :
    (h.alloc o).1.deref r = h.deref r := by
  unfold Heap.deref
  rw [Heap.cell_alloc]
  have hne : r ≠ h.length := by
    unfold Heap.live at hr
    obtain ⟨x, hx⟩ := Option.isSome_iff_exists.mp hr
    exact Nat.ne_of_lt (Heap.cell_lt_length _ _ _ hx)
  rw [if_neg hne]

theorem Heap.not_live_length (h : Heap) : h.live h.length = false := by
  unfold Heap.live Heap.cell
  rw [List.getElem?_eq_none (Nat.le_refl _)]
  rfl

namespace OrderBook

/-! ## The table mirrors the indices -/

theorem mem_ptrs_iff (m : List (Nat × Ptr)) (r : Ptr) :
    r ∈ m.map Prod.snd ↔ ∃ k, (k, r) ∈ m := by
  simp

/-- Erasing the key of an order that the table holds removes the entry of that
order and no other. -/
theorem ptrs_mapErase (b : OrderBook) (hwf : b.WF) (p : Ptr) (hp : p ∈ b.orders.map Prod.snd)
    (r : Ptr) :
    r ∈ (mapErase b.orders (b.deref p).id).map Prod.snd ↔
      r ∈ b.orders.map Prod.snd ∧ r ≠ p := by
  obtain ⟨kp, hkp⟩ := (mem_ptrs_iff _ _).mp hp
  have hkp' : kp = (b.deref p).id := ((hwf.2.2.2.2.1 _ hkp).2).symm
  rw [mem_ptrs_iff, mem_ptrs_iff]
  constructor
  · rintro ⟨k, hk⟩
    have h1 := (mem_mapErase _ _ _).mp hk
    refine ⟨⟨k, h1.1⟩, ?_⟩
    rintro rfl
    exact h1.2 (hwf.2.2.2.2.1 _ h1.1).2.symm
  · rintro ⟨⟨k, hk⟩, hne⟩
    refine ⟨k, (mem_mapErase _ _ _).mpr ⟨hk, ?_⟩⟩
    intro hkid
    have hkid' : k = (b.deref p).id := hkid
    rw [← hkp'] at hkid'
    rw [hkid'] at hk
    exact hne (map_unique _ hwf.2.2.2.2.2 kp r p hk hkp)

/-- Removing one object from the table and from the indices keeps them
mirrored. -/
theorem Mirror_remove (b : OrderBook) (hwf : b.WF) (hm : b.Mirror) (p : Ptr)
    (hp : p ∈ b.orders.map Prod.snd) (heap : Heap) (buy sell : List Ptr)
    (hb : ∀ r, r ∈ buy ↔ r ∈ b.buyOrders ∧ r ≠ p)
    (hs : ∀ r, r ∈ sell ↔ r ∈ b.sellOrders ∧ r ≠ p) :
    Mirror ⟨heap, mapErase b.orders (b.deref p).id, buy, sell⟩ := by
  intro r
  show r ∈ (mapErase b.orders (b.deref p).id).map Prod.snd ↔ r ∈ buy ∨ r ∈ sell
  rw [ptrs_mapErase b hwf p hp r, hb r, hs r, hm r]
  constructor
  · rintro ⟨h | h, hne⟩
    · exact Or.inl ⟨h, hne⟩
    · exact Or.inr ⟨h, hne⟩
  · rintro (⟨h, hne⟩ | ⟨h, hne⟩)
    · exact ⟨Or.inl h, hne⟩
    · exact ⟨Or.inr h, hne⟩

theorem Mirror_popBuy (b : OrderBook) (p : Ptr) (rb : List Ptr) (hwf : b.WF) (hm : b.Mirror)
    (hb : b.buyOrders = p :: rb) :
    Mirror { b with
      buyOrders := b.buyOrders.tail
      orders := mapErase b.orders (b.deref p).id
      heap := b.heap.free p } := by
  have hpm : p ∈ b.buyOrders := hb ▸ List.mem_cons_self _ _
  have hnd := WF.buy_nodup b hwf
  rw [hb] at hnd
  have hprb : p ∉ rb := (List.nodup_cons.mp hnd).1
  refine Mirror_remove b hwf hm p ((hm p).mpr (Or.inl hpm)) _ _ _ ?_ ?_
  · intro r
    rw [hb, List.tail_cons, List.mem_cons]
    constructor
    · intro h
      exact ⟨Or.inr h, fun e => hprb (e ▸ h)⟩
    · rintro ⟨h | h, hne⟩
      · exact absurd h hne
      · exact h
  · intro r
    constructor
    · intro h
      exact ⟨h, fun e => WF.buy_sell_disjoint b hwf p hpm (e ▸ h)⟩
    · exact fun h => h.1

theorem Mirror_popSell (b : OrderBook) (p : Ptr) (rs : List Ptr) (hwf : b.WF) (hm : b.Mirror)
    (hb : b.sellOrders = p :: rs) :
    Mirror { b with
      sellOrders := b.sellOrders.tail
      orders := mapErase b.orders (b.deref p).id
      heap := b.heap.free p } := by
  have hpm : p ∈ b.sellOrders := hb ▸ List.mem_cons_self _ _
  have hnd := WF.sell_nodup b hwf
  rw [hb] at hnd
  have hprb : p ∉ rs := (List.nodup_cons.mp hnd).1
  refine Mirror_remove b hwf hm p ((hm p).mpr (Or.inr hpm)) _ _ _ ?_ ?_
  · intro r
    constructor
    · intro h
      exact ⟨h, fun e => WF.buy_sell_disjoint b hwf p (e ▸ h) hpm⟩
    · exact fun h => h.1
  · intro r
    rw [hb, List.tail_cons, List.mem_cons]
    constructor
    · intro h
      exact ⟨Or.inr h, fun e => hprb (e ▸ h)⟩
    · rintro ⟨h | h, hne⟩
      · exact absurd h hne
      · exact h

theorem Mirror_removeFilled (b : OrderBook) (p q : Ptr) (rb rs : List Ptr) (hwf : b.WF)
    (hm : b.Mirror) (hb : b.buyOrders = p :: rb) (hs : b.sellOrders = q :: rs) :
    (b.removeFilled p q).Mirror := by
  unfold removeFilled
  dsimp only
  by_cases h1 : (b.deref p).quantity = 0
  · rw [if_pos h1]
    have wf1 := WF_popBuy b p rb hwf hb
    have m1 := Mirror_popBuy b p rb hwf hm hb
    split
    · exact Mirror_popSell _ q rs wf1 m1 hs
    · exact m1
  · rw [if_neg h1]
    split
    · exact Mirror_popSell _ q rs hwf hm hs
    · exact hm

theorem Mirror_matchStep (b b' : OrderBook) (t : Trade) (hwf : b.WF) (hm : b.Mirror)
    (hstep : b.matchStep = some (t, b')) : b'.Mirror := by
  unfold matchStep at hstep
  split at hstep
  · rename_i bestBuy rb bestSell rs hb hs
    split at hstep
    · cases hstep
    · simp only [Option.some.injEq, Prod.mk.injEq] at hstep
      rw [← hstep.2]
      exact Mirror_removeFilled _ bestBuy bestSell rb rs (WF_matchFill b _ _ hwf) hm hb hs
  · cases hstep

theorem Mirror_matchLoop (fuel : Nat) (b : OrderBook) (hwf : b.WF) (hm : b.Mirror) :
    (matchLoop fuel b).1.Mirror := by
  induction fuel generalizing b with
  | zero => exact hm
  | succ n ih =>
    unfold matchLoop
    cases hstep : b.matchStep with
    | none => exact hm
    | some r =>
      obtain ⟨t, b'⟩ := r
      exact ih b' (WF_matchStep b b' t hwf hstep) (Mirror_matchStep b b' t hwf hm hstep)

theorem mem_setInsert_iff (lt : Ptr → Ptr → Bool) (o : Ptr) (xs : List Ptr)
    (htot : ∀ x ∈ xs, lt o x = true ∨ lt x o = true) (r : Ptr) :
    r ∈ setInsert lt o xs ↔ r = o ∨ r ∈ xs := by
  constructor
  · exact mem_setInsert lt o xs r
  · rintro (h | h)
    · rw [h]
      exact mem_setInsert_self lt o xs htot
    · exact subset_setInsert lt o xs r h

theorem Mirror_place (b : OrderBook) (order : Order) (hwf : b.WF) (hm : b.Mirror)
    (hid : order.id ∉ b.orders.map Prod.fst)
    (hts : ∀ x ∈ b.buyOrders ++ b.sellOrders,
      (b.deref x).timestampInNanoSeconds ≠ order.timestampInNanoSeconds) :
    (b.place order).Mirror := by
  have hnew : (b.heap.alloc order).1.deref (b.heap.alloc order).2 = order :=
    Heap.deref_alloc_new b.heap order
  unfold place
  dsimp only
  rw [mapAssign_of_not_mem _ _ _ hid]
  by_cases hside : order.isBuy = true
  · rw [if_pos hside]
    intro r
    show r ∈ (b.orders ++ [(order.id, (b.heap.alloc order).2)]).map Prod.snd ↔
      r ∈ setInsert _ (b.heap.alloc order).2 b.buyOrders ∨ r ∈ b.sellOrders
    rw [mem_setInsert_iff]
    · rw [List.map_append, List.mem_append, hm r]
      simp only [List.map_cons, List.map_nil, List.mem_singleton]
      constructor
      · rintro ((h | h) | h)
        · exact Or.inl (Or.inr h)
        · exact Or.inr h
        · exact Or.inl (Or.inl h)
      · rintro ((h | h) | h)
        · exact Or.inr h
        · exact Or.inl (Or.inl h)
        · exact Or.inl (Or.inr h)
    · intro x hx
      show BuyComparator ((b.heap.alloc order).1.deref (b.heap.alloc order).2)
          ((b.heap.alloc order).1.deref x) = true ∨
        BuyComparator ((b.heap.alloc order).1.deref x)
          ((b.heap.alloc order).1.deref (b.heap.alloc order).2) = true
      rw [hnew, Heap.deref_alloc_old _ _ _ (hwf.1 x hx).1]
      exact BuyComparator_total _ _ (fun e => hts x (List.mem_append_left _ hx) e.symm)
  · rw [if_neg hside]
    intro r
    show r ∈ (b.orders ++ [(order.id, (b.heap.alloc order).2)]).map Prod.snd ↔
      r ∈ b.buyOrders ∨ r ∈ setInsert _ (b.heap.alloc order).2 b.sellOrders
    rw [mem_setInsert_iff]
    · rw [List.map_append, List.mem_append, hm r]
      simp only [List.map_cons, List.map_nil, List.mem_singleton]
      constructor
      · rintro ((h | h) | h)
        · exact Or.inl h
        · exact Or.inr (Or.inr h)
        · exact Or.inr (Or.inl h)
      · rintro (h | h | h)
        · exact Or.inl (Or.inl h)
        · exact Or.inr h
        · exact Or.inl (Or.inr h)
    · intro x hx
      show SellComparator ((b.heap.alloc order).1.deref (b.heap.alloc order).2)
          ((b.heap.alloc order).1.deref x) = true ∨
        SellComparator ((b.heap.alloc order).1.deref x)
          ((b.heap.alloc order).1.deref (b.heap.alloc order).2) = true
      rw [hnew, Heap.deref_alloc_old _ _ _ (hwf.2.1 x hx).1]
      exact SellComparator_total _ _ (fun e => hts x (List.mem_append_right _ hx) e.symm)

theorem Mirror_cancelOrder (b : OrderBook) (orderId : Nat) (hwf : b.WF) (hm : b.Mirror) :
    (b.cancelOrder orderId).1.Mirror := by
  unfold cancelOrder
  cases hfind : mapFind b.orders orderId with
  | none => exact hm
  | some order =>
    dsimp only
    have hmem := mapFind_mem _ _ _ hfind
    have hid : (b.deref order).id = orderId := (hwf.2.2.2.2.1 _ hmem).2
    have hptr : order ∈ b.orders.map Prod.snd := (mem_ptrs_iff _ _).mpr ⟨orderId, hmem⟩
    have hidx := (hm order).mp hptr
    by_cases hside : (b.deref order).isBuy = true
    · rw [if_pos hside]
      have hin : order ∈ b.buyOrders := by
        rcases hidx with h | h
        · exact h
        · have := (hwf.2.1 order h).2
          rw [hside] at this
          cases this
      have key := Mirror_remove b hwf hm order hptr (b.heap.free order)
        (setErase b.buyLt order b.buyOrders) b.sellOrders ?_ ?_
      · rw [hid] at key
        exact key
      · intro r
        rw [setErase_eq_filter_of_mem _ (buyLt_asymm b) _ _ hwf.2.2.1 hin, List.mem_filter]
        simp
      · intro r
        constructor
        · intro h
          exact ⟨h, fun e => WF.buy_sell_disjoint b hwf order hin (e ▸ h)⟩
        · exact fun h => h.1
    · rw [if_neg hside]
      have hin : order ∈ b.sellOrders := by
        rcases hidx with h | h
        · exact absurd (hwf.1 order h).2 hside
        · exact h
      have key := Mirror_remove b hwf hm order hptr (b.heap.free order)
        b.buyOrders (setErase b.sellLt order b.sellOrders) ?_ ?_
      · rw [hid] at key
        exact key
      · intro r
        constructor
        · intro h
          exact ⟨h, fun e => WF.buy_sell_disjoint b hwf order (e ▸ h) hin⟩
        · exact fun h => h.1
      · intro r
        rw [setErase_eq_filter_of_mem _ (sellLt_asymm b) _ _ hwf.2.2.2.1 hin, List.mem_filter]
        simp

theorem cancelOrder_orders (b : OrderBook) (orderId : Nat) :
    (b.cancelOrder orderId).1.orders = mapErase b.orders orderId := by
  unfold cancelOrder
  cases hfind : mapFind b.orders orderId with
  | none =>
    dsimp only
    symm
    apply mapErase_of_not_mem
    intro e he hk
    obtain ⟨w, hw⟩ := mapFind_isSome_of_mem b.orders orderId e.2 (by rw [← hk]; exact he)
    rw [hfind] at hw
    cases hw
  | some order =>
    dsimp only
    split <;> rfl

theorem mem_livePtrs_of_index (b : OrderBook) (r : Ptr)
    (hr : r ∈ b.buyOrders ++ b.sellOrders) : r ∈ b.livePtrs := by
  unfold livePtrs
  rcases List.mem_append.mp hr with h | h
  · exact List.mem_append_left _ (List.mem_append_right _ h)
  · exact List.mem_append_right _ h

theorem mem_livePtrs_of_table (b : OrderBook) (r : Ptr)
    (hr : r ∈ b.orders.map Prod.snd) : r ∈ b.livePtrs := by
  unfold livePtrs
  exact List.mem_append_left _ (List.mem_append_left _ hr)

theorem Mirror_exec (b : OrderBook) (op : Op) (hwf : b.WF) (hm : b.Mirror)
    (hadm : b.Admissible op) : (b.exec op).1.Mirror := by
  cases op with
  | add order =>
    refine Mirror_matchLoop _ _ (WF_place b order hwf) (Mirror_place b order hwf hm ?_ ?_)
    · intro hk
      obtain ⟨e, he, hek⟩ := List.mem_map.mp hk
      have h1 := (hwf.2.2.2.2.1 e he).2
      have h2 := (hadm e.2 (mem_livePtrs_of_table b e.2 (List.mem_map_of_mem Prod.snd he))).1
      rw [h1, hek] at h2
      exact h2 rfl
    · intro x hx
      exact (hadm x (mem_livePtrs_of_index b x hx)).2
  | cancel orderId => exact Mirror_cancelOrder b orderId hwf hm
  | amend orderId newPrice newQuantity now =>
    show (b.amendOrder orderId newPrice newQuantity now).1.Mirror
    have hadm' : b.readsClock orderId newPrice = true →
        ∀ p ∈ (b.cancelOrder orderId).1.livePtrs,
          ((b.cancelOrder orderId).1.deref p).timestampInNanoSeconds ≠ now := hadm
    unfold amendOrder
    unfold readsClock at hadm'
    cases hfind : mapFind b.orders orderId with
    | none => exact hm
    | some order =>
      rw [hfind] at hadm'
      dsimp only at hadm' ⊢
      split
      · rename_i hprice
        have hts := hadm' (by simpa using hprice)
        refine Mirror_matchLoop _ _ (WF_place _ _ (WF_cancelOrder b orderId hwf))
          (Mirror_place _ _ (WF_cancelOrder b orderId hwf)
            (Mirror_cancelOrder b orderId hwf hm) ?_ ?_)
        · rw [cancelOrder_orders]
          intro hk
          obtain ⟨e, he, hek⟩ := List.mem_map.mp hk
          exact ((mem_mapErase _ _ _).mp he).2 hek
        · intro x hx
          exact hts x (mem_livePtrs_of_index _ x hx)
      · exact Mirror_matchLoop _ _ (WF_setQuantity b order newQuantity hwf) hm

theorem consistent_of_mirror (b : OrderBook) (hwf : b.WF) (hm : b.Mirror) : b.Consistent := by
  refine ⟨?_, ?_, ?_, fun p hp => (hwf.1 p hp).2, fun p hp => (hwf.2.1 p hp).2⟩
  · intro k hk
    obtain ⟨e, he, hek⟩ := List.mem_map.mp hk
    have hidx := (hm e.2).mp (List.mem_map_of_mem Prod.snd he)
    refine List.mem_map.mpr ⟨e.2, List.mem_append.mpr hidx, ?_⟩
    rw [← hek]
    exact (hwf.2.2.2.2.1 e he).2
  · intro k hk
    obtain ⟨p, hp, hpk⟩ := List.mem_map.mp hk
    have hptr := (hm p).mpr (List.mem_append.mp hp)
    obtain ⟨k', hk'⟩ := (mem_ptrs_iff _ _).mp hptr
    have := (hwf.2.2.2.2.1 _ hk').2
    refine List.mem_map.mpr ⟨(k', p), hk', ?_⟩
    rw [← hpk]
    exact this.symm
  · intro p hp q hq he
    obtain ⟨kp, hkp⟩ := (mem_ptrs_iff _ _).mp ((hm p).mpr (Or.inl hp))
    obtain ⟨kq, hkq⟩ := (mem_ptrs_iff _ _).mp ((hm q).mpr (Or.inr hq))
    have h1 : (b.deref p).id = kp := (hwf.2.2.2.2.1 _ hkp).2
    have h2 : (b.deref q).id = kq := (hwf.2.2.2.2.1 _ hkq).2
    have hk : kp = kq := by rw [← h1, ← h2, he]
    rw [hk] at hkp
    have hpq := map_unique _ hwf.2.2.2.2.2 kq p q hkp hkq
    exact WF.buy_sell_disjoint b hwf p hp (hpq ▸ hq)

theorem mirror_runFrom_take (ops : List Op) (b : OrderBook) (hwf : b.WF) (hm : b.Mirror)
    (hadm : AdmissibleSeq b ops) (n : Nat) :
    (b.runFrom (ops.take n)).WF ∧ (b.runFrom (ops.take n)).Mirror := by
  induction ops generalizing b n with
  | nil => exact ⟨by simpa [runFrom] using hwf, by simpa [runFrom] using hm⟩
  | cons op rest ih =>
    cases n with
    | zero => exact ⟨hwf, hm⟩
    | succ j =>
      exact ih (b.exec op).1 (WF_exec b op hwf) (Mirror_exec b op hwf hm hadm.1) hadm.2 j

/-- C4 (consistency invariant): take a sequence of calls made on a fresh book in
which every added order has an id and an arrival timestamp that no live order
has at that time, and in which the timestamp minted by a price-changing amend
is that of no live order.  After each call (after the first `n` calls, for every
`n`) the keys of the lookup table are exactly the ids found in the two indices,
no id is found in both indices, the bid index holds buy orders only and the ask
index sell orders only. -/
theorem C4_consistency_invariant (ops : List Op) (hadm : AdmissibleSeq empty ops) (n : Nat) :
    (run (ops.take n)).Consistent :=
  consistent_of_mirror _ (mirror_runFrom_take ops empty WF_empty (fun _ => by simp [empty])
    hadm n).1 (mirror_runFrom_take ops empty WF_empty (fun _ => by simp [empty]) hadm n).2

/-- C4 on the calls of `main` followed by a crossing amend: the sequence is
admissible and the final book is consistent. -/
theorem C4_consistency_invariant_witness :
    AdmissibleSeq empty mainCalls ∧ (run (mainCalls.take 11)).Consistent :=
  ⟨by decide, C4_consistency_invariant mainCalls (by decide) 11⟩

/-! ## Cancelling a live order -/

theorem BuyComparator_equiv (a b : Order) (h1 : BuyComparator a b = false)
    (h2 : BuyComparator b a = false) :
    a.price = b.price ∧ a.timestampInNanoSeconds = b.timestampInNanoSeconds := by
  by_cases hts : a.timestampInNanoSeconds = b.timestampInNanoSeconds
  · refine ⟨?_, hts⟩
    by_contra hp
    rcases lt_or_gt_of_ne hp with h | h
    · have := (BuyComparator_iff b a).mpr (Or.inl h)
      rw [h2] at this
      cases this
    · have := (BuyComparator_iff a b).mpr (Or.inl h)
      rw [h1] at this
      cases this
  · rcases BuyComparator_total a b hts with h | h
    · rw [h1] at h
      cases h
    · rw [h2] at h
      cases h

theorem SellComparator_equiv (a b : Order) (h1 : SellComparator a b = false)
    (h2 : SellComparator b a = false) :
    a.price = b.price ∧ a.timestampInNanoSeconds = b.timestampInNanoSeconds := by
  by_cases hts : a.timestampInNanoSeconds = b.timestampInNanoSeconds
  · refine ⟨?_, hts⟩
    by_contra hp
    rcases lt_or_gt_of_ne hp with h | h
    · have := (SellComparator_iff a b).mpr (Or.inl h)
      rw [h1] at this
      cases this
    · have := (SellComparator_iff b a).mpr (Or.inl h)
      rw [h2] at this
      cases this
  · rcases SellComparator_total a b hts with h | h
    · rw [h1] at h
      cases h
    · rw [h2] at h
      cases h

/-- Filtering an index by pointer or by id is the same when ids are distinct. -/
theorem filter_ptr_eq_filter_id (b : OrderBook) (hids : b.DistinctIds) (order : Ptr)
    (horder : order ∈ b.livePtrs) (l : List Ptr) (hl : ∀ x ∈ l, x ∈ b.livePtrs) :
    l.filter (fun x => decide (x ≠ order)) =
      l.filter (fun p => decide ((b.deref p).id ≠ (b.deref order).id)) := by
  apply List.filter_congr
  intro x hx
  by_cases hxo : x = order
  · subst hxo
    simp
  · have : (b.deref x).id ≠ (b.deref order).id := fun e => hxo (hids x (hl x hx) order horder e)
    simp [hxo, this]

theorem filter_id_eq_self (b : OrderBook) (hids : b.DistinctIds) (order : Ptr)
    (horder : order ∈ b.livePtrs) (l : List Ptr) (hl : ∀ x ∈ l, x ∈ b.livePtrs)
    (hnot : order ∉ l) :
    l.filter (fun p => decide ((b.deref p).id ≠ (b.deref order).id)) = l := by
  rw [List.filter_eq_self]
  intro x hx
  have : (b.deref x).id ≠ (b.deref order).id := by
    intro e
    have := hids x (hl x hx) order horder e
    exact hnot (this ▸ hx)
  simpa using this

theorem cancelOrder_found (b : OrderBook) (orderId : Nat) (order : Ptr)
    (hfind : mapFind b.orders orderId = some order) :
    b.cancelOrder orderId =
      (⟨b.heap.free order, mapErase b.orders orderId,
        if (b.deref order).isBuy = true then setErase b.buyLt order b.buyOrders
        else b.buyOrders,
        if (b.deref order).isBuy = true then b.sellOrders
        else setErase b.sellLt order b.sellOrders⟩, true) := by
  unfold cancelOrder
  rw [hfind]
  dsimp only
  split <;> rfl

theorem cancelOrder_not_found (b : OrderBook) (orderId : Nat)
    (hfind : mapFind b.orders orderId = none) : b.cancelOrder orderId = (b, false) := by
  unfold cancelOrder
  rw [hfind]

/-- The indices after cancelling a live order of a book with distinct ids and
distinct keys: the orders carrying the id are filtered out. -/
theorem cancelOrder_indices (b : OrderBook) (hwf : b.WF) (hids : b.DistinctIds)
    (hkeys : b.DistinctKeys) (orderId : Nat) (order : Ptr)
    (hfind : mapFind b.orders orderId = some order) :
    (b.cancelOrder orderId).1.buyOrders =
        b.buyOrders.filter (fun p => decide ((b.deref p).id ≠ orderId)) ∧
      (b.cancelOrder orderId).1.sellOrders =
        b.sellOrders.filter (fun p => decide ((b.deref p).id ≠ orderId)) := by
  have hmem := mapFind_mem _ _ _ hfind
  have hid : (b.deref order).id = orderId := (hwf.2.2.2.2.1 _ hmem).2
  have horder : order ∈ b.livePtrs :=
    mem_livePtrs_of_table b order ((mem_ptrs_iff _ _).mpr ⟨orderId, hmem⟩)
  have hlb : ∀ x ∈ b.buyOrders, x ∈ b.livePtrs :=
    fun x hx => mem_livePtrs_of_index b x (List.mem_append_left _ hx)
  have hls : ∀ x ∈ b.sellOrders, x ∈ b.livePtrs :=
    fun x hx => mem_livePtrs_of_index b x (List.mem_append_right _ hx)
  rw [cancelOrder_found b orderId order hfind]
  dsimp only
  rw [← hid]
  by_cases hside : (b.deref order).isBuy = true
  · rw [if_pos hside, if_pos hside]
    constructor
    · rw [← filter_ptr_eq_filter_id b hids order horder _ hlb]
      refine setErase_eq_filter _ (buyLt_asymm b) _ _ hwf.2.2.1 ?_
      intro x hx h1 h2
      have he := BuyComparator_equiv _ _ h1 h2
      exact hkeys x (hlb x hx) order horder ((hwf.1 x hx).2.trans hside.symm) he.1 he.2
    · symm
      refine filter_id_eq_self b hids order horder _ hls ?_
      intro h
      have := (hwf.2.1 order h).2
      rw [hside] at this
      cases this
  · rw [if_neg hside, if_neg hside]
    have hside' : (b.deref order).isBuy = false := by simpa using hside
    constructor
    · symm
      refine filter_id_eq_self b hids order horder _ hlb ?_
      intro h
      exact hside (hwf.1 order h).2
    · rw [← filter_ptr_eq_filter_id b hids order horder _ hls]
      refine setErase_eq_filter _ (sellLt_asymm b) _ _ hwf.2.2.2.1 ?_
      intro x hx h1 h2
      have he := SellComparator_equiv _ _ h1 h2
      exact hkeys x (hls x hx) order horder ((hwf.2.1 x hx).2.trans hside'.symm) he.1 he.2

theorem cancelOrder_deref_other (b : OrderBook) (hwf : b.WF) (orderId : Nat) (p : Ptr)
    (hp : (b.deref p).id ≠ orderId) :
    (b.cancelOrder orderId).1.heap.cell p = b.heap.cell p := by
  cases hfind : mapFind b.orders orderId with
  | none => rw [cancelOrder_not_found b orderId hfind]
  | some order =>
    rw [cancelOrder_found b orderId order hfind]
    dsimp only
    have hid : (b.deref order).id = orderId := (hwf.2.2.2.2.1 _ (mapFind_mem _ _ _ hfind)).2
    have hne : p ≠ order := fun e => hp (e ▸ hid)
    rw [Heap.cell_free, if_neg hne]

/-- C5 (cancel of a live order): in a well-formed book whose live orders have
distinct ids and, per side, distinct (price, timestamp) keys, `cancelOrder` of
an id that the lookup table holds returns `true` and prints no trade;
afterwards the id is no key of the table and is carried by no order of either
index; the table and each index hold exactly what they held before except the
entries of that id, in the same relative order; and every other live order is
the same object as before, with the same side, price, quantity and timestamp. -/
theorem C5_cancel_live_order (b : OrderBook) (hwf : b.WF) (hids : b.DistinctIds)
    (hkeys : b.DistinctKeys) (orderId : Nat) (hlive : orderId ∈ b.orders.map Prod.fst) :
    (b.cancelOrder orderId).2 = true ∧
      (b.exec (.cancel orderId)).2.1 = [] ∧
      orderId ∉ (b.cancelOrder orderId).1.orders.map Prod.fst ∧
      (∀ p ∈ (b.cancelOrder orderId).1.buyOrders ++ (b.cancelOrder orderId).1.sellOrders,
        ((b.cancelOrder orderId).1.deref p).id ≠ orderId) ∧
      (b.cancelOrder orderId).1.orders = b.orders.filter (fun e => decide (e.1 ≠ orderId)) ∧
      (b.cancelOrder orderId).1.buyOrders =
        b.buyOrders.filter (fun p => decide ((b.deref p).id ≠ orderId)) ∧
      (b.cancelOrder orderId).1.sellOrders =
        b.sellOrders.filter (fun p => decide ((b.deref p).id ≠ orderId)) ∧
      (∀ p ∈ b.livePtrs, (b.deref p).id ≠ orderId →
        (b.cancelOrder orderId).1.heap.cell p = b.heap.cell p ∧
        (b.cancelOrder orderId).1.deref p = b.deref p) := by
  obtain ⟨e, he, hek⟩ := List.mem_map.mp hlive
  obtain ⟨order, hfind⟩ := mapFind_isSome_of_mem b.orders orderId e.2 (by rw [← hek]; exact he)
  have hidx := cancelOrder_indices b hwf hids hkeys orderId order hfind
  have hcell := cancelOrder_deref_other b hwf orderId
  refine ⟨?_, rfl, ?_, ?_, cancelOrder_orders b orderId, hidx.1, hidx.2, ?_⟩
  · rw [cancelOrder_found b orderId order hfind]
  · rw [cancelOrder_orders]
    intro hk
    obtain ⟨x, hx, hxk⟩ := List.mem_map.mp hk
    exact ((mem_mapErase _ _ _).mp hx).2 hxk
  · intro p hp
    have hp' : (b.deref p).id ≠ orderId := by
      rw [hidx.1, hidx.2] at hp
      rcases List.mem_append.mp hp with h | h
      · simpa using (List.mem_filter.mp h).2
      · simpa using (List.mem_filter.mp h).2
    unfold deref Heap.deref
    rw [hcell p hp']
    exact hp'
  · intro p _ hp
    refine ⟨hcell p hp, ?_⟩
    unfold deref Heap.deref
    rw [hcell p hp]

/-- C5 on the book of Scenario A: cancelling order 3 leaves the bids as they
were and the ask of order 4 alone. -/
theorem C5_cancel_live_order_witness :
    scenarioA.WF ∧ scenarioA.DistinctIds ∧ scenarioA.DistinctKeys ∧
      3 ∈ scenarioA.orders.map Prod.fst ∧
      (scenarioA.cancelOrder 3).2 = true ∧
      (scenarioA.cancelOrder 3).1.sellOrders =
        scenarioA.sellOrders.filter (fun p => decide ((scenarioA.deref p).id ≠ 3)) :=
  ⟨by decide, by decide, by decide, by decide,
    (C5_cancel_live_order scenarioA (by decide) (by decide) (by decide) 3 (by decide)).1,
    (C5_cancel_live_order scenarioA (by decide) (by decide) (by decide) 3
      (by decide)).2.2.2.2.2.2.1⟩

/-! ## Not-found, repeated cancel, and the two branches of amend -/

theorem mapFind_none_of_not_key (m : List (Nat × Ptr)) (k : Nat) (hk : k ∉ m.map Prod.fst) :
    mapFind m k = none :=
  mapFind_eq_none m k (fun e he hek => hk (List.mem_map.mpr ⟨e, he, hek⟩))

/-- C6 (not-found is a no-op): for an id that is no key of the lookup table,
`cancelOrder` returns `false` and `amendOrder` returns `false` whatever the new
price, the new quantity and the clock; both leave the whole state (free store,
table and indices) as it was and print no trade. -/
theorem C6_not_found_noop (b : OrderBook) (orderId : Nat)
    (habsent : orderId ∉ b.orders.map Prod.fst) (newPrice : Price) (newQuantity now : Nat) :
    b.cancelOrder orderId = (b, false) ∧
      b.amendOrder orderId newPrice newQuantity now = (b, false, []) ∧
      b.exec (.cancel orderId) = (b, [], some false) ∧
      b.exec (.amend orderId newPrice newQuantity now) = (b, [], some false) := by
  have hfind := mapFind_none_of_not_key b.orders orderId habsent
  have h1 : b.cancelOrder orderId = (b, false) := cancelOrder_not_found b orderId hfind
  have h2 : b.amendOrder orderId newPrice newQuantity now = (b, false, []) := by
    unfold amendOrder
    rw [hfind]
  refine ⟨h1, h2, ?_, ?_⟩
  · simp only [exec, h1]
  · simp only [exec, h2]

/-- C6 on the book of Scenario A, which holds no order 42. -/
theorem C6_not_found_noop_witness :
    42 ∉ scenarioA.orders.map Prod.fst ∧ scenarioA.cancelOrder 42 = (scenarioA, false) ∧
      scenarioA.amendOrder 42 100 7 9 = (scenarioA, false, []) :=
  ⟨by decide, (C6_not_found_noop scenarioA 42 (by decide) 100 7 9).1,
    (C6_not_found_noop scenarioA 42 (by decide) 100 7 9).2.1⟩

/-- C7 (idempotent cancel): whatever the book and the id, a second
`cancelOrder` of the same id right after the first returns `false` and leaves
the state exactly as the first call left it. -/
theorem C7_idempotent_cancel (b : OrderBook) (orderId : Nat) :
    (b.cancelOrder orderId).1.cancelOrder orderId = ((b.cancelOrder orderId).1, false) := by
  apply cancelOrder_not_found
  rw [cancelOrder_orders]
  exact mapFind_mapErase_self _ _

/-- C8 (amend with a price change is cancel-then-add): when the table holds the
id and the order's price differs from `newPrice`, `amendOrder` returns `true`,
and its final state and its trades are those of `cancelOrder` of the id followed
by `addOrder` of an order with the same id and side, the new price and quantity
and the timestamp `t` read from the clock; the cancel inside it succeeds. -/
theorem C8_amend_price_change (b : OrderBook) (orderId : Nat) (order : Ptr)
    (hfind : mapFind b.orders orderId = some order) (newPrice : Price)
    (hprice : (b.deref order).price ≠ newPrice) (newQuantity t : Nat) :
    b.amendOrder orderId newPrice newQuantity t =
        ((b.cancelThenAdd orderId newPrice newQuantity t).1, true,
          (b.cancelThenAdd orderId newPrice newQuantity t).2) ∧
      b.cancelThenAdd orderId newPrice newQuantity t =
        (b.cancelOrder orderId).1.addOrder
          ⟨orderId, (b.deref order).isBuy, newPrice, newQuantity, t⟩ ∧
      (b.cancelOrder orderId).2 = true := by
  refine ⟨?_, ?_, ?_⟩
  · unfold amendOrder cancelThenAdd
    rw [hfind]
    dsimp only
    rw [if_pos hprice]
  · unfold cancelThenAdd
    rw [hfind]
  · rw [cancelOrder_found b orderId order hfind]

/-- C8 on the book of Scenario A: moving order 2 from 100.0 to 104.0 re-adds it
with the new timestamp and lets it take both asks. -/
theorem C8_amend_price_change_witness :
    mapFind scenarioA.orders 2 = some 1 ∧ (scenarioA.deref 1).price ≠ 104 ∧
      scenarioA.amendOrder 2 104 200 9 =
        ((scenarioA.cancelThenAdd 2 104 200 9).1, true,
          (scenarioA.cancelThenAdd 2 104 200 9).2) ∧
      (scenarioA.amendOrder 2 104 200 9).2.2 = [⟨2, 3, 102, 70⟩, ⟨2, 4, 103, 30⟩] :=
  ⟨by decide, by decide,
    (C8_amend_price_change scenarioA 2 1 (by decide) 104 (by decide) 200 9).1, by decide⟩

theorem quiescent_setQuantity (b : OrderBook) (p : Ptr) (q : Nat) (hq : b.Quiescent) :
    Quiescent { b with heap := b.heap.setQuantity p q } := by
  rcases hq with h | h | ⟨bid, ask, hb, hs, hlt⟩
  · exact Or.inl h
  · exact Or.inr (Or.inl h)
  · refine Or.inr (Or.inr ⟨bid, ask, hb, hs, ?_⟩)
    rw [(deref_congr b _ bid (cell_setQuantity_static b.heap p bid q)).2.2.1,
      (deref_congr b _ ask (cell_setQuantity_static b.heap p ask q)).2.2.1]
    exact hlt

theorem match_of_quiescent (b : OrderBook) (hq : b.Quiescent) : b.match_ = (b, []) :=
  matchLoop_of_none _ b (matchStep_none_of_quiescent b hq)

/-- C9 (amend with unchanged price is in place): in a well-formed quiescent
book, for an id that the table maps to an order whose price equals `newPrice`,
`amendOrder` returns `true` and prints no trade; the final state is the initial
one with that order's quantity set to `newQuantity`: the table and both indices
are the same lists (so the order keeps its position), the order keeps its id,
side, price and timestamp, and every other object is untouched. -/
theorem C9_amend_in_place (b : OrderBook) (hwf : b.WF) (hq : b.Quiescent) (orderId : Nat)
    (order : Ptr) (hfind : mapFind b.orders orderId = some order) (newPrice : Price)
    (hprice : (b.deref order).price = newPrice) (newQuantity now : Nat) :
    (b.amendOrder orderId newPrice newQuantity now).2.1 = true ∧
      (b.amendOrder orderId newPrice newQuantity now).2.2 = [] ∧
      (b.amendOrder orderId newPrice newQuantity now).1.orders = b.orders ∧
      (b.amendOrder orderId newPrice newQuantity now).1.buyOrders = b.buyOrders ∧
      (b.amendOrder orderId newPrice newQuantity now).1.sellOrders = b.sellOrders ∧
      (b.amendOrder orderId newPrice newQuantity now).1.heap.cell order =
        some { b.deref order with quantity := newQuantity } ∧
      (∀ p, p ≠ order →
        (b.amendOrder orderId newPrice newQuantity now).1.heap.cell p = b.heap.cell p) := by
  have hres : b.amendOrder orderId newPrice newQuantity now =
      ({ b with heap := b.heap.setQuantity order newQuantity }, true, []) := by
    unfold amendOrder
    rw [hfind]
    dsimp only
    rw [if_neg (not_not.mpr hprice),
      match_of_quiescent _ (quiescent_setQuantity b order newQuantity hq)]
  have hlive : b.heap.live order = true := (hwf.2.2.2.2.1 _ (mapFind_mem _ _ _ hfind)).1
  rw [hres]
  refine ⟨rfl, rfl, rfl, rfl, rfl, ?_, ?_⟩
  · dsimp only
    rw [Heap.cell_setQuantity, if_pos rfl]
    unfold Heap.live at hlive
    obtain ⟨o, ho⟩ := Option.isSome_iff_exists.mp hlive
    unfold deref Heap.deref
    rw [ho]
    rfl
  · intro p hp
    dsimp only
    rw [Heap.cell_setQuantity, if_neg hp]

/-- C9 on Scenario B: on the book of Scenario A, `amendOrder(2, 100.0, 200)`
prints no trade and the snapshot becomes bids (101.0, 250), (100.0, 200) with
the asks (102.0, 70), (103.0, 30) unchanged. -/
theorem C9_amend_in_place_witness :
    scenarioA.WF ∧ scenarioA.Quiescent ∧ mapFind scenarioA.orders 2 = some 1 ∧
      (scenarioA.deref 1).price = 100 ∧
      (scenarioA.amendOrder 2 100 200 6).2.2 = [] ∧
      (scenarioA.amendOrder 2 100 200 6).1.getSnapshot 5 =
        ([⟨101, 250⟩, ⟨100, 200⟩], [⟨102, 70⟩, ⟨103, 30⟩]) ∧
      scenarioA.getSnapshot 5 = ([⟨101, 250⟩, ⟨100, 50⟩], [⟨102, 70⟩, ⟨103, 30⟩]) :=
  ⟨by decide, Or.inr (Or.inr ⟨0, 2, by decide, by decide, by decide⟩), by decide, by decide,
    (C9_amend_in_place scenarioA (by decide)
      (Or.inr (Or.inr ⟨0, 2, by decide, by decide, by decide⟩)) 2 1 (by decide) 100
      (by decide) 200 6).2.1,
    by decide, by decide⟩

/-! ## The depth bound of the aggregation -/

theorem aggregateLoop_length_le (h : Heap) (depth : Nat) (orderSet : List Ptr)
    (levels : List PriceLevel) (currentPrice : Price) (totalQty : Nat)
    (hlen : levels.length < depth) :
    (aggregateLoop h depth orderSet levels currentPrice totalQty).length ≤ depth := by
  induction orderSet generalizing levels currentPrice totalQty with
  | nil =>
    unfold aggregateLoop
    split
    · rw [List.length_append, List.length_singleton]
      exact hlen
    · exact Nat.le_of_lt hlen
  | cons p rest ih =>
    unfold aggregateLoop
    dsimp only
    generalize (if currentPrice = -1 then (h.deref p).price else currentPrice) = cp1
    by_cases hp : (h.deref p).price ≠ cp1
    · rw [if_pos hp]
      by_cases hfull : (levels ++ [PriceLevel.mk cp1 totalQty]).length = depth
      · rw [if_pos hfull]
        exact Nat.le_of_eq hfull
      · rw [if_neg hfull]
        apply ih
        rw [List.length_append, List.length_singleton] at hfull ⊢
        exact Nat.lt_of_le_of_ne hlen hfull
    · rw [if_neg hp]
      exact ih _ _ _ hlen

/-- For a depth of at least 1, `aggregateLevels` returns at most `depth`
levels. -/
theorem aggregateLevels_length_le (b : OrderBook) (orderSet : List Ptr) (depth : Nat)
    (hdepth : 1 ≤ depth) : (b.aggregateLevels orderSet depth).length ≤ depth :=
  aggregateLoop_length_le b.heap depth orderSet [] (-1) 0 hdepth

/-- C10 (aggregation depth bound) fails for `depth = 0`: on the bid index of the
book of Scenario A, `aggregateLevels` with depth 0 returns one level, because
the test `levels.size() == depth` made after each `push_back` never holds. -/
theorem C10_depth_zero_overrun :
    scenarioA.aggregateLevels scenarioA.buyOrders 0 = [⟨101, 250⟩] ∧
      ¬ (scenarioA.aggregateLevels scenarioA.buyOrders 0).length ≤ 0 := by
  decide

/-! ## Termination of the crossing loop -/

theorem matchLoop_trades_length (fuel : Nat) (b : OrderBook) (hwf : b.WF) :
    (matchLoop fuel b).2.length ≤ b.size := by
  induction fuel generalizing b with
  | zero => exact Nat.zero_le _
  | succ n ih =>
    unfold matchLoop
    cases hstep : b.matchStep with
    | none => exact Nat.zero_le _
    | some r =>
      obtain ⟨t, b'⟩ := r
      have hlt := matchStep_length_lt b b' t hwf hstep
      have := ih b' (WF_matchStep b b' t hwf hstep)
      unfold size at this ⊢
      simp only [List.length_cons]
      omega

/-- When the state reached after `k` passes makes a further pass, the state
reached after `k + 1` passes is the result of that pass. -/
theorem matchLoop_succ (k : Nat) (b s' : OrderBook) (t : Trade)
    (hstep : (matchLoop k b).1.matchStep = some (t, s')) : (matchLoop (k + 1) b).1 = s' := by
  induction k generalizing b with
  | zero =>
    have h0 : b.matchStep = some (t, s') := hstep
    unfold matchLoop
    rw [h0]
    rfl
  | succ n ih =>
    unfold matchLoop at hstep ⊢
    cases h0 : b.matchStep with
    | none =>
      rw [h0] at hstep
      dsimp only at hstep
      rw [h0] at hstep
      cases hstep
    | some r =>
      obtain ⟨t0, b1⟩ := r
      rw [h0] at hstep
      dsimp only at hstep ⊢
      exact ih b1 hstep

theorem matchStep_none_of_match (b : OrderBook) (hwf : b.WF) :
    (b.match_).1.matchStep = none :=
  matchStep_none_of_quiescent _ (quiescent_match b hwf)

/-- C17 (crossing terminates at quiescence): for a well-formed book, with any
quantities, the loop of `match()` stops by its own exit after at most as many
passes as there are resting orders (more fuel than that changes nothing, and
the final state admits no further pass); every pass leaves strictly fewer
orders in the indices than it found; and on return an index is empty or the
first bid is priced strictly below the first ask. -/
theorem C17_match_terminates (b : OrderBook) (hwf : b.WF) :
    (∀ fuel, b.size ≤ fuel → matchLoop fuel b = b.match_) ∧
      (b.match_).1.matchStep = none ∧
      (b.match_).2.length ≤ b.size ∧
      (∀ k t, (b.match_).2[k]? = some t →
        (matchLoop (k + 1) b).1.size < (matchLoop k b).1.size) ∧
      ((b.match_).1.buyOrders = [] ∨ (b.match_).1.sellOrders = [] ∨
        ∃ bid ask, (b.match_).1.buyOrders.head? = some bid ∧
          (b.match_).1.sellOrders.head? = some ask ∧
          ((b.match_).1.deref bid).price < ((b.match_).1.deref ask).price) := by
  refine ⟨fun fuel hfuel => matchLoop_eq_match fuel b hwf hfuel, matchStep_none_of_match b hwf,
    matchLoop_trades_length _ b hwf, ?_, quiescent_match b hwf⟩
  intro k t ht
  obtain ⟨s', hstep⟩ := matchLoop_trade _ b k t ht
  rw [matchLoop_succ k b s' t hstep]
  exact matchStep_length_lt _ s' t (WF_matchLoop k b hwf) hstep

/-- C17 on a book with two bids and one ask at the same price: two passes, then
the loop stops with the ask index empty. -/
theorem C17_match_terminates_witness :
    priorityBook.WF ∧ priorityBook.size = 3 ∧ (priorityBook.match_).2.length = 2 ∧
      (priorityBook.match_).1.sellOrders = [] ∧ (priorityBook.match_).1.matchStep = none :=
  ⟨by decide, by decide, by decide, by decide,
    (C17_match_terminates priorityBook (by decide)).2.1⟩

/-! ## The ordering of the indices -/

theorem bidBefore_iff (a b : Order) : BidBefore a b ↔ BuyComparator a b = true :=
  (BuyComparator_iff a b).symm

theorem askBefore_iff (a b : Order) : AskBefore a b ↔ SellComparator a b = true :=
  (SellComparator_iff a b).symm

/-- In a list that is strictly sorted for an asymmetric relation, positions and
the relation agree. -/
theorem pairwise_index_iff (l : List Ptr) (R : Ptr → Ptr → Prop)
    (hasymm : ∀ a b, R a b → ¬ R b a) (hs : l.Pairwise R) (i j : Nat) (hi : i < l.length)
    (hj : j < l.length) : i < j ↔ R l[i] l[j] := by
  have hget := List.pairwise_iff_getElem.mp hs
  constructor
  · intro hij
    exact hget i j hi hj hij
  · intro hr
    by_contra hnot
    rcases Nat.lt_or_eq_of_le (Nat.le_of_not_lt hnot) with h | h
    · exact hasymm _ _ hr (hget j i hj hi h)
    · subst h
      exact hasymm _ _ hr hr

theorem sorted_bids (b : OrderBook) (hwf : b.WF) :
    b.buyOrders.Pairwise (fun p q => BidBefore (b.deref p) (b.deref q)) :=
  hwf.2.2.1.imp (fun h => (bidBefore_iff _ _).mpr h)

theorem sorted_asks (b : OrderBook) (hwf : b.WF) :
    b.sellOrders.Pairwise (fun p q => AskBefore (b.deref p) (b.deref q)) :=
  hwf.2.2.2.1.imp (fun h => (askBefore_iff _ _).mpr h)

theorem bidBefore_asymm (a b : Order) (h : BidBefore a b) : ¬ BidBefore b a := by
  rw [bidBefore_iff] at *
  rw [BuyComparator_asymm a b h]
  exact Bool.false_ne_true

theorem askBefore_asymm (a b : Order) (h : AskBefore a b) : ¬ AskBefore b a := by
  rw [askBefore_iff] at *
  rw [SellComparator_asymm a b h]
  exact Bool.false_ne_true

/-- C19 (index ordering invariant): in every state reached from a fresh book by
`addOrder`, `cancelOrder` and `amendOrder` calls, the bid index is strictly
sorted by (price descending, timestamp ascending) and the ask index by (price
ascending, timestamp ascending), so that one order stands before another
exactly when it sorts before it; and a write of a quantity (an in-place amend)
or the two writes of a fill leave both indices the same lists, still sorted. -/
theorem C19_index_ordering (ops : List Op) :
    (run ops).buyOrders.Pairwise (fun p q => BidBefore ((run ops).deref p) ((run ops).deref q)) ∧
      (run ops).sellOrders.Pairwise
        (fun p q => AskBefore ((run ops).deref p) ((run ops).deref q)) ∧
      (∀ i j (hi : i < (run ops).buyOrders.length) (hj : j < (run ops).buyOrders.length),
        i < j ↔ BidBefore ((run ops).deref (run ops).buyOrders[i])
          ((run ops).deref (run ops).buyOrders[j])) ∧
      (∀ i j (hi : i < (run ops).sellOrders.length) (hj : j < (run ops).sellOrders.length),
        i < j ↔ AskBefore ((run ops).deref (run ops).sellOrders[i])
          ((run ops).deref (run ops).sellOrders[j])) ∧
      (∀ p q, ∀ s, s = ({ run ops with heap := (run ops).heap.setQuantity p q } : OrderBook) →
        s.buyOrders = (run ops).buyOrders ∧ s.sellOrders = (run ops).sellOrders ∧
        s.buyOrders.Pairwise (fun x y => BidBefore (s.deref x) (s.deref y)) ∧
        s.sellOrders.Pairwise (fun x y => AskBefore (s.deref x) (s.deref y))) ∧
      (∀ p q, ∀ s, s = ((run ops).matchFill p q).2 →
        s.buyOrders = (run ops).buyOrders ∧ s.sellOrders = (run ops).sellOrders ∧
        s.buyOrders.Pairwise (fun x y => BidBefore (s.deref x) (s.deref y)) ∧
        s.sellOrders.Pairwise (fun x y => AskBefore (s.deref x) (s.deref y))) := by
  have hwf := WF_run ops
  refine ⟨sorted_bids _ hwf, sorted_asks _ hwf, ?_, ?_, ?_, ?_⟩
  · intro i j hi hj
    exact pairwise_index_iff _ (fun p q => BidBefore ((run ops).deref p) ((run ops).deref q))
      (fun _ _ h => bidBefore_asymm _ _ h) (sorted_bids _ hwf) i j hi hj
  · intro i j hi hj
    exact pairwise_index_iff _ (fun p q => AskBefore ((run ops).deref p) ((run ops).deref q))
      (fun _ _ h => askBefore_asymm _ _ h) (sorted_asks _ hwf) i j hi hj
  · intro p q s hs
    have hwf' := WF_setQuantity (run ops) p q hwf
    rw [← hs] at hwf'
    refine ⟨by rw [hs], by rw [hs], sorted_bids s hwf', sorted_asks s hwf'⟩
  · intro p q s hs
    have hwf' := WF_matchFill (run ops) p q hwf
    rw [← hs] at hwf'
    refine ⟨by rw [hs]; rfl, by rw [hs]; rfl, sorted_bids s hwf', sorted_asks s hwf'⟩

/-! ## Quantity conservation -/

/-- What a pass of the loop that makes a trade consists of. -/
theorem matchStep_inv (b b' : OrderBook) (t : Trade) (hstep : b.matchStep = some (t, b')) :
    ∃ p rb q rs, b.buyOrders = p :: rb ∧ b.sellOrders = q :: rs ∧
      (b.deref q).price ≤ (b.deref p).price ∧ t = (b.matchFill p q).1 ∧
      b' = (b.matchFill p q).2.removeFilled p q := by
  unfold matchStep at hstep
  split at hstep
  · rename_i p rb q rs hb hs
    split at hstep
    · cases hstep
    · rename_i hlt
      simp only [Option.some.injEq, Prod.mk.injEq] at hstep
      exact ⟨p, rb, q, rs, hb, hs, not_lt.mp hlt, hstep.1.symm, hstep.2.symm⟩
  · cases hstep

theorem deref_eq_of_cell (b b' : OrderBook) (r : Ptr) (h : b'.heap.cell r = b.heap.cell r) :
    b'.deref r = b.deref r := by
  unfold deref Heap.deref
  rw [h]

theorem removeFilled_buyOrders_eq (b : OrderBook) (p q : Ptr) :
    (b.removeFilled p q).buyOrders =
      if (b.deref p).quantity = 0 then b.buyOrders.tail else b.buyOrders := by
  unfold removeFilled
  dsimp only
  split <;> split <;> rfl

theorem removeFilled_sellOrders_eq (b : OrderBook) (p q : Ptr) (hne : p ≠ q) :
    (b.removeFilled p q).sellOrders =
      if (b.deref q).quantity = 0 then b.sellOrders.tail else b.sellOrders := by
  have hq : ∀ (o : List (Nat × Ptr)) (l1 l2 : List Ptr),
      deref ⟨b.heap.free p, o, l1, l2⟩ q = b.deref q := by
    intro o l1 l2
    apply deref_eq_of_cell
    show (b.heap.free p).cell q = b.heap.cell q
    rw [Heap.cell_free, if_neg (fun e => hne e.symm)]
  unfold removeFilled
  dsimp only
  by_cases h1 : (b.deref p).quantity = 0
  · rw [if_pos h1, hq]
    split <;> rfl
  · rw [if_neg h1]
    split <;> rfl

theorem sum_map_congr (l : List Ptr) (f g : Ptr → Nat) (h : ∀ r ∈ l, f r = g r) :
    (l.map f).sum = (l.map g).sum := by
  rw [List.map_congr_left h]

/-- A pass of the loop takes the traded quantity, which is at most either front
quantity, off the total of each index. -/
theorem matchStep_totals (b b' : OrderBook) (t : Trade) (hwf : b.WF)
    (hstep : b.matchStep = some (t, b')) :
    b'.bidTotal + t.qty = b.bidTotal ∧ b'.askTotal + t.qty = b.askTotal := by
  obtain ⟨p, rb, q, rs, hb, hs, _, ht, hb'⟩ := matchStep_inv b b' t hstep
  have hpm : p ∈ b.buyOrders := hb ▸ List.mem_cons_self _ _
  have hqm : q ∈ b.sellOrders := hs ▸ List.mem_cons_self _ _
  have hne : p ≠ q := fun e => WF.buy_sell_disjoint b hwf p hpm (e ▸ hqm)
  have hqb := matchFill_quantity_buy b p q hne (hwf.1 p hpm).1
  have hqs := matchFill_quantity_sell b p q hne (hwf.2.1 q hqm).1
  have hnb := WF.buy_nodup b hwf
  have hns := WF.sell_nodup b hwf
  rw [hb] at hnb
  rw [hs] at hns
  have hprb : p ∉ rb := (List.nodup_cons.mp hnb).1
  have hqrs : q ∉ rs := (List.nodup_cons.mp hns).1
  have hwf2 := WF_matchFill b p q hwf
  have hb2 : (b.matchFill p q).2.buyOrders = p :: rb := hb
  have hs2 : (b.matchFill p q).2.sellOrders = q :: rs := hs
  have hqty : t.qty = min (b.deref p).quantity (b.deref q).quantity := by rw [ht]; rfl
  have hcell := removeFilled_cell _ p q rb rs hwf2 hb2 hs2
  have hrb : ∀ r ∈ rb, ((b.matchFill p q).2.deref r).quantity = (b.deref r).quantity := by
    intro r hr
    have h1 : r ≠ p := fun e => hprb (e ▸ hr)
    have h2 : r ≠ q := fun e =>
      WF.buy_sell_disjoint b hwf q (hb ▸ List.mem_cons_of_mem _ (e ▸ hr)) hqm
    rw [deref_eq_of_cell b _ r (matchFill_cell_other b p q r h1 h2)]
  have hrs : ∀ r ∈ rs, ((b.matchFill p q).2.deref r).quantity = (b.deref r).quantity := by
    intro r hr
    have h1 : r ≠ p := fun e =>
      WF.buy_sell_disjoint b hwf p hpm (hs ▸ List.mem_cons_of_mem _ (e ▸ hr))
    have h2 : r ≠ q := fun e => hqrs (e ▸ hr)
    rw [deref_eq_of_cell b _ r (matchFill_cell_other b p q r h1 h2)]
  have hbl := removeFilled_buyOrders_eq (b.matchFill p q).2 p q
  have hsl := removeFilled_sellOrders_eq (b.matchFill p q).2 p q hne
  rw [← hb'] at hcell hbl hsl
  rw [hb2] at hbl
  rw [hs2] at hsl
  generalize (b.matchFill p q).2 = b2 at hqb hqs hrb hrs hcell hbl hsl
  have hbuy' : b'.bidTotal = (b'.buyOrders.map (fun r => (b2.deref r).quantity)).sum :=
    sum_map_congr _ _ _ (fun r hr => by
      rw [deref_eq_of_cell b2 b' r (hcell r (List.mem_append_left _ hr))])
  have hsell' : b'.askTotal = (b'.sellOrders.map (fun r => (b2.deref r).quantity)).sum :=
    sum_map_congr _ _ _ (fun r hr => by
      rw [deref_eq_of_cell b2 b' r (hcell r (List.mem_append_right _ hr))])
  have hsumb := sum_map_congr rb _ _ hrb
  have hsums := sum_map_congr rs _ _ hrs
  constructor
  · rw [hbuy', hbl]
    unfold bidTotal
    rw [hb]
    by_cases h0 : (b2.deref p).quantity = 0
    · rw [if_pos h0]
      simp only [List.tail_cons, List.map_cons, List.sum_cons]
      rw [hsumb]
      rw [hqb] at h0
      omega
    · rw [if_neg h0]
      simp only [List.map_cons, List.sum_cons]
      rw [hsumb, hqb]
      omega
  · rw [hsell', hsl]
    unfold askTotal
    rw [hs]
    by_cases h0 : (b2.deref q).quantity = 0
    · rw [if_pos h0]
      simp only [List.tail_cons, List.map_cons, List.sum_cons]
      rw [hsums]
      rw [hqs] at h0
      omega
    · rw [if_neg h0]
      simp only [List.map_cons, List.sum_cons]
      rw [hsums, hqs]
      omega

theorem matchLoop_totals (fuel : Nat) (b : OrderBook) (hwf : b.WF) :
    tradedTotal (matchLoop fuel b).2 + (matchLoop fuel b).1.bidTotal = b.bidTotal ∧
      tradedTotal (matchLoop fuel b).2 + (matchLoop fuel b).1.askTotal = b.askTotal := by
  induction fuel generalizing b with
  | zero => simp [matchLoop, tradedTotal]
  | succ n ih =>
    unfold matchLoop
    cases hstep : b.matchStep with
    | none => simp [tradedTotal]
    | some r =>
      obtain ⟨t, b'⟩ := r
      have h1 := matchStep_totals b b' t hwf hstep
      have h2 := ih b' (WF_matchStep b b' t hwf hstep)
      dsimp only
      unfold tradedTotal at h2 ⊢
      simp only [List.map_cons, List.sum_cons]
      omega

/-- C20 (quantity conservation in matching): for a well-formed book, the total
quantity of the trades printed by `match()` plus the total resting in the bid
index afterwards is the total resting there before, and likewise for the ask
index (filled orders, being removed, count for nothing afterwards); and every
trade of the run is made between the two front orders of the state reached
before it, for a quantity that is at most the remaining quantity of either
(also as the second subtraction reads it, after the first has been written), so
neither subtraction wraps. -/
theorem C20_quantity_conservation (b : OrderBook) (hwf : b.WF) :
    tradedTotal (b.match_).2 + (b.match_).1.bidTotal = b.bidTotal ∧
      tradedTotal (b.match_).2 + (b.match_).1.askTotal = b.askTotal ∧
      (∀ k t, (b.match_).2[k]? = some t →
        ∃ bid ask, (matchLoop k b).1.buyOrders.head? = some bid ∧
          (matchLoop k b).1.sellOrders.head? = some ask ∧
          t = ((matchLoop k b).1.matchFill bid ask).1 ∧
          t.qty ≤ ((matchLoop k b).1.deref bid).quantity ∧
          t.qty ≤ ((matchLoop k b).1.deref ask).quantity ∧
          t.qty ≤ (((matchLoop k b).1.heap.setQuantity bid
            (((matchLoop k b).1.deref bid).quantity - t.qty)).deref ask).quantity) := by
  refine ⟨(matchLoop_totals _ b hwf).1, (matchLoop_totals _ b hwf).2, ?_⟩
  intro k t ht
  obtain ⟨s', hstep⟩ := matchLoop_trade _ b k t ht
  obtain ⟨p, rb, q, rs, hb, hs, _, htr, _⟩ := matchStep_inv _ s' t hstep
  have hwfk := WF_matchLoop k b hwf
  have hne : p ≠ q := fun e =>
    WF.buy_sell_disjoint _ hwfk p (hb ▸ List.mem_cons_self _ _)
      (e ▸ (hs ▸ List.mem_cons_self _ _))
  have h2 : t.qty ≤ ((matchLoop k b).1.deref q).quantity := by
    rw [htr]
    exact Nat.min_le_right _ _
  refine ⟨p, q, by rw [hb]; rfl, by rw [hs]; rfl, htr, ?_, h2, ?_⟩
  · rw [htr]
    exact Nat.min_le_left _ _
  · rw [deref_setQuantity, if_neg (fun h => hne h.1.symm)]
    exact h2

/-- C20 on a book with two bids of 5 and one ask of 7 at the same price: 7 is
traded, 3 is left on the bid side and nothing on the ask side. -/
theorem C20_quantity_conservation_witness :
    priorityBook.WF ∧ priorityBook.bidTotal = 10 ∧ priorityBook.askTotal = 7 ∧
      tradedTotal (priorityBook.match_).2 = 7 ∧ (priorityBook.match_).1.bidTotal = 3 ∧
      (priorityBook.match_).1.askTotal = 0 ∧
      tradedTotal (priorityBook.match_).2 + (priorityBook.match_).1.bidTotal =
        priorityBook.bidTotal :=
  ⟨by decide, by decide, by decide, by decide, by decide, by decide,
    (C20_quantity_conservation priorityBook (by decide)).1⟩

/-! ## A single partial fill -/

theorem match_single (b b' : OrderBook) (t : Trade) (hstep : b.matchStep = some (t, b'))
    (hnone : b'.matchStep = none) : b.match_ = (b', [t]) := by
  obtain ⟨p, rb, q, rs, hb, hs, _, _, _⟩ := matchStep_inv b b' t hstep
  unfold match_
  rw [hb, hs]
  show matchLoop ((rb.length + 1 + rs.length) + 1) b = _
  unfold matchLoop
  rw [hstep]
  dsimp only
  rw [matchLoop_of_none _ b' hnone]

theorem matchStep_of_cross (b : OrderBook) (bid ask : Ptr) (rb rs : List Ptr)
    (hb : b.buyOrders = bid :: rb) (hs : b.sellOrders = ask :: rs)
    (hcross : (b.deref ask).price ≤ (b.deref bid).price) :
    b.matchStep =
      some ((b.matchFill bid ask).1, (b.matchFill bid ask).2.removeFilled bid ask) := by
  unfold matchStep
  rw [hb, hs]
  dsimp only
  rw [if_neg (not_lt.mpr hcross)]

theorem matchFill_cell_buy (b : OrderBook) (p q : Ptr) (hne : p ≠ q)
    (hp : b.heap.live p = true) :
    (b.matchFill p q).2.heap.cell p =
      some { b.deref p with
        quantity := (b.deref p).quantity - min (b.deref p).quantity (b.deref q).quantity } := by
  unfold Heap.live at hp
  obtain ⟨o, ho⟩ := Option.isSome_iff_exists.mp hp
  unfold matchFill
  dsimp only
  rw [Heap.cell_setQuantity, if_neg hne, Heap.cell_setQuantity, if_pos rfl, ho]
  unfold deref Heap.deref
  rw [ho]
  rfl

/-- C15 (single partial fill): in a well-formed book whose first bid (price
`pb`, quantity `qb`) and first ask (price `pa`, quantity `qa`) satisfy
`pb >= pa` and `qb > qa` (`qa > 0` is not needed), and whose next ask, if there
is one, is priced strictly above `pb`, `match()` prints exactly one trade,
between these two orders, at price `pa` for quantity `qa`, and stops; afterwards
the ask is gone
from the ask index, its id is no key of the table and the object is deleted,
the bid index is the same list with the bid in front holding `qb - qa`, and
every other object is untouched. -/
theorem C15_single_partial_fill (b : OrderBook) (hwf : b.WF) (bid ask : Ptr)
    (rb rs : List Ptr) (hb : b.buyOrders = bid :: rb) (hs : b.sellOrders = ask :: rs)
    (hcross : (b.deref ask).price ≤ (b.deref bid).price)
    (hqb : (b.deref ask).quantity < (b.deref bid).quantity)
    (hnext : ∀ n, rs.head? = some n → (b.deref bid).price < (b.deref n).price) :
    (b.match_).2 =
        [⟨(b.deref bid).id, (b.deref ask).id, (b.deref ask).price, (b.deref ask).quantity⟩] ∧
      (b.match_).1.buyOrders = bid :: rb ∧
      (b.match_).1.sellOrders = rs ∧
      (b.match_).1.orders = mapErase b.orders (b.deref ask).id ∧
      (b.match_).1.heap.cell bid =
        some { b.deref bid with
          quantity := (b.deref bid).quantity - (b.deref ask).quantity } ∧
      (b.match_).1.heap.cell ask = none ∧
      (∀ r, r ≠ bid → r ≠ ask → (b.match_).1.heap.cell r = b.heap.cell r) := by
  have hpm : bid ∈ b.buyOrders := hb ▸ List.mem_cons_self _ _
  have hqm : ask ∈ b.sellOrders := hs ▸ List.mem_cons_self _ _
  have hne : bid ≠ ask := fun e => WF.buy_sell_disjoint b hwf bid hpm (e ▸ hqm)
  have hmin : min (b.deref bid).quantity (b.deref ask).quantity = (b.deref ask).quantity :=
    Nat.min_eq_right (Nat.le_of_lt hqb)
  have hqb2 := matchFill_quantity_buy b bid ask hne (hwf.1 bid hpm).1
  have hqs2 := matchFill_quantity_sell b bid ask hne (hwf.2.1 ask hqm).1
  have hcb := matchFill_cell_buy b bid ask hne (hwf.1 bid hpm).1
  have hco := fun r h1 h2 => matchFill_cell_other b bid ask r h1 h2
  have hst := matchFill_static b bid ask
  rw [hmin] at hqb2 hqs2 hcb
  have ht : (b.matchFill bid ask).1 =
      ⟨(b.deref bid).id, (b.deref ask).id, (b.deref ask).price, (b.deref ask).quantity⟩ := by
    show Trade.mk _ _ _ (min _ _) = _
    rw [hmin]
  have hid : ((b.matchFill bid ask).2.deref ask).id = (b.deref ask).id :=
    (deref_congr b _ ask (hst ask)).1
  have hstep0 := matchStep_of_cross b bid ask rb rs hb hs hcross
  have hb2 : (b.matchFill bid ask).2.buyOrders = bid :: rb := hb
  have hs2 : (b.matchFill bid ask).2.sellOrders = ask :: rs := hs
  have ho2 : (b.matchFill bid ask).2.orders = b.orders := rfl
  rw [ht] at hstep0
  generalize (b.matchFill bid ask).2 = b2 at hqb2 hqs2 hcb hco hst hid hstep0 hb2 hs2 ho2
  have hrem : b2.removeFilled bid ask =
      ⟨b2.heap.free ask, mapErase b.orders (b.deref ask).id, bid :: rb, rs⟩ := by
    unfold removeFilled
    dsimp only
    have h1 : ¬ (b2.deref bid).quantity = 0 := by
      rw [hqb2]
      omega
    have h2 : (b2.deref ask).quantity = 0 := by
      rw [hqs2]
      omega
    rw [if_neg h1, if_pos h2, hid, ho2, hb2, hs2]
    rfl
  rw [hrem] at hstep0
  have hcellr : ∀ r, r ≠ ask → (b2.heap.free ask).cell r = b2.heap.cell r := by
    intro r hr
    rw [Heap.cell_free, if_neg hr]
  have hnone : matchStep ⟨b2.heap.free ask, mapErase b.orders (b.deref ask).id, bid :: rb, rs⟩
      = none := by
    apply matchStep_none_of_quiescent
    cases hrs : rs with
    | nil => exact Or.inr (Or.inl rfl)
    | cons n rs' =>
      refine Or.inr (Or.inr ⟨bid, n, rfl, rfl, ?_⟩)
      have hn := hnext n (by rw [hrs]; rfl)
      have hnm : n ∈ b.sellOrders := by
        rw [hs, hrs]
        exact List.mem_cons_of_mem _ (List.mem_cons_self _ _)
      have hnask : n ≠ ask := by
        intro e
        have hnd := WF.sell_nodup b hwf
        rw [hs, hrs] at hnd
        exact (List.nodup_cons.mp hnd).1 (e ▸ List.mem_cons_self _ _)
      have hc1 : (Heap.cell (b2.heap.free ask) bid).map Order.static
          = (b.heap.cell bid).map Order.static := by
        rw [hcellr bid hne, hst bid]
      have hc2 : (Heap.cell (b2.heap.free ask) n).map Order.static
          = (b.heap.cell n).map Order.static := by
        rw [hcellr n hnask, hst n]
      rw [(deref_congr b ⟨b2.heap.free ask, _, _, _⟩ bid hc1).2.2.1,
        (deref_congr b ⟨b2.heap.free ask, _, _, _⟩ n hc2).2.2.1]
      exact hn
  rw [match_single b _ _ hstep0 hnone]
  refine ⟨rfl, rfl, rfl, rfl, ?_, ?_, ?_⟩
  · show (b2.heap.free ask).cell bid = _
    rw [hcellr bid hne, hcb]
  · show (b2.heap.free ask).cell ask = _
    rw [Heap.cell_free, if_pos rfl]
  · intro r h1 h2
    show (b2.heap.free ask).cell r = _
    rw [hcellr r h2, hco r h1 h2]

/-- C15 on Scenario C: a bid of 100 at 105.0 against an ask of 60 at 103.0 gives
the single trade at 103.0 for 60, removes the ask and leaves the bid in front
with 40. -/
theorem C15_single_partial_fill_witness :
    scenarioC.WF ∧ scenarioC.buyOrders = [0] ∧ scenarioC.sellOrders = [1] ∧
      (scenarioC.deref 0).price = 105 ∧ (scenarioC.deref 0).quantity = 100 ∧
      (scenarioC.deref 1).price = 103 ∧ (scenarioC.deref 1).quantity = 60 ∧
      (scenarioC.match_).2 = [⟨1, 2, 103, 60⟩] ∧
      (scenarioC.match_).1.buyOrders = [0] ∧ (scenarioC.match_).1.sellOrders = [] ∧
      ((scenarioC.match_).1.deref 0).quantity = 40 :=
  ⟨by decide, by decide, by decide, by decide, by decide, by decide, by decide,
    (C15_single_partial_fill scenarioC (by decide) 0 1 [] [] (by decide) (by decide)
      (by decide) (by decide) (fun _ h => by cases h)).1,
    by decide, by decide, by decide⟩

/-! ## An add that does not cross -/

theorem setInsert_erase (lt : Ptr → Ptr → Bool) (o : Ptr) (xs : List Ptr)
    (htot : ∀ x ∈ xs, lt o x = true ∨ lt x o = true) (ho : o ∉ xs) :
    (setInsert lt o xs).erase o = xs := by
  induction xs with
  | nil => simp [setInsert]
  | cons y ys ih =>
    have hyo : y ≠ o := fun e => ho (e ▸ List.mem_cons_self _ _)
    have ho' : o ∉ ys := fun h => ho (List.mem_cons_of_mem _ h)
    unfold setInsert
    by_cases h1 : lt o y = true
    · rw [if_pos h1, List.erase_cons_head]
    · rw [if_neg h1]
      have h2 : lt y o = true := by
        rcases htot y (List.mem_cons_self _ _) with h | h
        · exact absurd h h1
        · exact h
      rw [if_pos h2, List.erase_cons_tail (by simpa using hyo),
        ih (fun x hx => htot x (List.mem_cons_of_mem _ hx)) ho']

theorem setInsert_head (lt : Ptr → Ptr → Bool) (o : Ptr) (xs : List Ptr) :
    (setInsert lt o xs).head? = some o ∨ (setInsert lt o xs).head? = xs.head? := by
  cases xs with
  | nil => exact Or.inl rfl
  | cons y ys =>
    unfold setInsert
    split
    · exact Or.inl rfl
    · split
      · exact Or.inr rfl
      · exact Or.inr rfl

theorem not_mem_of_live (b : OrderBook) (l : List Ptr)
    (hl : ∀ p ∈ l, b.heap.live p = true) : b.heap.length ∉ l := by
  intro h
  have := hl _ h
  rw [Heap.not_live_length] at this
  cases this

theorem fresh_key_of_admissible (b : OrderBook) (hwf : b.WF) (order : Order)
    (hadm : b.Admissible (.add order)) : order.id ∉ b.orders.map Prod.fst := by
  intro hk
  obtain ⟨e, he, hek⟩ := List.mem_map.mp hk
  have h1 := (hwf.2.2.2.2.1 e he).2
  have h2 := (hadm e.2 (mem_livePtrs_of_table b e.2 (List.mem_map_of_mem Prod.snd he))).1
  rw [h1, hek] at h2
  exact h2 rfl

/-- The state that `addOrder` hands to `match()` when the order is a buy with a
fresh id and a fresh timestamp. -/
theorem place_buy (b : OrderBook) (hwf : b.WF) (order : Order)
    (hadm : b.Admissible (.add order)) (hside : order.isBuy = true) :
    (b.place order).heap = b.heap ++ [some order] ∧
      (b.place order).orders = b.orders ++ [(order.id, b.heap.length)] ∧
      (b.place order).sellOrders = b.sellOrders ∧
      b.heap.length ∈ (b.place order).buyOrders ∧
      (b.place order).buyOrders.erase b.heap.length = b.buyOrders ∧
      ((b.place order).buyOrders.head? = some b.heap.length ∨
        (b.place order).buyOrders.head? = b.buyOrders.head?) := by
  have hkey := fresh_key_of_admissible b hwf order hadm
  have htot : ∀ x ∈ b.buyOrders,
      buyLt ⟨b.heap ++ [some order], mapAssign b.orders order.id b.heap.length,
        b.buyOrders, b.sellOrders⟩ b.heap.length x = true ∨
      buyLt ⟨b.heap ++ [some order], mapAssign b.orders order.id b.heap.length,
        b.buyOrders, b.sellOrders⟩ x b.heap.length = true := by
    intro x hx
    show BuyComparator ((b.heap.alloc order).1.deref b.heap.length)
        ((b.heap.alloc order).1.deref x) = true ∨
      BuyComparator ((b.heap.alloc order).1.deref x)
        ((b.heap.alloc order).1.deref b.heap.length) = true
    rw [Heap.deref_alloc_new, Heap.deref_alloc_old _ _ _ (hwf.1 x hx).1]
    exact BuyComparator_total _ _ (fun e =>
      (hadm x (mem_livePtrs_of_index b x (List.mem_append_left _ hx))).2 e.symm)
  have hfresh := not_mem_of_live b b.buyOrders (fun p hp => (hwf.1 p hp).1)
  have hpl : b.place order = ⟨b.heap ++ [some order],
      mapAssign b.orders order.id b.heap.length,
      setInsert (buyLt ⟨b.heap ++ [some order], mapAssign b.orders order.id b.heap.length,
        b.buyOrders, b.sellOrders⟩) b.heap.length b.buyOrders, b.sellOrders⟩ := by
    unfold place
    dsimp only
    rw [if_pos hside]
    rfl
  rw [hpl]
  exact ⟨rfl, mapAssign_of_not_mem _ _ _ hkey, rfl, mem_setInsert_self _ _ _ htot,
    setInsert_erase _ _ _ htot hfresh, setInsert_head _ _ _⟩

/-- The state that `addOrder` hands to `match()` when the order is a sell with a
fresh id and a fresh timestamp. -/
theorem place_sell (b : OrderBook) (hwf : b.WF) (order : Order)
    (hadm : b.Admissible (.add order)) (hside : order.isBuy = false) :
    (b.place order).heap = b.heap ++ [some order] ∧
      (b.place order).orders = b.orders ++ [(order.id, b.heap.length)] ∧
      (b.place order).buyOrders = b.buyOrders ∧
      b.heap.length ∈ (b.place order).sellOrders ∧
      (b.place order).sellOrders.erase b.heap.length = b.sellOrders ∧
      ((b.place order).sellOrders.head? = some b.heap.length ∨
        (b.place order).sellOrders.head? = b.sellOrders.head?) := by
  have hkey := fresh_key_of_admissible b hwf order hadm
  have htot : ∀ x ∈ b.sellOrders,
      sellLt ⟨b.heap ++ [some order], mapAssign b.orders order.id b.heap.length,
        b.buyOrders, b.sellOrders⟩ b.heap.length x = true ∨
      sellLt ⟨b.heap ++ [some order], mapAssign b.orders order.id b.heap.length,
        b.buyOrders, b.sellOrders⟩ x b.heap.length = true := by
    intro x hx
    show SellComparator ((b.heap.alloc order).1.deref b.heap.length)
        ((b.heap.alloc order).1.deref x) = true ∨
      SellComparator ((b.heap.alloc order).1.deref x)
        ((b.heap.alloc order).1.deref b.heap.length) = true
    rw [Heap.deref_alloc_new, Heap.deref_alloc_old _ _ _ (hwf.2.1 x hx).1]
    exact SellComparator_total _ _ (fun e =>
      (hadm x (mem_livePtrs_of_index b x (List.mem_append_right _ hx))).2 e.symm)
  have hfresh := not_mem_of_live b b.sellOrders (fun p hp => (hwf.2.1 p hp).1)
  have hpl : b.place order = ⟨b.heap ++ [some order],
      mapAssign b.orders order.id b.heap.length, b.buyOrders,
      setInsert (sellLt ⟨b.heap ++ [some order], mapAssign b.orders order.id b.heap.length,
        b.buyOrders, b.sellOrders⟩) b.heap.length b.sellOrders⟩ := by
    unfold place
    dsimp only
    rw [if_neg (by simp [hside])]
    rfl
  rw [hpl]
  exact ⟨rfl, mapAssign_of_not_mem _ _ _ hkey, rfl, mem_setInsert_self _ _ _ htot,
    setInsert_erase _ _ _ htot hfresh, setInsert_head _ _ _⟩

theorem place_heap (b : OrderBook) (order : Order) :
    (b.place order).heap = b.heap ++ [some order] := by
  unfold place
  dsimp only
  split <;> rfl

theorem place_deref_old (b : OrderBook) (order : Order) (x : Ptr)
    (hx : b.heap.live x = true) : (b.place order).deref x = b.deref x := by
  unfold deref
  rw [place_heap]
  exact Heap.deref_alloc_old b.heap order x hx

theorem place_deref_new (b : OrderBook) (order : Order) :
    (b.place order).deref b.heap.length = order := by
  unfold deref
  rw [place_heap]
  exact Heap.deref_alloc_new b.heap order

theorem head?_mem (l : List Ptr) (x : Ptr) (h : l.head? = some x) : x ∈ l := by
  cases l with
  | nil => cases h
  | cons y ys =>
    simp only [List.head?_cons, Option.some.injEq] at h
    rw [h]
    exact List.mem_cons_self _ _

/-- Placing an order that does not cross in a quiescent book leaves the book
quiescent. -/
theorem quiescent_place (b : OrderBook) (hwf : b.WF) (hq : b.Quiescent) (order : Order)
    (hadm : b.Admissible (.add order))
    (hbuy : order.isBuy = true →
      ∀ ask, b.sellOrders.head? = some ask → order.price < (b.deref ask).price)
    (hsell : order.isBuy = false →
      ∀ bid, b.buyOrders.head? = some bid → (b.deref bid).price < order.price) :
    (b.place order).Quiescent := by
  cases hside : order.isBuy with
  | true =>
    obtain ⟨_, _, hs, _, _, hhead⟩ := place_buy b hwf order hadm hside
    cases hsl : b.sellOrders with
    | nil => exact Or.inr (Or.inl (hs.trans hsl))
    | cons ask rs =>
      have hask : b.sellOrders.head? = some ask := by rw [hsl]; rfl
      have haskl := (hwf.2.1 ask (head?_mem _ _ hask)).1
      rcases hhead with h | h
      · refine Or.inr (Or.inr ⟨b.heap.length, ask, h, by rw [hs]; exact hask, ?_⟩)
        rw [place_deref_new, place_deref_old b order ask haskl]
        exact hbuy hside ask hask
      · rcases hq with h0 | h0 | ⟨bid, ask', hb0, hs0, hlt⟩
        · exfalso
          rw [h0] at h
          obtain ⟨_, _, _, hmem, _, _⟩ := place_buy b hwf order hadm hside
          cases hl : (b.place order).buyOrders with
          | nil => rw [hl] at hmem; cases hmem
          | cons y ys => rw [hl] at h; cases h
        · rw [hsl] at h0
          cases h0
        · refine Or.inr (Or.inr ⟨bid, ask', h.trans hb0, by rw [hs]; exact hs0, ?_⟩)
          rw [place_deref_old b order bid (hwf.1 bid (head?_mem _ _ hb0)).1,
            place_deref_old b order ask' (hwf.2.1 ask' (head?_mem _ _ hs0)).1]
          exact hlt
  | false =>
    obtain ⟨_, _, hs, _, _, hhead⟩ := place_sell b hwf order hadm hside
    cases hbl : b.buyOrders with
    | nil => exact Or.inl (hs.trans hbl)
    | cons bid rb =>
      have hbid : b.buyOrders.head? = some bid := by rw [hbl]; rfl
      have hbidl := (hwf.1 bid (head?_mem _ _ hbid)).1
      rcases hhead with h | h
      · refine Or.inr (Or.inr ⟨bid, b.heap.length, by rw [hs]; exact hbid, h, ?_⟩)
        rw [place_deref_new, place_deref_old b order bid hbidl]
        exact hsell hside bid hbid
      · rcases hq with h0 | h0 | ⟨bid', ask, hb0, hs0, hlt⟩
        · rw [hbl] at h0
          cases h0
        · exfalso
          rw [h0] at h
          obtain ⟨_, _, _, hmem, _, _⟩ := place_sell b hwf order hadm hside
          cases hl : (b.place order).sellOrders with
          | nil => rw [hl] at hmem; cases hmem
          | cons y ys => rw [hl] at h; cases h
        · refine Or.inr (Or.inr ⟨bid', ask, by rw [hs]; exact hb0, h.trans hs0, ?_⟩)
          rw [place_deref_old b order bid' (hwf.1 bid' (head?_mem _ _ hb0)).1,
            place_deref_old b order ask (hwf.2.1 ask (head?_mem _ _ hs0)).1]
          exact hlt

/-- C14 (non-crossing add only inserts): in a well-formed quiescent book, let an
order have an id and a timestamp that no live order has, and be a buy priced
strictly below the first ask (or there is no ask) or a sell priced strictly
above the first bid (or there is no bid).  Then `addOrder` prints no trade; in
the resulting state the free store is the old one followed by the new object
(so every previous order is unchanged), the table is the old one followed by
the entry of the new order, the index of its side holds the new order and, that
one taken out, is the old list, and the other index is the old list. -/
theorem C14_noncrossing_add (b : OrderBook) (hwf : b.WF) (hq : b.Quiescent) (order : Order)
    (hadm : b.Admissible (.add order))
    (hbuy : order.isBuy = true →
      ∀ ask, b.sellOrders.head? = some ask → order.price < (b.deref ask).price)
    (hsell : order.isBuy = false →
      ∀ bid, b.buyOrders.head? = some bid → (b.deref bid).price < order.price) :
    (b.addOrder order).2 = [] ∧
      (b.addOrder order).1.heap = b.heap ++ [some order] ∧
      (b.addOrder order).1.orders = b.orders ++ [(order.id, b.heap.length)] ∧
      (order.isBuy = true →
        b.heap.length ∈ (b.addOrder order).1.buyOrders ∧
        (b.addOrder order).1.buyOrders.erase b.heap.length = b.buyOrders ∧
        (b.addOrder order).1.sellOrders = b.sellOrders) ∧
      (order.isBuy = false →
        b.heap.length ∈ (b.addOrder order).1.sellOrders ∧
        (b.addOrder order).1.sellOrders.erase b.heap.length = b.sellOrders ∧
        (b.addOrder order).1.buyOrders = b.buyOrders) := by
  have hres : b.addOrder order = (b.place order, []) :=
    match_of_quiescent _ (quiescent_place b hwf hq order hadm hbuy hsell)
  rw [hres]
  refine ⟨rfl, place_heap b order, ?_, ?_, ?_⟩
  · cases hside : order.isBuy with
    | true => exact (place_buy b hwf order hadm hside).2.1
    | false => exact (place_sell b hwf order hadm hside).2.1
  · intro hside
    obtain ⟨_, _, h3, h4, h5, _⟩ := place_buy b hwf order hadm hside
    exact ⟨h4, h5, h3⟩
  · intro hside
    obtain ⟨_, _, h3, h4, h5, _⟩ := place_sell b hwf order hadm hside
    exact ⟨h4, h5, h3⟩

/-- C14 on Scenario A: the five adds print no trade, the fifth one (a buy of 150
at 101.0 on the book of the first four) only inserts, and the snapshot is bids
(101.0, 250), (100.0, 50) and asks (102.0, 70), (103.0, 30). -/
theorem C14_noncrossing_add_witness :
    (run (mainCalls.take 4)).WF ∧ (run (mainCalls.take 4)).Admissible (.add ⟨5, true, 101, 150, 5⟩) ∧
      ((run (mainCalls.take 4)).addOrder ⟨5, true, 101, 150, 5⟩).2 = [] ∧
      (outputs empty (mainCalls.take 5)).map Prod.fst = [[], [], [], [], []] ∧
      (run (mainCalls.take 5)).getSnapshot 5 =
        ([⟨101, 250⟩, ⟨100, 50⟩], [⟨102, 70⟩, ⟨103, 30⟩]) :=
  ⟨by decide, by decide,
    (C14_noncrossing_add (run (mainCalls.take 4)) (by decide)
      (Or.inr (Or.inr ⟨0, 2, by decide, by decide, by decide⟩)) ⟨5, true, 101, 150, 5⟩
      (by decide)
      (fun _ ask h => by
        have h2 : (run (mainCalls.take 4)).sellOrders.head? = some 2 := by decide
        rw [h2] at h
        cases h
        decide)
      (fun h => by cases h)).1,
    by decide, by decide⟩

/-! ## Positive quantities -/

theorem removeFilled_orders_sublist (b : OrderBook) (p q : Ptr) :
    (b.removeFilled p q).orders.Sublist b.orders := by
  unfold removeFilled
  dsimp only
  split <;> split
  · exact (mapErase_sublist _ _).trans (mapErase_sublist _ _)
  · exact mapErase_sublist _ _
  · exact mapErase_sublist _ _
  · exact List.Sublist.refl _

/-- An object that is still allocated after the removal of the filled orders is
as it was before; if it is one of the two front orders, it was not filled. -/
theorem removeFilled_live (b : OrderBook) (p q r : Ptr) (hne : p ≠ q)
    (hr : (b.removeFilled p q).heap.live r = true) :
    (b.removeFilled p q).heap.cell r = b.heap.cell r ∧
      (r = p → (b.deref p).quantity ≠ 0) ∧ (r = q → (b.deref q).quantity ≠ 0) := by
  have hq : ∀ (o : List (Nat × Ptr)) (l1 l2 : List Ptr),
      deref ⟨b.heap.free p, o, l1, l2⟩ q = b.deref q := by
    intro o l1 l2
    apply deref_eq_of_cell
    show (b.heap.free p).cell q = b.heap.cell q
    rw [Heap.cell_free, if_neg (fun e => hne e.symm)]
  unfold Heap.live at hr
  unfold removeFilled at hr ⊢
  dsimp only at hr ⊢
  by_cases h1 : (b.deref p).quantity = 0
  · rw [if_pos h1] at hr ⊢
    rw [hq] at hr ⊢
    by_cases h2 : (b.deref q).quantity = 0
    · rw [if_pos h2] at hr ⊢
      dsimp only at hr ⊢
      rw [Heap.cell_free, Heap.cell_free] at hr ⊢
      by_cases hrq : r = q
      · rw [if_pos hrq] at hr
        cases hr
      · rw [if_neg hrq] at hr ⊢
        by_cases hrp : r = p
        · rw [if_pos hrp] at hr
          cases hr
        · rw [if_neg hrp]
          exact ⟨rfl, fun e => absurd e hrp, fun e => absurd e hrq⟩
    · rw [if_neg h2] at hr ⊢
      dsimp only at hr ⊢
      rw [Heap.cell_free] at hr ⊢
      by_cases hrp : r = p
      · rw [if_pos hrp] at hr
        cases hr
      · rw [if_neg hrp]
        exact ⟨rfl, fun e => absurd e hrp, fun _ => h2⟩
  · rw [if_neg h1] at hr ⊢
    by_cases h2 : (b.deref q).quantity = 0
    · rw [if_pos h2] at hr ⊢
      dsimp only at hr ⊢
      rw [Heap.cell_free] at hr ⊢
      by_cases hrq : r = q
      · rw [if_pos hrq] at hr
        cases hr
      · rw [if_neg hrq]
        exact ⟨rfl, fun _ => h1, fun e => absurd e hrq⟩
    · rw [if_neg h2] at hr ⊢
      exact ⟨rfl, fun _ => h1, fun _ => h2⟩

theorem WF.live_of_mem (b : OrderBook) (hwf : b.WF) (r : Ptr) (hr : r ∈ b.livePtrs) :
    b.heap.live r = true := by
  unfold livePtrs at hr
  rcases List.mem_append.mp hr with h | h
  · rcases List.mem_append.mp h with h' | h'
    · obtain ⟨e, he, her⟩ := List.mem_map.mp h'
      rw [← her]
      exact (hwf.2.2.2.2.1 e he).1
    · exact (hwf.1 r h').1
  · exact (hwf.2.1 r h).1

theorem livePtrs_subset (b b' : OrderBook) (ho : b'.orders.Sublist b.orders)
    (hb : b'.buyOrders.Sublist b.buyOrders) (hs : b'.sellOrders.Sublist b.sellOrders)
    (r : Ptr) (hr : r ∈ b'.livePtrs) : r ∈ b.livePtrs := by
  unfold livePtrs at hr ⊢
  rcases List.mem_append.mp hr with h | h
  · rcases List.mem_append.mp h with h' | h'
    · exact List.mem_append_left _ (List.mem_append_left _ ((ho.map Prod.snd).subset h'))
    · exact List.mem_append_left _ (List.mem_append_right _ (hb.subset h'))
  · exact List.mem_append_right _ (hs.subset h)

theorem allPositive_matchStep (b b' : OrderBook) (t : Trade) (hwf : b.WF)
    (hpos : b.AllPositive) (hstep : b.matchStep = some (t, b')) : b'.AllPositive := by
  have hwf' := WF_matchStep b b' t hwf hstep
  obtain ⟨p, rb, q, rs, hb, hs, _, _, hb'⟩ := matchStep_inv b b' t hstep
  have hpm : p ∈ b.buyOrders := hb ▸ List.mem_cons_self _ _
  have hqm : q ∈ b.sellOrders := hs ▸ List.mem_cons_self _ _
  have hne : p ≠ q := fun e => WF.buy_sell_disjoint b hwf p hpm (e ▸ hqm)
  intro r hr
  have hlive := WF.live_of_mem b' hwf' r hr
  rw [hb'] at hlive hr ⊢
  obtain ⟨hcell, hp0, hq0⟩ := removeFilled_live _ p q r hne hlive
  rw [deref_eq_of_cell _ _ r hcell]
  by_cases hrp : r = p
  · have := hp0 hrp
    rw [hrp]
    omega
  · by_cases hrq : r = q
    · have := hq0 hrq
      rw [hrq]
      omega
    · rw [deref_eq_of_cell b _ r (matchFill_cell_other b p q r hrp hrq)]
      refine hpos r (livePtrs_subset b _ ?_ ?_ ?_ r hr)
      · exact removeFilled_orders_sublist _ p q
      · exact sublist_of_eq_or_tail _ _ (removeFilled_buyOrders_sub _ p q)
      · exact sublist_of_eq_or_tail _ _ (removeFilled_sellOrders_sub _ p q)

theorem allPositive_matchLoop (fuel : Nat) (b : OrderBook) (hwf : b.WF)
    (hpos : b.AllPositive) : (matchLoop fuel b).1.AllPositive := by
  induction fuel generalizing b with
  | zero => exact hpos
  | succ n ih =>
    unfold matchLoop
    cases hstep : b.matchStep with
    | none => exact hpos
    | some r =>
      obtain ⟨t, b'⟩ := r
      exact ih b' (WF_matchStep b b' t hwf hstep) (allPositive_matchStep b b' t hwf hpos hstep)

theorem mem_livePtrs_place (b : OrderBook) (order : Order) (r : Ptr)
    (hr : r ∈ (b.place order).livePtrs) : r = b.heap.length ∨ r ∈ b.livePtrs := by
  unfold livePtrs place at hr
  unfold livePtrs
  dsimp only at hr
  have hord : r ∈ (mapAssign b.orders order.id (b.heap.alloc order).2).map Prod.snd →
      r = b.heap.length ∨ r ∈ b.orders.map Prod.snd := by
    intro h
    obtain ⟨e, he, her⟩ := List.mem_map.mp h
    rcases mem_mapAssign _ _ _ _ he with h1 | h1
    · rw [h1] at her
      exact Or.inl her.symm
    · exact Or.inr (List.mem_map.mpr ⟨e, h1, her⟩)
  split at hr
  · rcases List.mem_append.mp hr with h | h
    · rcases List.mem_append.mp h with h' | h'
      · rcases hord h' with h1 | h1
        · exact Or.inl h1
        · exact Or.inr (List.mem_append_left _ (List.mem_append_left _ h1))
      · rcases mem_setInsert _ _ _ _ h' with h1 | h1
        · exact Or.inl h1
        · exact Or.inr (List.mem_append_left _ (List.mem_append_right _ h1))
    · exact Or.inr (List.mem_append_right _ h)
  · rcases List.mem_append.mp hr with h | h
    · rcases List.mem_append.mp h with h' | h'
      · rcases hord h' with h1 | h1
        · exact Or.inl h1
        · exact Or.inr (List.mem_append_left _ (List.mem_append_left _ h1))
      · exact Or.inr (List.mem_append_left _ (List.mem_append_right _ h'))
    · rcases mem_setInsert _ _ _ _ h with h1 | h1
      · exact Or.inl h1
      · exact Or.inr (List.mem_append_right _ h1)

theorem allPositive_place (b : OrderBook) (order : Order) (hwf : b.WF) (hpos : b.AllPositive)
    (hq : 0 < order.quantity) : (b.place order).AllPositive := by
  intro r hr
  rcases mem_livePtrs_place b order r hr with h | h
  · rw [h, place_deref_new]
    exact hq
  · rw [place_deref_old b order r (WF.live_of_mem b hwf r h)]
    exact hpos r h

theorem cancelOrder_sublists (b : OrderBook) (orderId : Nat) :
    (b.cancelOrder orderId).1.orders.Sublist b.orders ∧
      (b.cancelOrder orderId).1.buyOrders.Sublist b.buyOrders ∧
      (b.cancelOrder orderId).1.sellOrders.Sublist b.sellOrders := by
  cases hfind : mapFind b.orders orderId with
  | none =>
    rw [cancelOrder_not_found b orderId hfind]
    exact ⟨List.Sublist.refl _, List.Sublist.refl _, List.Sublist.refl _⟩
  | some order =>
    rw [cancelOrder_found b orderId order hfind]
    dsimp only
    refine ⟨mapErase_sublist _ _, ?_, ?_⟩
    · split
      · exact setErase_sublist _ _ _
      · exact List.Sublist.refl _
    · split
      · exact List.Sublist.refl _
      · exact setErase_sublist _ _ _

theorem cancelOrder_cell_live (b : OrderBook) (orderId : Nat) (r : Ptr)
    (hr : (b.cancelOrder orderId).1.heap.live r = true) :
    (b.cancelOrder orderId).1.heap.cell r = b.heap.cell r := by
  cases hfind : mapFind b.orders orderId with
  | none => rw [cancelOrder_not_found b orderId hfind]
  | some order =>
    rw [cancelOrder_found b orderId order hfind] at hr ⊢
    dsimp only at hr ⊢
    unfold Heap.live at hr
    rw [Heap.cell_free] at hr ⊢
    by_cases hro : r = order
    · rw [if_pos hro] at hr
      cases hr
    · rw [if_neg hro]

theorem allPositive_cancelOrder (b : OrderBook) (orderId : Nat) (hwf : b.WF)
    (hpos : b.AllPositive) : (b.cancelOrder orderId).1.AllPositive := by
  intro r hr
  have hlive := WF.live_of_mem _ (WF_cancelOrder b orderId hwf) r hr
  rw [deref_eq_of_cell b _ r (cancelOrder_cell_live b orderId r hlive)]
  obtain ⟨h1, h2, h3⟩ := cancelOrder_sublists b orderId
  exact hpos r (livePtrs_subset b _ h1 h2 h3 r hr)

theorem allPositive_setQuantity (b : OrderBook) (p : Ptr) (q : Nat) (hpos : b.AllPositive)
    (hq : 0 < q) : AllPositive { b with heap := b.heap.setQuantity p q } := by
  intro r hr
  have hr' : r ∈ b.livePtrs := hr
  show 0 < ((b.heap.setQuantity p q).deref r).quantity
  rw [deref_setQuantity]
  split
  · exact hq
  · exact hpos r hr'

theorem allPositive_exec (b : OrderBook) (op : Op) (hwf : b.WF) (hpos : b.AllPositive)
    (hop : PassesPositive op) : (b.exec op).1.AllPositive := by
  cases op with
  | add order =>
    exact allPositive_matchLoop _ _ (WF_place b order hwf) (allPositive_place b order hwf hpos hop)
  | cancel orderId => exact allPositive_cancelOrder b orderId hwf hpos
  | amend orderId newPrice newQuantity now =>
    have hq : 0 < newQuantity := hop
    show (b.amendOrder orderId newPrice newQuantity now).1.AllPositive
    unfold amendOrder
    cases hfind : mapFind b.orders orderId with
    | none => exact hpos
    | some order =>
      dsimp only
      split
      · exact allPositive_matchLoop _ _ (WF_place _ _ (WF_cancelOrder b orderId hwf))
          (allPositive_place _ _ (WF_cancelOrder b orderId hwf)
            (allPositive_cancelOrder b orderId hwf hpos) hq)
      · exact allPositive_matchLoop _ _ (WF_setQuantity b order newQuantity hwf)
          (allPositive_setQuantity b order newQuantity hpos hq)

theorem allPositive_runFrom_take (ops : List Op) (b : OrderBook) (hwf : b.WF)
    (hpos : b.AllPositive) (hops : ∀ op ∈ ops, PassesPositive op) (n : Nat) :
    (b.runFrom (ops.take n)).AllPositive := by
  induction ops generalizing b n with
  | nil => simpa [runFrom] using hpos
  | cons op rest ih =>
    cases n with
    | zero => exact hpos
    | succ j =>
      exact ih (b.exec op).1 (WF_exec b op hwf)
        (allPositive_exec b op hwf hpos (hops op (List.mem_cons_self _ _)))
        (fun o ho => hops o (List.mem_cons_of_mem _ ho)) j

/-- C12 as stated fails: after `addOrder` of 10 at 100.0 and `amendOrder` of the
same order at the same price to quantity 0 (every add has a positive quantity),
the order rests in the bid index and in the table with quantity 0. -/
theorem C12_zero_amend_counterexample :
    (∀ op ∈ zeroAmendCalls, AddsPositive op) ∧
      (run zeroAmendCalls).buyOrders = [0] ∧ (run zeroAmendCalls).orders = [(1, 0)] ∧
      ((run zeroAmendCalls).deref 0).quantity = 0 ∧ ¬ (run zeroAmendCalls).AllPositive := by
  decide

/-- C12 (positive-quantity invariant), amended: when every `addOrder` adds a
positive quantity and every `amendOrder` sets a positive quantity, then after
each call (after the first `n` calls, for every `n`) every live order, in the
table or in an index, has a positive remaining quantity; an order filled down to
0 by `match()` is therefore never retained. -/
theorem C12_positive_quantity (ops : List Op) (hops : ∀ op ∈ ops, PassesPositive op)
    (n : Nat) :
    ∀ p ∈ (run (ops.take n)).livePtrs, 0 < ((run (ops.take n)).deref p).quantity :=
  allPositive_runFrom_take ops empty WF_empty (fun _ hp => by simp [livePtrs, empty] at hp)
    hops n

/-- C12 on the calls of `main` followed by a crossing amend: all quantities
passed are positive and the live orders of the final book have positive
quantities. -/
theorem C12_positive_quantity_witness :
    (∀ op ∈ mainCalls, PassesPositive op) ∧ (run (mainCalls.take 11)).AllPositive :=
  ⟨by decide, C12_positive_quantity mainCalls (by decide) 11⟩

/-! ## Timestamp ties -/

/-- C13 (timestamp ties are admitted) fails on the code: after `addOrder` of
order 1 and of order 2, both buys at 100.0 with timestamp 5, the table holds
both but the bid index holds order 1 only, so the snapshot level at 100.0
totals 10 and not 30; cancelling order 2 then takes order 1 out of the index
while the table keeps it. -/
theorem C13_tie_not_admitted :
    (run tieCalls).orders = [(1, 0), (2, 1)] ∧ (run tieCalls).buyOrders = [0] ∧
      (run tieCalls).getSnapshot 5 = ([⟨100, 10⟩], []) ∧
      ((run tieCalls).cancelOrder 2).1.orders = [(1, 0)] ∧
      ((run tieCalls).cancelOrder 2).1.buyOrders = [] := by
  decide

/-! ## The timestamp of a re-added order -/

theorem place_orders (b : OrderBook) (order : Order) :
    (b.place order).orders = mapAssign b.orders order.id b.heap.length := by
  unfold place
  dsimp only
  split <;> rfl

theorem matchStep_orders_sublist (b b' : OrderBook) (t : Trade)
    (hstep : b.matchStep = some (t, b')) : b'.orders.Sublist b.orders := by
  obtain ⟨p, rb, q, rs, _, _, _, _, hb'⟩ := matchStep_inv b b' t hstep
  rw [hb']
  exact removeFilled_orders_sublist _ p q

theorem matchLoop_orders_sublist (fuel : Nat) (b : OrderBook) :
    (matchLoop fuel b).1.orders.Sublist b.orders := by
  induction fuel generalizing b with
  | zero => exact List.Sublist.refl _
  | succ n ih =>
    unfold matchLoop
    cases hstep : b.matchStep with
    | none => exact List.Sublist.refl _
    | some r =>
      obtain ⟨t, b'⟩ := r
      exact (ih b').trans (matchStep_orders_sublist b b' t hstep)

/-- An object still allocated after a pass of the loop was allocated before it
and has kept everything but its quantity. -/
theorem matchStep_static_live (b b' : OrderBook) (t : Trade) (hwf : b.WF)
    (hstep : b.matchStep = some (t, b')) (r : Ptr) (hr : b'.heap.live r = true) :
    (b'.heap.cell r).map Order.static = (b.heap.cell r).map Order.static := by
  obtain ⟨p, rb, q, rs, hb, hs, _, _, hb'⟩ := matchStep_inv b b' t hstep
  have hne : p ≠ q := fun e =>
    WF.buy_sell_disjoint b hwf p (hb ▸ List.mem_cons_self _ _)
      (e ▸ (hs ▸ List.mem_cons_self _ _))
  rw [hb'] at hr ⊢
  rw [(removeFilled_live _ p q r hne hr).1]
  exact matchFill_static b p q r

theorem matchLoop_static_live (fuel : Nat) (b : OrderBook) (hwf : b.WF) (r : Ptr)
    (hr : (matchLoop fuel b).1.heap.live r = true) :
    ((matchLoop fuel b).1.heap.cell r).map Order.static = (b.heap.cell r).map Order.static := by
  induction fuel generalizing b with
  | zero => rfl
  | succ n ih =>
    unfold matchLoop at hr ⊢
    cases hstep : b.matchStep with
    | none => rfl
    | some x =>
      obtain ⟨t, b'⟩ := x
      rw [hstep] at hr
      dsimp only at hr ⊢
      have h1 := ih b' (WF_matchStep b b' t hwf hstep) hr
      rw [h1]
      apply matchStep_static_live b b' t hwf hstep r
      exact (Heap.live_congr _ _ r h1).symm.trans hr

/-- C16 as stated fails: the order of `lateStampBook` carries the timestamp
`2 ^ 64 - 1`; a price-changing `amendOrder` that reads 7 from the clock re-adds
it with timestamp 7, which is not greater (no 64-bit reading would be). -/
theorem C16_stale_clock_counterexample :
    mapFind lateStampBook.orders 1 = some 0 ∧
      (lateStampBook.deref 0).timestampInNanoSeconds = 18446744073709551615 ∧
      (lateStampBook.deref 0).price ≠ 101 ∧
      mapFind (lateStampBook.amendOrder 1 101 10 7).1.orders 1 = some 1 ∧
      ((lateStampBook.amendOrder 1 101 10 7).1.deref 1).timestampInNanoSeconds = 7 ∧
      ¬ (lateStampBook.deref 0).timestampInNanoSeconds <
        ((lateStampBook.amendOrder 1 101 10 7).1.deref 1).timestampInNanoSeconds := by
  decide

theorem cancelOrder_heap_length (b : OrderBook) (orderId : Nat) :
    (b.cancelOrder orderId).1.heap.length = b.heap.length := by
  cases hfind : mapFind b.orders orderId with
  | none => rw [cancelOrder_not_found b orderId hfind]
  | some order =>
    rw [cancelOrder_found b orderId order hfind]
    exact List.length_set _ _ _

/-- C16 (fresh timestamp on price amend), amended: when the table holds the id
and the order's price differs from `newPrice`, the order that `amendOrder`
re-adds (a new object, entered in the table under the same id) carries as its
arrival timestamp the reading `now` of the clock, whatever that reading is; so
its timestamp is strictly greater than the one the order had before exactly
when the reading is.  As long as the table holds the id after the call, it is
that object, still carrying `now`. -/
theorem C16_fresh_timestamp (b : OrderBook) (hwf : b.WF) (orderId : Nat) (order : Ptr)
    (hfind : mapFind b.orders orderId = some order) (newPrice : Price)
    (hprice : (b.deref order).price ≠ newPrice) (newQuantity now : Nat) :
    ∀ s, s = (b.cancelOrder orderId).1.place
        ⟨orderId, (b.deref order).isBuy, newPrice, newQuantity, now⟩ →
      (b.amendOrder orderId newPrice newQuantity now).1 = (s.match_).1 ∧
      mapFind s.orders orderId = some b.heap.length ∧
      s.deref b.heap.length = ⟨orderId, (b.deref order).isBuy, newPrice, newQuantity, now⟩ ∧
      (s.deref b.heap.length).timestampInNanoSeconds = now ∧
      ((b.deref order).timestampInNanoSeconds <
          (s.deref b.heap.length).timestampInNanoSeconds ↔
        (b.deref order).timestampInNanoSeconds < now) ∧
      (∀ p, mapFind (b.amendOrder orderId newPrice newQuantity now).1.orders orderId = some p →
        p = b.heap.length ∧
        ((b.amendOrder orderId newPrice newQuantity now).1.deref p).timestampInNanoSeconds
          = now ∧
        ((b.deref order).timestampInNanoSeconds <
            ((b.amendOrder orderId newPrice newQuantity now).1.deref p).timestampInNanoSeconds ↔
          (b.deref order).timestampInNanoSeconds < now)) := by
  intro s hs
  have hwfc := WF_cancelOrder b orderId hwf
  have hwfs : s.WF := by
    rw [hs]
    exact WF_place _ _ hwfc
  have hres : (b.amendOrder orderId newPrice newQuantity now).1 = (s.match_).1 := by
    unfold amendOrder
    rw [hfind]
    dsimp only
    rw [if_pos hprice, hs]
    rfl
  have hlen := cancelOrder_heap_length b orderId
  have hfs : mapFind s.orders orderId = some b.heap.length := by
    rw [hs, place_orders, hlen]
    exact mapFind_mapAssign_self _ _ _
  have hds : s.deref b.heap.length =
      ⟨orderId, (b.deref order).isBuy, newPrice, newQuantity, now⟩ := by
    rw [hs, ← hlen]
    exact place_deref_new _ _
  have hnow : (s.deref b.heap.length).timestampInNanoSeconds = now := by rw [hds]
  refine ⟨hres, hfs, hds, hnow, by rw [hnow], ?_⟩
  intro p hp
  rw [hres] at hp ⊢
  have hwfr := WF_match s hwfs
  have hmem := mapFind_mem _ _ _ hp
  have hmem_s := (matchLoop_orders_sublist _ s).subset hmem
  have hpe : p = b.heap.length :=
    map_unique _ hwfs.2.2.2.2.2 orderId p b.heap.length hmem_s (mapFind_mem _ _ _ hfs)
  have hlive := (hwfr.2.2.2.2.1 _ hmem).1
  have hst := matchLoop_static_live _ s hwfs p hlive
  have hts : ((s.match_).1.deref p).timestampInNanoSeconds = now := by
    have h1 := (deref_congr s (s.match_).1 p hst).2.2.2
    rw [h1, hpe, hds]
  exact ⟨hpe, hts, by rw [hts]⟩

/-- C16 on the book of Scenario A: moving order 2 from 100.0 to 99.0 at clock
reading 9 re-adds it with timestamp 9, greater than its old timestamp 2; at
clock reading 1 it is re-added with timestamp 1, which is not greater. -/
theorem C16_fresh_timestamp_witness :
    scenarioA.WF ∧ mapFind scenarioA.orders 2 = some 1 ∧ (scenarioA.deref 1).price ≠ 99 ∧
      (scenarioA.deref 1).timestampInNanoSeconds = 2 ∧
      mapFind (scenarioA.amendOrder 2 99 50 9).1.orders 2 = some 5 ∧
      ((scenarioA.amendOrder 2 99 50 9).1.deref 5).timestampInNanoSeconds = 9 ∧
      (scenarioA.deref 1).timestampInNanoSeconds <
        ((scenarioA.amendOrder 2 99 50 9).1.deref 5).timestampInNanoSeconds ∧
      mapFind (scenarioA.amendOrder 2 99 50 1).1.orders 2 = some 5 ∧
      ¬ (scenarioA.deref 1).timestampInNanoSeconds <
        ((scenarioA.amendOrder 2 99 50 1).1.deref 5).timestampInNanoSeconds :=
  ⟨by decide, by decide, by decide, by decide, by decide,
    ((C16_fresh_timestamp scenarioA (by decide) 2 1 (by decide) 99 (by decide) 50 9
      _ rfl).2.2.2.2.2 5 (by decide)).2.1,
    ((C16_fresh_timestamp scenarioA (by decide) 2 1 (by decide) 99 (by decide) 50 9
      _ rfl).2.2.2.2.2 5 (by decide)).2.2.mpr (by decide),
    by decide,
    fun h => absurd (((C16_fresh_timestamp scenarioA (by decide) 2 1 (by decide) 99 (by decide)
      50 1 _ rfl).2.2.2.2.2 5 (by decide)).2.2.mp h) (by decide)⟩

/-! ## Determinism -/

theorem amendOrder_clock_unread (b : OrderBook) (orderId : Nat) (newPrice : Price)
    (newQuantity now1 now2 : Nat) (hread : ¬ b.readsClock orderId newPrice = true) :
    b.amendOrder orderId newPrice newQuantity now1 =
      b.amendOrder orderId newPrice newQuantity now2 := by
  unfold readsClock at hread
  unfold amendOrder
  cases hfind : mapFind b.orders orderId with
  | none => rfl
  | some order =>
    rw [hfind] at hread
    dsimp only at hread ⊢
    have hp : ¬ (b.deref order).price ≠ newPrice := by simpa using hread
    rw [if_neg hp, if_neg hp]

theorem exec_of_sameCall (b : OrderBook) (op1 op2 : Op) (h : b.SameCall op1 op2) :
    b.exec op1 = b.exec op2 := by
  cases op1 with
  | add order1 =>
    cases op2 with
    | add order2 =>
      have h' : order1 = order2 := h
      rw [h']
    | cancel _ => exact absurd h (fun h => h)
    | amend _ _ _ _ => exact absurd h (fun h => h)
  | cancel orderId1 =>
    cases op2 with
    | add _ => exact absurd h (fun h => h)
    | cancel orderId2 =>
      have h' : orderId1 = orderId2 := h
      rw [h']
    | amend _ _ _ _ => exact absurd h (fun h => h)
  | amend orderId1 newPrice1 newQuantity1 now1 =>
    cases op2 with
    | add _ => exact absurd h (fun h => h)
    | cancel _ => exact absurd h (fun h => h)
    | amend orderId2 newPrice2 newQuantity2 now2 =>
      obtain ⟨h1, h2, h3, h4⟩ : orderId1 = orderId2 ∧ newPrice1 = newPrice2 ∧
        newQuantity1 = newQuantity2 ∧ (b.readsClock orderId1 newPrice1 = true → now1 = now2) := h
      subst h1 h2 h3
      by_cases hread : b.readsClock orderId1 newPrice1 = true
      · rw [h4 hread]
      · simp only [exec]
        rw [amendOrder_clock_unread b orderId1 newPrice1 newQuantity1 now1 now2 hread]

theorem sameCall_refl (b : OrderBook) (op : Op) : b.SameCall op op := by
  cases op with
  | add order => exact rfl
  | cancel orderId => exact rfl
  | amend orderId newPrice newQuantity now => exact ⟨rfl, rfl, rfl, fun _ => rfl⟩

/-- A sequence of calls is a replay of itself. -/
theorem sameCalls_refl (b : OrderBook) (ops : List Op) : SameCalls b ops ops := by
  induction ops generalizing b with
  | nil => exact trivial
  | cons op rest ih => exact ⟨sameCall_refl b op, ih _⟩

theorem replay_runFrom (b : OrderBook) (ops1 ops2 : List Op) (h : SameCalls b ops1 ops2) :
    outputs b ops1 = outputs b ops2 ∧ b.runFrom ops1 = b.runFrom ops2 := by
  induction ops1 generalizing b ops2 with
  | nil =>
    cases ops2 with
    | nil => exact ⟨rfl, rfl⟩
    | cons _ _ => exact absurd h (fun h => h)
  | cons op1 rest1 ih =>
    cases ops2 with
    | nil => exact absurd h (fun h => h)
    | cons op2 rest2 =>
      obtain ⟨h1, h2⟩ : b.SameCall op1 op2 ∧ SameCalls (b.exec op1).1 rest1 rest2 := h
      have he := exec_of_sameCall b op1 op2 h1
      have := ih (b.exec op1).1 rest2 h2
      constructor
      · show (b.exec op1).2 :: outputs (b.exec op1).1 rest1 =
          (b.exec op2).2 :: outputs (b.exec op2).1 rest2
        rw [← he, this.1]
      · show runFrom (b.exec op1).1 rest1 = runFrom (b.exec op2).1 rest2
        rw [← he, this.2]

/-! ## Correctness of the aggregation -/

theorem quantityAt_cons (b : OrderBook) (p : Ptr) (rest : List Ptr) (x : Price) :
    b.quantityAt (p :: rest) x =
      (if (b.heap.deref p).price = x then (b.heap.deref p).quantity else 0) +
        b.quantityAt rest x := by
  unfold quantityAt
  by_cases h : (b.heap.deref p).price = x
  · rw [List.filter_cons_of_pos (by simpa using h), if_pos h]
    simp
  · rw [List.filter_cons_of_neg (by simpa using h), if_neg h]
    simp

theorem quantityAt_eq_zero (b : OrderBook) (rest : List Ptr) (x : Price)
    (hx : x ∉ rest.map (fun p => (b.heap.deref p).price)) : b.quantityAt rest x = 0 := by
  induction rest with
  | nil => rfl
  | cons p rest ih =>
    rw [quantityAt_cons]
    have h1 : ¬ (b.heap.deref p).price = x := fun e => hx (by simp [e])
    have h2 : x ∉ rest.map (fun p => (b.heap.deref p).price) := fun h => hx (by simp [h])
    rw [if_neg h1, ih h2]

theorem take_push (levels : List PriceLevel) (x : PriceLevel) (tail : List PriceLevel)
    (depth : Nat) (h : (levels ++ [x]).length = depth) :
    (levels ++ x :: tail).take depth = levels ++ [x] := by
  have : levels ++ x :: tail = (levels ++ [x]) ++ tail := by simp
  rw [this]
  exact List.take_left' h

/-- The loop of `aggregateLevels` from a state in which the level of price
`cp` is being accumulated with running total `tq`: it completes that level
with the orders of `rest` at that price, adds one level for each further
distinct price, and stops at `depth` levels. -/
theorem aggregateLoop_spec (b : OrderBook) (depth : Nat) (R : Price → Price → Prop)
    (hanti : ∀ x y, R x y → R y x → x = y) (rest : List Ptr) :
    ∀ (levels : List PriceLevel) (cp : Price) (tq : Nat),
      cp ≠ -1 → (∀ p ∈ rest, (b.heap.deref p).price ≠ -1) →
      (∀ p ∈ rest, 0 < (b.heap.deref p).quantity) →
      levels.length < depth → 0 < tq →
      (cp :: rest.map (fun p => (b.heap.deref p).price)).Pairwise R →
      (∀ x, (if x = cp then tq else 0) + b.quantityAt rest x < 2 ^ 64) →
      aggregateLoop b.heap depth rest levels cp tq =
        (levels ++ ((cp :: rest.map (fun p => (b.heap.deref p).price)).dedup).map
          (fun x => PriceLevel.mk x ((if x = cp then tq else 0) + b.quantityAt rest x))).take
          depth := by
  induction rest with
  | nil =>
    intro levels cp tq _ _ _ hlen htq _ _
    unfold aggregateLoop
    rw [if_pos ⟨htq, hlen⟩]
    have hq : b.quantityAt [] cp = 0 := rfl
    simp only [List.map_nil, List.dedup_cons_of_not_mem (List.not_mem_nil cp), List.dedup_nil,
      List.map_cons, if_pos, hq, Nat.add_zero]
    rw [List.take_of_length_le]
    rw [List.length_append, List.length_singleton]
    exact hlen
  | cons p rest ih =>
    intro levels cp tq hcp hpr hq hlen htq hsort hfit
    have hsort' := List.pairwise_cons.mp hsort
    have hsort2 := List.pairwise_cons.mp hsort'.2
    have hpr' : ∀ r ∈ rest, (b.heap.deref r).price ≠ -1 :=
      fun r hr => hpr r (List.mem_cons_of_mem _ hr)
    have hq' : ∀ r ∈ rest, 0 < (b.heap.deref r).quantity :=
      fun r hr => hq r (List.mem_cons_of_mem _ hr)
    unfold aggregateLoop
    dsimp only
    rw [if_neg hcp]
    by_cases hpc : (b.heap.deref p).price ≠ cp
    · rw [if_pos hpc]
      have hnotin : cp ∉ (b.heap.deref p).price :: rest.map (fun r => (b.heap.deref r).price) := by
        intro hmem
        rcases List.mem_cons.mp hmem with h | h
        · exact hpc h.symm
        · have h1 : R cp (b.heap.deref p).price := hsort'.1 _ (List.mem_cons_self _ _)
          have h2 : R (b.heap.deref p).price cp := hsort2.1 cp h
          exact hpc (hanti _ _ h2 h1)
      have hq0 : b.quantityAt (p :: rest) cp = 0 := quantityAt_eq_zero b (p :: rest) cp hnotin
      have hqp : (b.heap.deref p).quantity < 2 ^ 64 := by
        have := hfit (b.heap.deref p).price
        rw [quantityAt_cons, if_pos rfl] at this
        omega
      have hmod : (0 + (b.heap.deref p).quantity) % 2 ^ 64 = (b.heap.deref p).quantity := by
        rw [Nat.zero_add, Nat.mod_eq_of_lt hqp]
      have hmap : ((b.heap.deref p).price :: rest.map (fun r => (b.heap.deref r).price)).dedup.map
            (fun x => PriceLevel.mk x ((if x = cp then tq else 0) + b.quantityAt (p :: rest) x)) =
          ((b.heap.deref p).price :: rest.map (fun r => (b.heap.deref r).price)).dedup.map
            (fun x => PriceLevel.mk x
              ((if x = (b.heap.deref p).price then (b.heap.deref p).quantity else 0) +
                b.quantityAt rest x)) := by
        apply List.map_congr_left
        intro x hx
        have hxc : x ≠ cp := fun e => hnotin (e ▸ List.mem_dedup.mp hx)
        rw [if_neg hxc, quantityAt_cons, Nat.zero_add]
        by_cases hxp : x = (b.heap.deref p).price
        · rw [if_pos hxp, if_pos hxp.symm]
        · rw [if_neg hxp, if_neg (fun e => hxp e.symm)]
      have hrhs : (cp :: (p :: rest).map (fun r => (b.heap.deref r).price)).dedup.map
            (fun x => PriceLevel.mk x ((if x = cp then tq else 0) + b.quantityAt (p :: rest) x)) =
          PriceLevel.mk cp tq ::
            ((b.heap.deref p).price :: rest.map (fun r => (b.heap.deref r).price)).dedup.map
              (fun x => PriceLevel.mk x
                ((if x = (b.heap.deref p).price then (b.heap.deref p).quantity else 0) +
                  b.quantityAt rest x)) := by
        rw [List.map_cons, List.dedup_cons_of_not_mem hnotin, List.map_cons, hmap, if_pos rfl, hq0,
          Nat.add_zero]
      rw [hrhs]
      by_cases hfull : (levels ++ [PriceLevel.mk cp tq]).length = depth
      · rw [if_pos hfull]
        exact (take_push _ _ _ _ hfull).symm
      · rw [if_neg hfull, hmod]
        have hlen' : (levels ++ [PriceLevel.mk cp tq]).length < depth := by
          rw [List.length_append, List.length_singleton] at hfull ⊢
          exact Nat.lt_of_le_of_ne hlen hfull
        rw [ih (levels ++ [PriceLevel.mk cp tq]) (b.heap.deref p).price (b.heap.deref p).quantity
          (hpr p (List.mem_cons_self _ _)) hpr' hq' hlen' (hq p (List.mem_cons_self _ _))
          hsort'.2 ?_]
        · rw [List.append_assoc]
          rfl
        · intro x
          have := hfit x
          rw [quantityAt_cons] at this
          have hle : (if x = (b.heap.deref p).price then (b.heap.deref p).quantity else 0) +
              b.quantityAt rest x ≤ (if x = cp then tq else 0) +
                ((if (b.heap.deref p).price = x then (b.heap.deref p).quantity else 0) +
                  b.quantityAt rest x) := by
            by_cases hxp : x = (b.heap.deref p).price
            · rw [if_pos hxp, if_pos hxp.symm]
              omega
            · rw [if_neg hxp]
              omega
          omega
    · rw [if_neg hpc]
      have hpc' : (b.heap.deref p).price = cp := not_not.mp hpc
      have hsum : tq + (b.heap.deref p).quantity < 2 ^ 64 := by
        have := hfit cp
        rw [if_pos rfl, quantityAt_cons, if_pos hpc'] at this
        omega
      have hfun : ∀ x, (if x = cp then tq + (b.heap.deref p).quantity else 0) + b.quantityAt rest x
          = (if x = cp then tq else 0) + b.quantityAt (p :: rest) x := by
        intro x
        rw [quantityAt_cons, hpc']
        by_cases hxc : x = cp
        · rw [if_pos hxc, if_pos hxc, if_pos hxc.symm]
          omega
        · rw [if_neg hxc, if_neg hxc, if_neg (fun e => hxc e.symm)]
          omega
      have hsortc : (cp :: rest.map (fun r => (b.heap.deref r).price)).Pairwise R :=
        List.pairwise_cons.mpr
          ⟨fun y hy => hsort'.1 y (List.mem_cons_of_mem _ hy), hsort2.2⟩
      rw [Nat.mod_eq_of_lt hsum,
        ih levels cp (tq + (b.heap.deref p).quantity) hcp hpr' hq' hlen (by omega) hsortc
          (fun x => by rw [hfun x]; exact hfit x)]
      congr 2
      rw [List.map_cons, hpc', List.dedup_cons_of_mem (List.mem_cons_self _ _)]
      apply List.map_congr_left
      intro x _
      rw [hfun x]

theorem aggregateLevels_spec (b : OrderBook) (orderSet : List Ptr) (depth : Nat)
    (R : Price → Price → Prop) (hanti : ∀ x y, R x y → R y x → x = y)
    (hsort : (orderSet.map (fun p => (b.heap.deref p).price)).Pairwise R)
    (hprice : ∀ p ∈ orderSet, (b.heap.deref p).price ≠ -1)
    (hqty : ∀ p ∈ orderSet, 0 < (b.heap.deref p).quantity)
    (hfit : ∀ x, b.quantityAt orderSet x < 2 ^ 64) (hdepth : 1 ≤ depth) :
    b.aggregateLevels orderSet depth = b.levelsSpec orderSet depth := by
  cases orderSet with
  | nil =>
    unfold aggregateLevels aggregateLoop levelsSpec distinctPrices
    simp
  | cons p rest =>
    have hqp : (b.heap.deref p).quantity < 2 ^ 64 := by
      have := hfit (b.heap.deref p).price
      rw [quantityAt_cons, if_pos rfl] at this
      omega
    unfold aggregateLevels aggregateLoop
    dsimp only
    rw [if_pos rfl, if_neg (not_not.mpr rfl), Nat.zero_add, Nat.mod_eq_of_lt hqp]
    rw [aggregateLoop_spec b depth R hanti rest [] (b.heap.deref p).price
      (b.heap.deref p).quantity (hprice p (List.mem_cons_self _ _))
      (fun r hr => hprice r (List.mem_cons_of_mem _ hr))
      (fun r hr => hqty r (List.mem_cons_of_mem _ hr)) hdepth
      (hqty p (List.mem_cons_self _ _)) hsort ?_]
    · unfold levelsSpec distinctPrices
      rw [List.nil_append, ← List.map_take, List.map_cons]
      apply List.map_congr_left
      intro x _
      rw [quantityAt_cons]
      by_cases hxp : x = (b.heap.deref p).price
      · rw [if_pos hxp, if_pos hxp.symm]
      · rw [if_neg hxp, if_neg (fun e => hxp e.symm)]
    · intro x
      have := hfit x
      rw [quantityAt_cons] at this
      by_cases hxp : x = (b.heap.deref p).price
      · rw [if_pos hxp]
        rw [if_pos hxp.symm] at this
        exact this
      · rw [if_neg hxp]
        rw [if_neg (fun e => hxp e.symm)] at this
        exact this

/-- The distinct elements of a weakly sorted list, in its order, are strictly
sorted. -/
theorem dedup_strict (l : List Price) (R S : Price → Price → Prop)
    (hRS : ∀ x y, R x y → x ≠ y → S x y) (hs : l.Pairwise R) : l.dedup.Pairwise S := by
  have h1 : l.dedup.Pairwise R := hs.sublist (List.dedup_sublist l)
  have h2 : l.dedup.Pairwise (fun x y => x ≠ y) := List.nodup_dedup l
  exact (h1.and h2).imp (fun h => hRS _ _ h.1 h.2)

theorem levelsSpec_prices (b : OrderBook) (orderSet : List Ptr) (depth : Nat) :
    (b.levelsSpec orderSet depth).map (fun l => l.price) =
      (b.distinctPrices orderSet).take depth := by
  unfold levelsSpec
  rw [List.map_map]
  exact List.map_id _

/-- C11 (aggregation correctness): let `orderSet` be sorted by the bid ordering
or by the ask ordering and hold orders of positive price and positive
quantity, the quantities at each price summing to less than `2 ^ 64`, and let
`depth >= 1`.  Then `aggregateLevels` returns one level for each of the first
`depth` distinct prices of `orderSet`, in order, each with the sum of the
quantities of all the orders at that price; the number of levels is
`min K depth` for `K` the number of distinct prices; and the prices of the
levels are pairwise distinct and strictly decreasing for bids, strictly
increasing for asks. -/
theorem C11_aggregation_correct (b : OrderBook) (orderSet : List Ptr) (depth : Nat)
    (hsorted : orderSet.Pairwise (fun p q => b.buyLt p q = true) ∨
      orderSet.Pairwise (fun p q => b.sellLt p q = true))
    (hprice : ∀ p ∈ orderSet, 0 < (b.deref p).price)
    (hqty : ∀ p ∈ orderSet, 0 < (b.deref p).quantity)
    (hfit : ∀ price, b.quantityAt orderSet price < 2 ^ 64) (hdepth : 1 ≤ depth) :
    b.aggregateLevels orderSet depth =
        ((b.distinctPrices orderSet).take depth).map
          (fun price => ⟨price, b.quantityAt orderSet price⟩) ∧
      (b.aggregateLevels orderSet depth).length = min (b.distinctPrices orderSet).length depth ∧
      ((b.aggregateLevels orderSet depth).map (fun l => l.price)).Nodup ∧
      (orderSet.Pairwise (fun p q => b.buyLt p q = true) →
        ((b.aggregateLevels orderSet depth).map (fun l => l.price)).Pairwise
          (fun x y => y < x)) ∧
      (orderSet.Pairwise (fun p q => b.sellLt p q = true) →
        ((b.aggregateLevels orderSet depth).map (fun l => l.price)).Pairwise
          (fun x y => x < y)) := by
  have hne : ∀ p ∈ orderSet, (b.heap.deref p).price ≠ -1 := by
    intro p hp e
    have := hprice p hp
    unfold deref at this
    rw [e] at this
    exact absurd this (by norm_num)
  have hbuy : orderSet.Pairwise (fun p q => b.buyLt p q = true) →
      (orderSet.map (fun p => (b.heap.deref p).price)).Pairwise (fun x y => y ≤ x) := by
    intro h
    rw [List.pairwise_map]
    exact h.imp (fun hlt => BuyComparator_price_le _ _ hlt)
  have hsell : orderSet.Pairwise (fun p q => b.sellLt p q = true) →
      (orderSet.map (fun p => (b.heap.deref p).price)).Pairwise (fun x y => x ≤ y) := by
    intro h
    rw [List.pairwise_map]
    exact h.imp (fun hlt => SellComparator_price_le _ _ hlt)
  have hspec : b.aggregateLevels orderSet depth = b.levelsSpec orderSet depth := by
    rcases hsorted with h | h
    · exact aggregateLevels_spec b orderSet depth (fun x y => y ≤ x)
        (fun x y h1 h2 => le_antisymm h2 h1) (hbuy h) hne hqty hfit hdepth
    · exact aggregateLevels_spec b orderSet depth (fun x y => x ≤ y)
        (fun x y h1 h2 => le_antisymm h1 h2) (hsell h) hne hqty hfit hdepth
  have hprices := levelsSpec_prices b orderSet depth
  rw [← hspec] at hprices
  refine ⟨hspec, ?_, ?_, ?_, ?_⟩
  · rw [hspec]
    unfold levelsSpec
    rw [List.length_map, List.length_take, Nat.min_comm]
  · rw [hprices]
    exact (List.nodup_dedup _).sublist (List.take_sublist _ _)
  · intro h
    rw [hprices]
    exact (dedup_strict _ (fun x y => y ≤ x) (fun x y => y < x)
      (fun x y h1 h2 => lt_of_le_of_ne h1 (fun e => h2 e.symm)) (hbuy h)).sublist
      (List.take_sublist _ _)
  · intro h
    rw [hprices]
    exact (dedup_strict _ (fun x y => x ≤ y) (fun x y => x < y)
      (fun x y h1 h2 => lt_of_le_of_ne h1 h2) (hsell h)).sublist
      (List.take_sublist _ _)

theorem quantityAt_le_total (b : OrderBook) (orderSet : List Ptr) (x : Price) :
    b.quantityAt orderSet x ≤ (orderSet.map (fun p => (b.heap.deref p).quantity)).sum := by
  induction orderSet with
  | nil => exact Nat.le_refl _
  | cons p rest ih =>
    rw [quantityAt_cons, List.map_cons, List.sum_cons]
    split <;> omega

/-- C11 on the bid index of the book of Scenario A (two orders at 101.0, one at
100.0): with depth 1 the single level is (101.0, 250), with depth 5 the levels
are (101.0, 250), (100.0, 50). -/
theorem C11_aggregation_correct_witness :
    scenarioA.buyOrders.Pairwise (fun p q => scenarioA.buyLt p q = true) ∧
      (∀ p ∈ scenarioA.buyOrders, 0 < (scenarioA.deref p).price) ∧
      (∀ p ∈ scenarioA.buyOrders, 0 < (scenarioA.deref p).quantity) ∧
      scenarioA.distinctPrices scenarioA.buyOrders = [101, 100] ∧
      scenarioA.aggregateLevels scenarioA.buyOrders 5 = [⟨101, 250⟩, ⟨100, 50⟩] ∧
      scenarioA.aggregateLevels scenarioA.buyOrders 1 = [⟨101, 250⟩] ∧
      (scenarioA.aggregateLevels scenarioA.buyOrders 1).length =
        min (scenarioA.distinctPrices scenarioA.buyOrders).length 1 :=
  ⟨by decide, by decide, by decide, by decide, by decide, by decide,
    (C11_aggregation_correct scenarioA scenarioA.buyOrders 1 (Or.inl (by decide)) (by decide)
      (by decide)
      (fun x => Nat.lt_of_le_of_lt (quantityAt_le_total scenarioA scenarioA.buyOrders x)
        (by decide))
      (by decide)).2.1⟩

/-! ## Independence of the addresses and of the table layout -/

end OrderBook

theorem Heap.cell_allocAt (h : Heap) (p r : Ptr) (o : Order) :
    (h.allocAt p o).cell r = if r = p then some o else h.cell r := by
  unfold Heap.allocAt
  rw [Heap.cell_set]
  have hlen : p < (h ++ List.replicate (p + 1 - h.length) (none : Option Order)).length := by
    rw [List.length_append, List.length_replicate]
    have hlt : ∀ a n : Nat, a < n + (a + 1 - n) := by
      intro a n
      omega
    exact hlt p h.length
  have hpad : Heap.cell (h ++ List.replicate (p + 1 - h.length) none) r = h.cell r := by
    unfold Heap.cell
    rw [List.getElem?_append]
    by_cases hr : r < h.length
    · rw [if_pos hr]
    · rw [if_neg hr, List.getElem?_replicate, List.getElem?_eq_none (Nat.le_of_not_lt hr)]
      split <;> rfl
  by_cases hrp : r = p
  · rw [if_pos ⟨hrp, hlen⟩, if_pos hrp]
  · rw [if_neg (fun hc => hrp hc.1), if_neg hrp, hpad]

/-- The allocator that returns the next unused address appends a cell. -/
theorem Heap.allocAt_length (h : Heap) (o : Order) : h.allocAt h.length o = (h.alloc o).1 := by
  unfold Heap.allocAt Heap.alloc
  have h1 : h.length + 1 - h.length = 1 := by omega
  rw [h1]
  simp

theorem setInsert_map (lt lt2 : Ptr → Ptr → Bool) (f : Ptr → Ptr) (o : Ptr) (xs : List Ptr)
    (h : ∀ x ∈ xs, lt2 (f o) (f x) = lt o x ∧ lt2 (f x) (f o) = lt x o) :
    setInsert lt2 (f o) (xs.map f) = (setInsert lt o xs).map f := by
  induction xs with
  | nil => rfl
  | cons y ys ih =>
    have hy := h y (List.mem_cons_self _ _)
    have ih1 := ih (fun x hx => h x (List.mem_cons_of_mem _ hx))
    simp only [List.map_cons, setInsert, hy.1, hy.2]
    by_cases h1 : lt o y = true
    · simp [h1]
    · by_cases h2 : lt y o = true
      · simp [h1, h2, ih1]
      · simp [h1, h2]

theorem setErase_map (lt lt2 : Ptr → Ptr → Bool) (f : Ptr → Ptr) (k : Ptr) (xs : List Ptr)
    (h : ∀ x ∈ xs, lt2 (f k) (f x) = lt k x ∧ lt2 (f x) (f k) = lt x k) :
    setErase lt2 (f k) (xs.map f) = (setErase lt k xs).map f := by
  induction xs with
  | nil => rfl
  | cons y ys ih =>
    have hy := h y (List.mem_cons_self _ _)
    have ih1 := ih (fun x hx => h x (List.mem_cons_of_mem _ hx))
    simp only [List.map_cons, setErase, hy.1, hy.2]
    by_cases h1 : lt y k = true
    · simp [h1, ih1]
    · by_cases h2 : lt k y = true
      · simp [h1, h2]
      · simp [h1, h2]

theorem mapFind_mapErase (m : List (Nat × Ptr)) (k k2 : Nat) :
    mapFind (mapErase m k) k2 = if k2 = k then none else mapFind m k2 := by
  by_cases hk : k2 = k
  · rw [if_pos hk, hk]
    exact mapFind_mapErase_self m k
  · rw [if_neg hk]
    induction m with
    | nil => rfl
    | cons e rest ih =>
      obtain ⟨k1, v1⟩ := e
      unfold mapErase at ih ⊢
      by_cases h1 : k1 = k
      · have h2 : ¬ k1 = k2 := fun e => hk (e.symm.trans h1)
        simp only [List.filter_cons, h1, ne_eq, not_true_eq_false, decide_False]
        rw [← h1] at ih ⊢
        simp only [Bool.false_eq_true, if_false]
        rw [ih]
        simp only [mapFind, if_neg h2]
      · simp only [List.filter_cons, ne_eq, h1, not_false_eq_true, decide_True, if_true]
        simp only [mapFind]
        rw [ih]

theorem mapFind_mapAssign (m : List (Nat × Ptr)) (k : Nat) (v : Ptr) (k2 : Nat) :
    mapFind (mapAssign m k v) k2 = if k2 = k then some v else mapFind m k2 := by
  by_cases hk : k2 = k
  · rw [if_pos hk, hk]
    exact mapFind_mapAssign_self m k v
  · rw [if_neg hk]
    induction m with
    | nil =>
      have : ¬ k = k2 := fun e => hk e.symm
      simp [mapAssign, mapFind, this]
    | cons e rest ih =>
      obtain ⟨k1, v1⟩ := e
      unfold mapAssign
      by_cases h1 : k1 = k
      · have h2 : ¬ k1 = k2 := fun e => hk (e.symm.trans h1)
        have h3 : ¬ k = k2 := fun e => hk e.symm
        simp only [if_pos h1, mapFind, if_neg h2, if_neg h3]
      · simp only [if_neg h1, mapFind]
        rw [ih]

/-- What `find` returns does not depend on the layout of the table. -/
theorem mapFind_perm (m m2 : List (Nat × Ptr)) (hp : m.Perm m2)
    (hn : (m.map Prod.fst).Nodup) (k : Nat) : mapFind m k = mapFind m2 k := by
  have hn2 : (m2.map Prod.fst).Nodup := (hp.map Prod.fst).nodup_iff.mp hn
  cases h1 : mapFind m k with
  | none =>
    cases h2 : mapFind m2 k with
    | none => rfl
    | some v =>
      have hm := hp.mem_iff.mpr (mapFind_mem _ _ _ h2)
      obtain ⟨w, hw⟩ := mapFind_isSome_of_mem m k v hm
      rw [h1] at hw
      cases hw
  | some v =>
    have hm := hp.mem_iff.mp (mapFind_mem _ _ _ h1)
    obtain ⟨w, hw⟩ := mapFind_isSome_of_mem m2 k v hm
    rw [hw]
    exact congrArg some (map_unique m2 hn2 k v w hm (mapFind_mem _ _ _ hw))

namespace OrderBook

theorem sim_deref (f : Ptr → Ptr) (c a : OrderBook) (h : Sim f c a) (p : Ptr)
    (hp : c.heap.live p = true) : a.deref (f p) = c.deref p := by
  unfold deref Heap.deref
  rw [h.2.2.2.1 p hp]

theorem sim_live (f : Ptr → Ptr) (c a : OrderBook) (h : Sim f c a) (p : Ptr)
    (hp : c.heap.live p = true) : a.heap.live (f p) = true := by
  unfold Heap.live at hp ⊢
  rw [h.2.2.2.1 p hp]
  exact hp

theorem sim_buyLt (f : Ptr → Ptr) (c a : OrderBook) (h : Sim f c a) (p q : Ptr)
    (hp : c.heap.live p = true) (hq : c.heap.live q = true) :
    a.buyLt (f p) (f q) = c.buyLt p q := by
  unfold buyLt
  rw [sim_deref f c a h p hp, sim_deref f c a h q hq]

theorem sim_sellLt (f : Ptr → Ptr) (c a : OrderBook) (h : Sim f c a) (p q : Ptr)
    (hp : c.heap.live p = true) (hq : c.heap.live q = true) :
    a.sellLt (f p) (f q) = c.sellLt p q := by
  unfold sellLt
  rw [sim_deref f c a h p hp, sim_deref f c a h q hq]

/-- The same quantity written through corresponding pointers. -/
theorem sim_setQuantity (f : Ptr → Ptr) (c a : OrderBook) (h : Sim f c a) (p : Ptr)
    (hp : c.heap.live p = true) (n : Nat) :
    Sim f { c with heap := c.heap.setQuantity p n }
      { a with heap := a.heap.setQuantity (f p) n } := by
  refine ⟨h.1, h.2.1, h.2.2.1, ?_, ?_, h.2.2.2.2.2⟩
  · intro q hq
    have hq1 : c.heap.live q = true := by
      rw [← live_setQuantity c.heap p q n]
      exact hq
    show (a.heap.setQuantity (f p) n).cell (f q) = (c.heap.setQuantity p n).cell q
    rw [Heap.cell_setQuantity, Heap.cell_setQuantity]
    by_cases hqp : q = p
    · rw [if_pos hqp, if_pos (congrArg f hqp), h.2.2.2.1 p hp]
    · rw [if_neg hqp, if_neg (fun e => hqp (h.2.2.2.2.1 q p hq1 hp e)), h.2.2.2.1 q hq1]
  · intro q r hq hr
    have hq1 : c.heap.live q = true := by
      rw [← live_setQuantity c.heap p q n]
      exact hq
    have hr1 : c.heap.live r = true := by
      rw [← live_setQuantity c.heap p r n]
      exact hr
    exact h.2.2.2.2.1 q r hq1 hr1

theorem Heap.live_free (h : Heap) (p q : Ptr) (hq : (h.free p).live q = true) :
    q ≠ p ∧ h.live q = true := by
  unfold Heap.live at hq ⊢
  rw [Heap.cell_free] at hq
  by_cases hqp : q = p
  · rw [if_pos hqp] at hq
    cases hq
  · rw [if_neg hqp] at hq
    exact ⟨hqp, hq⟩

/-- Corresponding objects deleted, and the entries of one key erased from both
tables. -/
theorem sim_remove (f : Ptr → Ptr) (c a : OrderBook) (h : Sim f c a) (p : Ptr)
    (hp : c.heap.live p = true) (k : Nat) (lb ls : List Ptr) :
    Sim f ⟨c.heap.free p, mapErase c.orders k, lb, ls⟩
      ⟨a.heap.free (f p), mapErase a.orders k, lb.map f, ls.map f⟩ := by
  refine ⟨?_, rfl, rfl, ?_, ?_, ?_⟩
  · intro k2
    show mapFind (mapErase a.orders k) k2 = (mapFind (mapErase c.orders k) k2).map f
    rw [mapFind_mapErase, mapFind_mapErase]
    by_cases hk : k2 = k
    · rw [if_pos hk, if_pos hk]
      rfl
    · rw [if_neg hk, if_neg hk]
      exact h.1 k2
  · intro q hq
    obtain ⟨hqp, hq1⟩ := Heap.live_free c.heap p q hq
    show (a.heap.free (f p)).cell (f q) = (c.heap.free p).cell q
    rw [Heap.cell_free, Heap.cell_free, if_neg hqp,
      if_neg (fun e => hqp (h.2.2.2.2.1 q p hq1 hp e)), h.2.2.2.1 q hq1]
  · intro q r hq hr
    exact h.2.2.2.2.1 q r (Heap.live_free c.heap p q hq).2 (Heap.live_free c.heap p r hr).2
  · exact (List.Sublist.map Prod.fst (mapErase_sublist a.orders k)).nodup h.2.2.2.2.2

theorem sim_matchFill (f : Ptr → Ptr) (c a : OrderBook) (h : Sim f c a) (p q : Ptr)
    (hp : c.heap.live p = true) (hq : c.heap.live q = true) :
    (a.matchFill (f p) (f q)).1 = (c.matchFill p q).1 ∧
      Sim f (c.matchFill p q).2 (a.matchFill (f p) (f q)).2 := by
  have hdp := sim_deref f c a h p hp
  have hdq := sim_deref f c a h q hq
  have h1 := sim_setQuantity f c a h p hp
    ((c.deref p).quantity - min (c.deref p).quantity (c.deref q).quantity)
  have hq1 : (c.heap.setQuantity p
      ((c.deref p).quantity - min (c.deref p).quantity (c.deref q).quantity)).live q = true := by
    rw [live_setQuantity]
    exact hq
  unfold matchFill
  dsimp only
  rw [hdp, hdq, sim_deref f _ _ h1 q hq1]
  exact ⟨rfl, sim_setQuantity f _ _ h1 q hq1 _⟩

theorem Heap.live_free_of_ne (h : Heap) (p q : Ptr) (hq : h.live q = true) (hqp : q ≠ p) :
    (h.free p).live q = true := by
  unfold Heap.live at hq ⊢
  rw [Heap.cell_free, if_neg hqp]
  exact hq

/-- The branch of `match` that removes a filled bid, taken in both states. -/
theorem sim_dropBuy (f : Ptr → Ptr) (c a : OrderBook) (h : Sim f c a) (p : Ptr)
    (hp : c.heap.live p = true) :
    Sim f
      (if (c.deref p).quantity = 0 then
        { c with
          buyOrders := c.buyOrders.tail
          orders := mapErase c.orders (c.deref p).id
          heap := c.heap.free p }
      else c)
      (if (a.deref (f p)).quantity = 0 then
        { a with
          buyOrders := a.buyOrders.tail
          orders := mapErase a.orders (a.deref (f p)).id
          heap := a.heap.free (f p) }
      else a) := by
  rw [sim_deref f c a h p hp]
  by_cases h0 : (c.deref p).quantity = 0
  · rw [if_pos h0, if_pos h0]
    have e1 : a.buyOrders.tail = c.buyOrders.tail.map f := by
      rw [h.2.1, List.map_tail]
    show Sim f ⟨c.heap.free p, mapErase c.orders (c.deref p).id, c.buyOrders.tail, c.sellOrders⟩
      ⟨a.heap.free (f p), mapErase a.orders (c.deref p).id, a.buyOrders.tail, a.sellOrders⟩
    rw [e1, h.2.2.1]
    exact sim_remove f c a h p hp _ _ _
  · rw [if_neg h0, if_neg h0]
    exact h

/-- The branch of `match` that removes a filled ask, taken in both states. -/
theorem sim_dropSell (f : Ptr → Ptr) (c a : OrderBook) (h : Sim f c a) (q : Ptr)
    (hq : c.heap.live q = true) :
    Sim f
      (if (c.deref q).quantity = 0 then
        { c with
          sellOrders := c.sellOrders.tail
          orders := mapErase c.orders (c.deref q).id
          heap := c.heap.free q }
      else c)
      (if (a.deref (f q)).quantity = 0 then
        { a with
          sellOrders := a.sellOrders.tail
          orders := mapErase a.orders (a.deref (f q)).id
          heap := a.heap.free (f q) }
      else a) := by
  rw [sim_deref f c a h q hq]
  by_cases h0 : (c.deref q).quantity = 0
  · rw [if_pos h0, if_pos h0]
    have e1 : a.sellOrders.tail = c.sellOrders.tail.map f := by
      rw [h.2.2.1, List.map_tail]
    show Sim f ⟨c.heap.free q, mapErase c.orders (c.deref q).id, c.buyOrders, c.sellOrders.tail⟩
      ⟨a.heap.free (f q), mapErase a.orders (c.deref q).id, a.buyOrders, a.sellOrders.tail⟩
    rw [e1, h.2.1]
    exact sim_remove f c a h q hq _ _ _
  · rw [if_neg h0, if_neg h0]
    exact h

theorem sim_removeFilled (f : Ptr → Ptr) (c a : OrderBook) (h : Sim f c a) (p q : Ptr)
    (hp : c.heap.live p = true) (hq : c.heap.live q = true) (hpq : q ≠ p) :
    Sim f (c.removeFilled p q) (a.removeFilled (f p) (f q)) := by
  have h1 := sim_dropBuy f c a h p hp
  have hq1 : (if (c.deref p).quantity = 0 then
        { c with
          buyOrders := c.buyOrders.tail
          orders := mapErase c.orders (c.deref p).id
          heap := c.heap.free p }
      else c).heap.live q = true := by
    by_cases h0 : (c.deref p).quantity = 0
    · rw [if_pos h0]
      exact Heap.live_free_of_ne c.heap p q hq hpq
    · rw [if_neg h0]
      exact hq
  exact sim_dropSell f _ _ h1 q hq1

theorem sim_matchStep (f : Ptr → Ptr) (c a : OrderBook) (h : Sim f c a) (hwf : c.WF) :
    (c.matchStep = none → a.matchStep = none) ∧
      ∀ t c2, c.matchStep = some (t, c2) → ∃ a2, a.matchStep = some (t, a2) ∧ Sim f c2 a2 := by
  cases hb : c.buyOrders with
  | nil =>
    have hc : c.matchStep = none := by
      unfold matchStep
      rw [hb]
    have ha : a.matchStep = none := by
      unfold matchStep
      rw [h.2.1, hb]
      rfl
    refine ⟨fun _ => ha, fun t c2 hstep => ?_⟩
    rw [hc] at hstep
    cases hstep
  | cons p rb =>
    cases hs : c.sellOrders with
    | nil =>
      have hc : c.matchStep = none := by
        unfold matchStep
        rw [hb, hs]
      have ha : a.matchStep = none := by
        unfold matchStep
        rw [h.2.1, h.2.2.1, hb, hs]
        rfl
      refine ⟨fun _ => ha, fun t c2 hstep => ?_⟩
      rw [hc] at hstep
      cases hstep
    | cons q rs =>
      have hpm : p ∈ c.buyOrders := hb ▸ List.mem_cons_self _ _
      have hqm : q ∈ c.sellOrders := hs ▸ List.mem_cons_self _ _
      have hp := (hwf.1 p hpm).1
      have hq := (hwf.2.1 q hqm).1
      have hqp : q ≠ p := fun e => WF.buy_sell_disjoint c hwf p hpm (e ▸ hqm)
      have hc : c.matchStep =
          if (c.deref p).price < (c.deref q).price then none
          else some ((c.matchFill p q).1, (c.matchFill p q).2.removeFilled p q) := by
        unfold matchStep
        rw [hb, hs]
      have ha : a.matchStep =
          if (a.deref (f p)).price < (a.deref (f q)).price then none
          else some ((a.matchFill (f p) (f q)).1,
            (a.matchFill (f p) (f q)).2.removeFilled (f p) (f q)) := by
        unfold matchStep
        rw [h.2.1, h.2.2.1, hb, hs]
        rfl
      rw [sim_deref f c a h p hp, sim_deref f c a h q hq] at ha
      have hfill := sim_matchFill f c a h p q hp hq
      by_cases hlt : (c.deref p).price < (c.deref q).price
      · rw [if_pos hlt] at hc ha
        refine ⟨fun _ => ha, fun t c2 hstep => ?_⟩
        rw [hc] at hstep
        cases hstep
      · rw [if_neg hlt] at hc ha
        refine ⟨fun hn => ?_, fun t c2 hstep => ?_⟩
        · rw [hc] at hn
          cases hn
        · rw [hc] at hstep
          simp only [Option.some.injEq, Prod.mk.injEq] at hstep
          refine ⟨(a.matchFill (f p) (f q)).2.removeFilled (f p) (f q), ?_, ?_⟩
          · rw [ha, hfill.1, hstep.1]
          · rw [← hstep.2]
            refine sim_removeFilled f _ _ hfill.2 p q ?_ ?_ hqp
            · rw [matchFill_live]
              exact hp
            · rw [matchFill_live]
              exact hq

theorem sim_matchLoop (fuel : Nat) (f : Ptr → Ptr) (c a : OrderBook) (h : Sim f c a)
    (hwf : c.WF) :
    (matchLoop fuel a).2 = (matchLoop fuel c).2 ∧
      Sim f (matchLoop fuel c).1 (matchLoop fuel a).1 := by
  induction fuel generalizing c a with
  | zero => exact ⟨rfl, h⟩
  | succ n ih =>
    have hstep := sim_matchStep f c a h hwf
    unfold matchLoop
    cases hc : c.matchStep with
    | none =>
      rw [hstep.1 hc]
      exact ⟨rfl, h⟩
    | some r =>
      obtain ⟨t, c2⟩ := r
      obtain ⟨a2, ha2, hsim2⟩ := hstep.2 t c2 hc
      rw [ha2]
      have := ih c2 a2 hsim2 (WF_matchStep c c2 t hwf hc)
      dsimp only
      exact ⟨by rw [this.1], this.2⟩

theorem sim_match (f : Ptr → Ptr) (c a : OrderBook) (h : Sim f c a) (hwf : c.WF) :
    (a.match_).2 = (c.match_).2 ∧ Sim f (c.match_).1 (a.match_).1 := by
  unfold match_
  rw [h.2.1, h.2.2.1, List.length_map, List.length_map]
  exact sim_matchLoop _ f c a h hwf

theorem sim_cancelOrder (f : Ptr → Ptr) (c a : OrderBook) (h : Sim f c a) (hwf : c.WF)
    (orderId : Nat) :
    (a.cancelOrder orderId).2 = (c.cancelOrder orderId).2 ∧
      Sim f (c.cancelOrder orderId).1 (a.cancelOrder orderId).1 := by
  have hfa := h.1 orderId
  cases hfind : mapFind c.orders orderId with
  | none =>
    rw [hfind] at hfa
    rw [cancelOrder_not_found c orderId hfind, cancelOrder_not_found a orderId hfa]
    exact ⟨rfl, h⟩
  | some order =>
    rw [hfind] at hfa
    rw [cancelOrder_found c orderId order hfind, cancelOrder_found a orderId (f order) hfa]
    refine ⟨rfl, ?_⟩
    have hlive : c.heap.live order = true := (hwf.2.2.2.2.1 _ (mapFind_mem _ _ _ hfind)).1
    have hbuy : setErase a.buyLt (f order) a.buyOrders =
        (setErase c.buyLt order c.buyOrders).map f := by
      rw [h.2.1]
      exact setErase_map _ _ f order _ (fun x hx =>
        ⟨sim_buyLt f c a h order x hlive (hwf.1 x hx).1,
          sim_buyLt f c a h x order (hwf.1 x hx).1 hlive⟩)
    have hsell : setErase a.sellLt (f order) a.sellOrders =
        (setErase c.sellLt order c.sellOrders).map f := by
      rw [h.2.2.1]
      exact setErase_map _ _ f order _ (fun x hx =>
        ⟨sim_sellLt f c a h order x hlive (hwf.2.1 x hx).1,
          sim_sellLt f c a h x order (hwf.2.1 x hx).1 hlive⟩)
    rw [sim_deref f c a h order hlive, hbuy, hsell]
    cases hside : (c.deref order).isBuy with
    | true =>
      simp only [if_true]
      rw [h.2.2.1]
      exact sim_remove f c a h order hlive orderId _ _
    | false =>
      simp only [Bool.false_eq_true, if_false]
      rw [h.2.1]
      exact sim_remove f c a h order hlive orderId _ _

/-- The same pointer inserted in both bid indices. -/
theorem sim_insertBuy (g : Ptr → Ptr) (c a : OrderBook) (h : Sim g c a) (o : Ptr)
    (ho : c.heap.live o = true) (hl : ∀ x ∈ c.buyOrders, c.heap.live x = true) :
    Sim g { c with buyOrders := setInsert c.buyLt o c.buyOrders }
      { a with buyOrders := setInsert a.buyLt (g o) a.buyOrders } := by
  refine ⟨h.1, ?_, h.2.2.1, h.2.2.2.1, h.2.2.2.2.1, h.2.2.2.2.2⟩
  show setInsert a.buyLt (g o) a.buyOrders = (setInsert c.buyLt o c.buyOrders).map g
  rw [h.2.1]
  exact setInsert_map _ _ g o _ (fun x hx =>
    ⟨sim_buyLt g c a h o x ho (hl x hx), sim_buyLt g c a h x o (hl x hx) ho⟩)

/-- The same pointer inserted in both ask indices. -/
theorem sim_insertSell (g : Ptr → Ptr) (c a : OrderBook) (h : Sim g c a) (o : Ptr)
    (ho : c.heap.live o = true) (hl : ∀ x ∈ c.sellOrders, c.heap.live x = true) :
    Sim g { c with sellOrders := setInsert c.sellLt o c.sellOrders }
      { a with sellOrders := setInsert a.sellLt (g o) a.sellOrders } := by
  refine ⟨h.1, h.2.1, ?_, h.2.2.2.1, h.2.2.2.2.1, h.2.2.2.2.2⟩
  show setInsert a.sellLt (g o) a.sellOrders = (setInsert c.sellLt o c.sellOrders).map g
  rw [h.2.2.1]
  exact setInsert_map _ _ g o _ (fun x hx =>
    ⟨sim_sellLt g c a h o x ho (hl x hx), sim_sellLt g c a h x o (hl x hx) ho⟩)

/-- The object created and entered in the table, in both states: the address
map is extended by the pair of the two new addresses. -/
theorem sim_create (f : Ptr → Ptr) (c a : OrderBook) (h : Sim f c a) (hwf : c.WF)
    (ch : Choice) (order : Order) (hv : a.ValidChoice ch order.id) :
    Sim (Function.update f c.heap.length ch.addr)
      ⟨(c.heap.alloc order).1, mapAssign c.orders order.id c.heap.length, c.buyOrders,
        c.sellOrders⟩
      ⟨a.heap.allocAt ch.addr order, ch.rehash (mapAssign a.orders order.id ch.addr),
        a.buyOrders, a.sellOrders⟩ := by
  have hnew : Function.update f c.heap.length ch.addr c.heap.length = ch.addr :=
    Function.update_same _ _ _
  have hold : ∀ p, c.heap.live p = true → Function.update f c.heap.length ch.addr p = f p := by
    intro p hp
    apply Function.update_noteq
    intro e
    rw [e, Heap.not_live_length] at hp
    cases hp
  have hfresh : ∀ p, c.heap.live p = true → f p ≠ ch.addr := by
    intro p hp e
    have h1 := sim_live f c a h p hp
    rw [e, hv.1] at h1
    cases h1
  have hsplit : ∀ p, ((c.heap.alloc order).1).live p = true →
      p = c.heap.length ∨ (p ≠ c.heap.length ∧ c.heap.live p = true) := by
    intro p hp
    unfold Heap.live at hp ⊢
    rw [Heap.cell_alloc] at hp
    by_cases hpl : p = c.heap.length
    · exact Or.inl hpl
    · rw [if_neg hpl] at hp
      exact Or.inr ⟨hpl, hp⟩
  have hnodup : ((mapAssign a.orders order.id ch.addr).map Prod.fst).Nodup :=
    mapAssign_keys_nodup _ _ _ h.2.2.2.2.2
  refine ⟨?_, ?_, ?_, ?_, ?_, ?_⟩
  · intro k
    show mapFind (ch.rehash (mapAssign a.orders order.id ch.addr)) k =
      (mapFind (mapAssign c.orders order.id c.heap.length) k).map _
    rw [← mapFind_perm _ _ hv.2.symm hnodup k, mapFind_mapAssign, mapFind_mapAssign]
    by_cases hk : k = order.id
    · rw [if_pos hk, if_pos hk, Option.map_some', hnew]
    · rw [if_neg hk, if_neg hk, h.1 k]
      cases hfind : mapFind c.orders k with
      | none => rfl
      | some v =>
        rw [Option.map_some', Option.map_some',
          hold v (hwf.2.2.2.2.1 _ (mapFind_mem _ _ _ hfind)).1]
  · show a.buyOrders = c.buyOrders.map _
    rw [h.2.1]
    exact List.map_congr_left (fun x hx => (hold x (hwf.1 x hx).1).symm)
  · show a.sellOrders = c.sellOrders.map _
    rw [h.2.2.1]
    exact List.map_congr_left (fun x hx => (hold x (hwf.2.1 x hx).1).symm)
  · intro p hp
    show (a.heap.allocAt ch.addr order).cell _ = ((c.heap.alloc order).1).cell p
    rw [Heap.cell_allocAt, Heap.cell_alloc]
    rcases hsplit p hp with hpl | ⟨hpl, hp1⟩
    · rw [hpl, hnew, if_pos rfl, if_pos rfl]
    · rw [hold p hp1, if_neg (hfresh p hp1), if_neg hpl, h.2.2.2.1 p hp1]
  · intro p q hp hq hpq
    rcases hsplit p hp with hpl | ⟨hpl, hp1⟩ <;> rcases hsplit q hq with hql | ⟨hql, hq1⟩
    · rw [hpl, hql]
    · rw [hpl, hnew, hold q hq1] at hpq
      exact absurd hpq.symm (hfresh q hq1)
    · rw [hql, hnew, hold p hp1] at hpq
      exact absurd hpq (hfresh p hp1)
    · rw [hold p hp1, hold q hq1] at hpq
      exact h.2.2.2.2.1 p q hp1 hq1 hpq
  · exact (hv.2.map Prod.fst).nodup_iff.mpr hnodup

theorem sim_placeAt (f : Ptr → Ptr) (c a : OrderBook) (h : Sim f c a) (hwf : c.WF)
    (ch : Choice) (order : Order) (hv : a.ValidChoice ch order.id) :
    Sim (Function.update f c.heap.length ch.addr) (c.place order) (a.placeAt ch order) := by
  have h1 := sim_create f c a h hwf ch order hv
  have hnew : Function.update f c.heap.length ch.addr c.heap.length = ch.addr :=
    Function.update_same _ _ _
  have hlen : ((c.heap.alloc order).1).live c.heap.length = true := by
    unfold Heap.live
    rw [Heap.cell_alloc, if_pos rfl]
    rfl
  have hkeep : ∀ x, c.heap.live x = true → ((c.heap.alloc order).1).live x = true := by
    intro x hx
    unfold Heap.live at hx ⊢
    rw [Heap.cell_alloc]
    split
    · rfl
    · exact hx
  unfold place placeAt
  dsimp only
  cases hside : order.isBuy with
  | true =>
    simp only [if_true]
    have h2 := sim_insertBuy _ _ _ h1 c.heap.length hlen (fun x hx => hkeep x (hwf.1 x hx).1)
    rw [hnew] at h2
    exact h2
  | false =>
    simp only [Bool.false_eq_true, if_false]
    have h2 := sim_insertSell _ _ _ h1 c.heap.length hlen (fun x hx => hkeep x (hwf.2.1 x hx).1)
    rw [hnew] at h2
    exact h2

theorem sim_addOrderAt (f : Ptr → Ptr) (c a : OrderBook) (h : Sim f c a) (hwf : c.WF)
    (ch : Choice) (order : Order) (hv : a.ValidChoice ch order.id) :
    (a.addOrderAt ch order).2 = (c.addOrder order).2 ∧
      ∃ g, Sim g (c.addOrder order).1 (a.addOrderAt ch order).1 := by
  have h1 := sim_match _ _ _ (sim_placeAt f c a h hwf ch order hv) (WF_place c order hwf)
  exact ⟨h1.1, _, h1.2⟩

theorem sim_amendOrderAt (f : Ptr → Ptr) (c a : OrderBook) (h : Sim f c a) (hwf : c.WF)
    (ch : Choice) (orderId : Nat) (newPrice : Price) (newQuantity now : Nat)
    (hv : a.ValidFor ch (.amend orderId newPrice newQuantity now)) :
    (a.amendOrderAt ch orderId newPrice newQuantity now).2 =
        (c.amendOrder orderId newPrice newQuantity now).2 ∧
      ∃ g, Sim g (c.amendOrder orderId newPrice newQuantity now).1
        (a.amendOrderAt ch orderId newPrice newQuantity now).1 := by
  have hfa := h.1 orderId
  unfold amendOrder amendOrderAt
  cases hfind : mapFind c.orders orderId with
  | none =>
    rw [hfind] at hfa
    rw [hfa]
    exact ⟨rfl, f, h⟩
  | some order =>
    rw [hfind, Option.map_some'] at hfa
    rw [hfa]
    dsimp only
    have hlive : c.heap.live order = true := (hwf.2.2.2.2.1 _ (mapFind_mem _ _ _ hfind)).1
    have hd := sim_deref f c a h order hlive
    rw [hd]
    by_cases hprice : (c.deref order).price ≠ newPrice
    · rw [if_pos hprice, if_pos hprice]
      have hread : a.readsClock orderId newPrice = true := by
        unfold readsClock
        rw [hfa]
        dsimp only
        rw [hd]
        exact decide_eq_true hprice
      have hc := sim_cancelOrder f c a h hwf orderId
      have h1 := sim_addOrderAt f _ _ hc.2 (WF_cancelOrder c orderId hwf) ch
        ⟨orderId, (c.deref order).isBuy, newPrice, newQuantity, now⟩ (hv hread)
      obtain ⟨htr, g, hg⟩ := h1
      exact ⟨by rw [htr], g, hg⟩
    · rw [if_neg hprice, if_neg hprice]
      have h1 := sim_match f _ _ (sim_setQuantity f c a h order hlive newQuantity)
        (WF_setQuantity c order newQuantity hwf)
      exact ⟨by rw [h1.1], f, h1.2⟩

theorem sim_execAt (f : Ptr → Ptr) (c a : OrderBook) (h : Sim f c a) (hwf : c.WF)
    (ch : Choice) (op : Op) (hv : a.ValidFor ch op) :
    (a.execAt ch op).2 = (c.exec op).2 ∧ ∃ g, Sim g (c.exec op).1 (a.execAt ch op).1 := by
  cases op with
  | add order =>
    have h1 := sim_addOrderAt f c a h hwf ch order hv
    obtain ⟨htr, g, hg⟩ := h1
    exact ⟨by simp only [execAt, exec, htr], g, hg⟩
  | cancel orderId =>
    have h1 := sim_cancelOrder f c a h hwf orderId
    exact ⟨by simp only [execAt, exec, h1.1], f, h1.2⟩
  | amend orderId newPrice newQuantity now =>
    have h1 := sim_amendOrderAt f c a h hwf ch orderId newPrice newQuantity now hv
    obtain ⟨htr, g, hg⟩ := h1
    exact ⟨by simp only [execAt, exec, htr], g, hg⟩

/-- A run under valid choices prints and returns what the run of the same calls
with the next unused address and the table in insertion order does, and ends
in the same state up to the addresses and the layout of the table. -/
theorem sim_outputsAt (calls : List (Op × Choice)) (f : Ptr → Ptr) (c a : OrderBook)
    (h : Sim f c a) (hwf : c.WF) (hv : ValidChoices a calls) :
    outputsAt a calls = outputs c (calls.map Prod.fst) ∧
      ∃ g, Sim g (c.runFrom (calls.map Prod.fst)) (a.runAt calls) := by
  induction calls generalizing f c a with
  | nil => exact ⟨rfl, f, h⟩
  | cons oc rest ih =>
    obtain ⟨op, ch⟩ := oc
    obtain ⟨hv1, hv2⟩ : a.ValidFor ch op ∧ ValidChoices (a.execAt ch op).1 rest := hv
    obtain ⟨hout, g, hg⟩ := sim_execAt f c a h hwf ch op hv1
    obtain ⟨hrest, g2, hg2⟩ := ih g _ _ hg (WF_exec c op hwf) hv2
    refine ⟨?_, g2, hg2⟩
    show (a.execAt ch op).2 :: outputsAt (a.execAt ch op).1 rest =
      (c.exec op).2 :: outputs (c.exec op).1 (rest.map Prod.fst)
    rw [hout, hrest]

theorem aggregateLoop_map (h h2 : Heap) (f : Ptr → Ptr) (depth : Nat) (l : List Ptr)
    (hd : ∀ p ∈ l, h2.deref (f p) = h.deref p) (levels : List PriceLevel) (currentPrice : Price)
    (totalQty : Nat) :
    aggregateLoop h2 depth (l.map f) levels currentPrice totalQty =
      aggregateLoop h depth l levels currentPrice totalQty := by
  induction l generalizing levels currentPrice totalQty with
  | nil => rfl
  | cons p rest ih =>
    have ih1 := ih (fun x hx => hd x (List.mem_cons_of_mem _ hx))
    simp only [List.map_cons, aggregateLoop, hd p (List.mem_cons_self _ _), ih1]

/-- Two states that differ in their addresses and in the layout of the table
give the same snapshot. -/
theorem sim_getSnapshot (f : Ptr → Ptr) (c a : OrderBook) (h : Sim f c a) (hwf : c.WF)
    (depth : Nat) : a.getSnapshot depth = c.getSnapshot depth := by
  unfold getSnapshot aggregateLevels
  rw [h.2.1, h.2.2.1,
    aggregateLoop_map c.heap a.heap f depth c.buyOrders
      (fun p hp => sim_deref f c a h p (hwf.1 p hp).1),
    aggregateLoop_map c.heap a.heap f depth c.sellOrders
      (fun p hp => sim_deref f c a h p (hwf.2.1 p hp).1)]

theorem sim_empty : Sim (fun p => p) empty empty :=
  ⟨fun _ => rfl, rfl, rfl, fun _ _ => rfl, fun _ _ _ _ e => e, List.nodup_nil⟩

/-- With the next unused address and the table left as it is, `placeAt` is
`place`. -/
theorem placeAt_nextChoice (b : OrderBook) (order : Order) :
    b.placeAt b.nextChoice order = b.place order := by
  unfold placeAt place nextChoice
  dsimp only
  rw [Heap.allocAt_length]
  rfl

theorem cancelOrder_nextChoice (b : OrderBook) (orderId : Nat) :
    (b.cancelOrder orderId).1.nextChoice = b.nextChoice := by
  unfold nextChoice
  rw [cancelOrder_heap_length]

theorem execAt_nextChoice (b : OrderBook) (op : Op) : b.execAt b.nextChoice op = b.exec op := by
  cases op with
  | add order =>
    simp only [execAt, exec, addOrderAt, addOrder, placeAt_nextChoice]
  | cancel orderId => rfl
  | amend orderId newPrice newQuantity now =>
    have h1 : b.amendOrderAt b.nextChoice orderId newPrice newQuantity now =
        b.amendOrder orderId newPrice newQuantity now := by
      unfold amendOrderAt amendOrder
      cases mapFind b.orders orderId with
      | none => rfl
      | some order =>
        dsimp only
        rw [← cancelOrder_nextChoice b orderId]
        simp only [addOrderAt, addOrder, placeAt_nextChoice]
    simp only [execAt, exec, h1]

theorem validChoice_nextChoice (b : OrderBook) (orderId : Nat) :
    b.ValidChoice b.nextChoice orderId :=
  ⟨Heap.not_live_length b.heap, List.Perm.refl _⟩

theorem validFor_nextChoice (b : OrderBook) (op : Op) : b.ValidFor b.nextChoice op := by
  cases op with
  | add order => exact validChoice_nextChoice b order.id
  | cancel orderId => exact trivial
  | amend orderId newPrice newQuantity now =>
    intro _
    rw [← cancelOrder_nextChoice b orderId]
    exact validChoice_nextChoice _ orderId

/-- The run that `exec` describes is one of the runs under valid choices: every
sequence of calls has one. -/
theorem nextCalls_valid (ops : List Op) (b : OrderBook) :
    (nextCalls b ops).map Prod.fst = ops ∧ ValidChoices b (nextCalls b ops) ∧
      outputsAt b (nextCalls b ops) = outputs b ops ∧
      b.runAt (nextCalls b ops) = b.runFrom ops := by
  induction ops generalizing b with
  | nil => exact ⟨rfl, trivial, rfl, rfl⟩
  | cons op rest ih =>
    have he := execAt_nextChoice b op
    obtain ⟨h1, h2, h3, h4⟩ := ih (b.exec op).1
    refine ⟨?_, ?_, ?_, ?_⟩
    · show op :: (nextCalls (b.exec op).1 rest).map Prod.fst = op :: rest
      rw [h1]
    · show b.ValidFor b.nextChoice op ∧
        ValidChoices (b.execAt b.nextChoice op).1 (nextCalls (b.exec op).1 rest)
      rw [he]
      exact ⟨validFor_nextChoice b op, h2⟩
    · show (b.execAt b.nextChoice op).2 ::
          outputsAt (b.execAt b.nextChoice op).1 (nextCalls (b.exec op).1 rest) =
        (b.exec op).2 :: outputs (b.exec op).1 rest
      rw [he, h3]
    · show runAt (b.execAt b.nextChoice op).1 (nextCalls (b.exec op).1 rest) =
        runFrom (b.exec op).1 rest
      rw [he, h4]

/-- C18 (determinism): take two runs, on a fresh book, of the same sequence of
calls with the same clock readings wherever `amendOrder` reads the clock.  In
each run the allocator is free to return any address that holds no object at
that moment (a cell deleted earlier may be reused) and the lookup table is free
to rearrange its entries at every insertion; the two runs need not agree on
either, and in general end in different states.  They print the same trades
and return the same values call by call, and `getSnapshot` gives the same
result for every depth. -/
theorem C18_determinism (calls1 calls2 : List (Op × Choice))
    (hsame : SameCalls empty (calls1.map Prod.fst) (calls2.map Prod.fst))
    (hv1 : ValidChoices empty calls1) (hv2 : ValidChoices empty calls2) :
    outputsAt empty calls1 = outputsAt empty calls2 ∧
      ∀ depth, (runAt empty calls1).getSnapshot depth =
        (runAt empty calls2).getSnapshot depth := by
  obtain ⟨ho1, g1, hg1⟩ := sim_outputsAt calls1 _ empty empty sim_empty WF_empty hv1
  obtain ⟨ho2, g2, hg2⟩ := sim_outputsAt calls2 _ empty empty sim_empty WF_empty hv2
  have hr := replay_runFrom empty _ _ hsame
  refine ⟨by rw [ho1, ho2, hr.1], fun depth => ?_⟩
  rw [sim_getSnapshot g1 _ _ hg1 (WF_runFrom _ empty WF_empty) depth,
    sim_getSnapshot g2 _ _ hg2 (WF_runFrom _ empty WF_empty) depth, hr.2]

/-- C18 on the calls of `main` followed by a crossing amend: `firstRun` and
`secondRun` use different addresses (the second reuses deleted cells), lay
the table out differently and differ in a clock reading that is not read; they
end in different states, print the same trades, among them the two trades of
the last call, and give the same snapshot. -/
theorem C18_determinism_witness :
    SameCalls empty (firstRun.map Prod.fst) (secondRun.map Prod.fst) ∧
      ValidChoices empty firstRun ∧ ValidChoices empty secondRun ∧
      (runAt empty firstRun).buyOrders = [8, 4, 1, 5] ∧
      (runAt empty secondRun).buyOrders = [10, 2, 4, 7] ∧
      (runAt empty firstRun).orders ≠ (runAt empty secondRun).orders ∧
      outputsAt empty firstRun = outputsAt empty secondRun ∧
      (outputsAt empty firstRun).getLast? =
        some ([⟨1, 8, 102, 10⟩, ⟨1, 4, 103, 30⟩], some true) ∧
      (runAt empty firstRun).getSnapshot 5 = (runAt empty secondRun).getSnapshot 5 :=
  ⟨by decide, by decide, by decide, by decide, by decide, by decide,
    (C18_determinism firstRun secondRun (by decide) (by decide) (by decide)).1, by decide,
    (C18_determinism firstRun secondRun (by decide) (by decide) (by decide)).2 5⟩

end OrderBook

end HFT
